import Mathlib

/-!
# Emulated thread-local storage (`libgcc/emutls.c`)

A shallow embedding of `src/gcc-4.9/libgcc/emutls.c` and a verification of its
specification.

Conventions of the embedding.

* Machine integers (`word`, `pointer`, `size_t`, addresses) are natural numbers
  reduced modulo `2 ^ w`, where `w` is the pointer width in bits.  `word` and
  `pointer` are taken to have the same width.
* `NULL` is the address `0`.
* A descriptor (`struct __emutls_object *`) is identified by a natural number;
  the process state maps it to the record it points to.
* The C library (`malloc`, `calloc`, `realloc`, `free`) belongs to the
  environment.  Every allocating call receives the environment's answer as an
  extra argument; an answer that is not a fresh block is read as `NULL`, so the
  calls range over exactly the outcomes the C standard allows.
* The thread library belongs to the environment as well.  `emutls_init` creates
  the key when it runs, which it does only on the path that assigns a slot.  A key
  that was never created holds no value for any thread, and `__gthread_setspecific`
  on it fails without effect.
* `abort ()` and undefined behaviour (an access outside an allocated block, an
  invalid `free`) end the run with a `Fault`.
-/

namespace Emutls

set_option maxRecDepth 100000

/-- The compilation target: `sizeof (void *)` is `2 ^ ptrShift` bytes (a power of
two, as on every target of GCC), and `bionic` says whether `__BIONIC__` is defined. -/
structure Target where
  ptrShift : Nat
  bionic : Bool
deriving DecidableEq, Repr

/-- The value of `sizeof (void *)`, in bytes. -/
def Target.ptrBytes (T : Target) : Nat := 2 ^ T.ptrShift

/-- The number of values of the types `word` and `pointer`: `2 ^ w`. -/
def Target.modulus (T : Target) : Nat := 2 ^ (8 * T.ptrBytes)

/-- Lines 33-47: `#define EMUTLS_SKIP_DESTRUCTOR_ROUNDS`. -/
def EMUTLS_SKIP_DESTRUCTOR_ROUNDS (T : Target) : Nat := if T.bionic then 1 else 0

/-- Lines 52-61: `struct __emutls_object`.  The union `loc` is one field: read as
`loc.offset` it is the slot, read as `loc.ptr` it is the single-thread instance. -/
structure __emutls_object where
  size : Nat
  align : Nat
  loc : Nat
  templ : Nat
deriving DecidableEq, Repr

/-- Lines 63-68: `struct __emutls_array`, together with the address `base` at which
the array lives.  `data` lists the entries the allocated block has room for. -/
structure __emutls_array where
  base : Nat
  skip_destructor_rounds : Nat
  size : Nat
  data : List Nat
deriving DecidableEq, Repr

/-- Line 197: `sizeof (struct __emutls_array) / sizeof (void *)`, two header fields
of pointer width. -/
def hdr_size : Nat := 2

/-- How a run ends early: `abort ()`, or undefined behaviour. -/
inductive Fault where
  | abort
  | undefined
deriving DecidableEq, Repr

/-- Ghost record of the calls made to the allocator on behalf of storage blocks:
`alloc t raw` is the `malloc` of `emutls_alloc` made while thread `t` runs, and
`release t p` is a `free (p)` made by `emutls_destroy` while thread `t` runs. -/
inductive Event where
  | alloc (t raw : Nat)
  | release (t p : Nat)
deriving DecidableEq, Repr

/-- The process state.  `objs` are the descriptors, `emutls_size` the global slot
counter (line 81), `key t` the value of `emutls_key` in thread `t`
(`__gthread_getspecific`), `mem` the bytes of memory, `heap` the live blocks of
the allocator as pairs (address, length), `emutls_key_created` the flag of line 80:
whether `emutls_init` has created the key. -/
structure State where
  objs : Nat → __emutls_object
  emutls_size : Nat
  key : Nat → Option __emutls_array
  mem : Nat → Nat
  heap : List (Nat × Nat)
  log : List Event
  emutls_key_created : Bool

/-! ## Memory -/

/-- Read `n` bytes at `a` as a little-endian number. -/
def loadLE (mem : Nat → Nat) : Nat → Nat → Nat
  | _, 0 => 0
  | a, n + 1 => mem a % 256 + 256 * loadLE mem (a + 1) n

/-- Write `v` as `n` little-endian bytes at `a`. -/
def storeLE (mem : Nat → Nat) (a n v : Nat) : Nat → Nat :=
  fun x => if a ≤ x ∧ x < a + n then v / 256 ^ (x - a) % 256 else mem x

/-- Load of a `void *` at address `a`. -/
def loadPtr (T : Target) (mem : Nat → Nat) (a : Nat) : Nat := loadLE mem a T.ptrBytes

/-- Store of the `void *` `v` at address `a`. -/
def storePtr (T : Target) (mem : Nat → Nat) (a v : Nat) : Nat → Nat :=
  storeLE mem a T.ptrBytes v

/-- The effect of `memcpy (dst, src, n)`. -/
def memcpy (mem : Nat → Nat) (dst src n : Nat) : Nat → Nat :=
  fun x => if dst ≤ x ∧ x < dst + n then mem (src + (x - dst)) else mem x

/-- The effect of `memset (dst, c, n)`. -/
def memset (mem : Nat → Nat) (dst c n : Nat) : Nat → Nat :=
  fun x => if dst ≤ x ∧ x < dst + n then c else mem x

/-! ## The allocator of the C library -/

/-- What the C standard promises of a successful allocation of `n` bytes at `p`:
`p` is not `NULL`, is aligned for a pointer, the block and its one-past-the-end
address lie in the address space, and the block is apart from every live block
(a block of length zero still has an address of its own). -/
def FreshBlock (T : Target) (heap : List (Nat × Nat)) (p n : Nat) : Prop :=
  p ≠ 0 ∧ p % T.ptrBytes = 0 ∧ p + n < T.modulus ∧
    ∀ b ∈ heap, p + max n 1 ≤ b.1 ∨ b.1 + max b.2 1 ≤ p

instance (T : Target) (heap : List (Nat × Nat)) (p n : Nat) :
    Decidable (FreshBlock T heap p n) := by
  unfold FreshBlock; infer_instance

/-- The call `malloc (n)` with the environment's `answer`: the pointer returned and
the live blocks afterwards. -/
def malloc (T : Target) (heap : List (Nat × Nat)) (n answer : Nat) :
    Nat × List (Nat × Nat) :=
  if FreshBlock T heap answer n then (answer, (answer, n) :: heap) else (0, heap)

/-- The call `calloc (nmemb, size)`: a `malloc` of the product, which fails when the
product does not fit. -/
def calloc (T : Target) (heap : List (Nat × Nat)) (nmemb size answer : Nat) :
    Nat × List (Nat × Nat) :=
  malloc T heap (nmemb * size) answer

/-- The call `realloc (old, n)`: the old block is given up and a block of `n` bytes,
possibly at the same address, is returned; on failure nothing changes. -/
def realloc (T : Target) (heap : List (Nat × Nat)) (old n answer : Nat) :
    Nat × List (Nat × Nat) :=
  let rest := heap.filter (fun b => b.1 ≠ old)
  if FreshBlock T rest answer n then (answer, (answer, n) :: rest) else (0, heap)

/-- The call `free (p)` made by `emutls_destroy` while thread `t` runs: nothing for
`NULL`, undefined when `p` is not the address of a live block. -/
def free (s : State) (t p : Nat) : Except Fault State :=
  if p = 0 then .ok s
  else if ∃ b ∈ s.heap, b.1 = p then
    .ok { s with heap := s.heap.filter (fun b => b.1 ≠ p),
                 log := s.log ++ [Event.release t p] }
  else .error .undefined

/-! ## `__emutls_register_common` -/

/-- Lines 233-246. -/
def __emutls_register_common (obj : __emutls_object) (size align templ : Nat) :
    __emutls_object :=
  let obj := if obj.size < size then { obj with size := size, templ := 0 } else obj
  let obj := if obj.align < align then { obj with align := align } else obj
  if templ ≠ 0 ∧ size = obj.size then { obj with templ := templ } else obj

/-! ## `emutls_alloc` -/

/-- The byte count `emutls_alloc` passes to `malloc` (lines 143 and 151). -/
def emutls_alloc_request (T : Target) (obj : __emutls_object) : Nat :=
  if obj.align ≤ T.ptrBytes then (obj.size + T.ptrBytes) % T.modulus
  else (obj.size + T.ptrBytes + obj.align - 1) % T.modulus

/-- The sum of lines 143 and 151, before reduction to the width of `size_t`. -/
def request_sum (T : Target) (obj : __emutls_object) : Nat :=
  if obj.align ≤ T.ptrBytes then obj.size + T.ptrBytes
  else obj.size + T.ptrBytes + obj.align - 1

/-- The address `emutls_alloc` returns when `malloc` returned `ptr` (lines 147 and
154-155). -/
def emutls_alloc_ret (T : Target) (obj : __emutls_object) (ptr : Nat) : Nat :=
  if obj.align ≤ T.ptrBytes then (ptr + T.ptrBytes) % T.modulus
  else Nat.land ((ptr + T.ptrBytes + obj.align - 1) % T.modulus)
    (T.modulus - 1 - (obj.align - 1) % T.modulus)

/-- The address at which `emutls_alloc` stores `ptr`: `((void **) ptr)[0]` (line 146)
or `((void **) ret)[-1]` (line 156). -/
def emutls_alloc_backptr (T : Target) (obj : __emutls_object) (ptr : Nat) : Nat :=
  if obj.align ≤ T.ptrBytes then ptr
  else (emutls_alloc_ret T obj ptr + T.modulus - T.ptrBytes) % T.modulus

/-- Lines 133-165, called while thread `t` runs, with the environment's answer to
`malloc`.  Both stores must lie inside the block obtained. -/
def emutls_alloc (T : Target) (s : State) (t : Nat) (obj : __emutls_object)
    (answer : Nat) : Except Fault (State × Nat) :=
  let n := emutls_alloc_request T obj
  let r := malloc T s.heap n answer
  let ptr := r.1
  if ptr = 0 then .error .abort
  else
    let ret := emutls_alloc_ret T obj ptr
    let bp := emutls_alloc_backptr T obj ptr
    if ¬ (ptr ≤ bp ∧ bp + T.ptrBytes ≤ ptr + n) then .error .undefined
    else if ¬ (ptr ≤ ret ∧ ret + obj.size ≤ ptr + n) then .error .undefined
    else
      let mem1 := storePtr T s.mem bp ptr
      let mem2 := if obj.templ ≠ 0 then memcpy mem1 ret obj.templ obj.size
        else memset mem1 ret 0 obj.size
      .ok ({ s with mem := mem2, heap := r.2, log := s.log ++ [Event.alloc t ptr] }, ret)

/-! ## `emutls_destroy` -/

/-- The word before the block `p`: `arr->data[i][-1]` for the entry `p` (line 106). -/
def back_ptr (T : Target) (mem : Nat → Nat) (p : Nat) : Nat :=
  loadPtr T mem ((p + T.modulus - T.ptrBytes) % T.modulus)

/-- Lines 103-107: the loop over the entries, `free (arr->data[i][-1])` for each
entry that is not `NULL`. -/
def destroy_blocks (T : Target) (t : Nat) : State → List Nat → Except Fault State
  | s, [] => .ok s
  | s, p :: rest =>
    if p ≠ 0 then
      match free s t (back_ptr T s.mem p) with
      | .error e => .error e
      | .ok s1 => destroy_blocks T t s1 rest
    else destroy_blocks T t s rest

/-- Lines 83-111, run by thread `t` on the array `arr`. -/
def emutls_destroy (T : Target) (s : State) (t : Nat) (arr : __emutls_array) :
    Except Fault State :=
  if arr.skip_destructor_rounds > 0 then
    let arr1 : __emutls_array :=
      { arr with skip_destructor_rounds := arr.skip_destructor_rounds - 1 }
    .ok { s with key := Function.update s.key t (some arr1) }
  else if arr.data.length < arr.size then .error .undefined
  else
    match destroy_blocks T t s (arr.data.take arr.size) with
    | .error e => .error e
    | .ok s1 => free s1 t arr.base

/-- One round of the thread-exit machinery for thread `t`: a key whose value is not
`NULL` is reset to `NULL` and its destructor is called on the old value. -/
def thread_exit_round (T : Target) (s : State) (t : Nat) : Except Fault State :=
  match s.key t with
  | none => .ok s
  | some arr => emutls_destroy T { s with key := Function.update s.key t none } t arr

/-- The outcome of `k` successive rounds for thread `t`. -/
def exit_rounds (T : Target) (t : Nat) : Nat → State → Except Fault State
  | 0, s => .ok s
  | k + 1, s =>
    match thread_exit_round T s t with
    | .error e => .error e
    | .ok s1 => exit_rounds T t k s1

/-- The pointers a pass of `emutls_destroy` over the entries `data` hands to `free`:
the word before each entry that is not `NULL` (`arr->data[i][-1]`), those that are
not `NULL` themselves. -/
def block_ptrs (T : Target) (mem : Nat → Nat) (data : List Nat) : List Nat :=
  ((data.filter (fun p => p ≠ 0)).map (back_ptr T mem)).filter (fun q => q ≠ 0)

/-! ## `__emutls_get_address` -/

/-- Lines 180-194 as one atomic step: the slot of descriptor `d`, assigned from the
global counter when it is still zero.  Only on this path, entered with the field at
zero, does `__gthread_once` run `emutls_init` (lines 184-185), which creates the key;
`__gthread_key_create` is taken to succeed. -/
def resolve_offset (T : Target) (s : State) (d : Nat) : State × Nat :=
  let offset := (s.objs d).loc
  if offset = 0 then
    let offset := (s.emutls_size + 1) % T.modulus
    ({ s with emutls_key_created := true, emutls_size := offset,
              objs := Function.update s.objs d { s.objs d with loc := offset } }, offset)
  else (s, offset)

/-- Whether `emutls_key` is a key of the thread library for thread `t`: it is one
once `emutls_init` has run, and a key under which the thread holds a value is one. -/
def key_exists (s : State) (t : Nat) : Bool :=
  s.emutls_key_created || (s.key t).isSome

/-- The call `__gthread_setspecific (emutls_key, arr)` by thread `t` (lines 206 and
220).  For a key that was never created the call fails and stores nothing; the code
does not look at what it returns. -/
def __gthread_setspecific (s : State) (t : Nat) (arr : __emutls_array) : State :=
  if key_exists s t then { s with key := Function.update s.key t (some arr) } else s

/-- A write by thread `t` into the array `arr` it works on (line 228).  The state
holds the contents of the array the key of the thread points to; an array that
`__gthread_setspecific` failed to store is not found again by any later call, and a
write into it leaves the state as it is. -/
def write_array (s : State) (t : Nat) (arr : __emutls_array) : State :=
  match s.key t with
  | some _ => { s with key := Function.update s.key t (some arr) }
  | none => s

/-- Lines 208-213: the capacity the array is grown to. -/
def grown_size (T : Target) (orig_size offset : Nat) : Nat :=
  let size := orig_size * 2 % T.modulus
  if offset > size then (offset + 32) % T.modulus else size

/-- Lines 196-221: the array of thread `t`, created or grown for slot `offset`.
`__gthread_getspecific (emutls_key)` is `s.key t`: `NULL` for a thread that holds
no array, and for every thread while the key does not exist.  A created array whose element count wrapped has no room for its header.  A grown
array whose new capacity wrapped below the old one, or whose byte count
`(size + hdr_size) * sizeof (void *)` does not fit the pointer width, is shorter
than `arr->size` says, and the `memset` of line 218 or the access of line 223
leaves the block: both are undefined. -/
def ensure_array (T : Target) (s : State) (t offset answer : Nat) :
    Except Fault (State × __emutls_array) :=
  match s.key t with
  | none =>
    let size := (offset + 32) % T.modulus
    let nmemb := (size + hdr_size) % T.modulus
    let r := calloc T s.heap nmemb T.ptrBytes answer
    if r.1 = 0 then .error .abort
    else if nmemb < hdr_size then .error .undefined
    else
      let arr : __emutls_array :=
        { base := r.1, skip_destructor_rounds := EMUTLS_SKIP_DESTRUCTOR_ROUNDS T,
          size := size, data := List.replicate (nmemb - hdr_size) 0 }
      .ok (__gthread_setspecific { s with heap := r.2 } t arr, arr)
  | some arr =>
    if offset > arr.size then
      let orig_size := arr.size
      let size := grown_size T orig_size offset
      let r := realloc T s.heap arr.base
        ((size + hdr_size) % T.modulus * T.ptrBytes % T.modulus) answer
      if r.1 = 0 then .error .abort
      else if size < orig_size ∨ T.modulus ≤ (size + hdr_size) * T.ptrBytes then
        .error .undefined
      else
        let arr1 : __emutls_array :=
          { arr with base := r.1, size := size,
                     data := arr.data.take orig_size ++ List.replicate (size - orig_size) 0 }
        .ok (__gthread_setspecific { s with heap := r.2 } t arr1, arr1)
    else .ok (s, arr)

/-- Lines 199 and 209-213: the capacity `arr->size` the call leaves the array of
thread `t` with, for slot `offset`. -/
def new_capacity (T : Target) (s : State) (t offset : Nat) : Nat :=
  match s.key t with
  | none => (offset + 32) % T.modulus
  | some arr => if offset > arr.size then grown_size T arr.size offset else arr.size

/-- Lines 167-231, called by thread `t` on descriptor `d`; `active` is the value of
`__gthread_active_p ()`, `arrAns` and `rawAns` are the environment's answers to
the allocation of the array and of the storage block.  A call entered with the
field of `d` not zero does not pass `emutls_init`: when no earlier call has created
the key, the array it allocates is not stored under the key. -/
def __emutls_get_address (T : Target) (active : Bool) (s : State) (t d : Nat)
    (arrAns rawAns : Nat) : Except Fault (State × Nat) :=
  if ¬ active then
    if (s.objs d).loc = 0 then
      match emutls_alloc T s t (s.objs d) rawAns with
      | .error e => .error e
      | .ok (s1, ret) =>
        .ok ({ s1 with objs := Function.update s1.objs d { s1.objs d with loc := ret } }, ret)
    else .ok (s, (s.objs d).loc)
  else
    let r := resolve_offset T s d
    match ensure_array T r.1 t r.2 arrAns with
    | .error e => .error e
    | .ok (s2, arr) =>
      let idx := (r.2 + T.modulus - 1) % T.modulus
      if arr.data.length ≤ idx then .error .undefined
      else
        let ret := arr.data.getD idx 0
        if ret = 0 then
          match emutls_alloc T s2 t (s2.objs d) rawAns with
          | .error e => .error e
          | .ok (s3, ret1) =>
            let arr1 : __emutls_array := { arr with data := arr.data.set idx ret1 }
            .ok (write_array s3 t arr1, ret1)
        else .ok (s2, ret)

/-! ## Runs -/

/-- The operations of a run: a call of `__emutls_get_address` (with the mode and the
environment's answers), a call of `__emutls_register_common`, and one round of
the exit hook of a thread. -/
inductive Op where
  | get (active : Bool) (t d arrAns rawAns : Nat)
  | register (d size align templ : Nat)
  | exit (t : Nat)
deriving DecidableEq, Repr

/-- One operation, as a whole. -/
def step (T : Target) (s : State) : Op → Except Fault State
  | .get active t d arrAns rawAns =>
    match __emutls_get_address T active s t d arrAns rawAns with
    | .error e => .error e
    | .ok (s1, _) => .ok s1
  | .register d size align templ =>
    let obj := __emutls_register_common (s.objs d) size align templ
    .ok { s with objs := Function.update s.objs d obj }
  | .exit t => thread_exit_round T s t

/-- A sequence of operations, stopping at the first fault. -/
def run (T : Target) : State → List Op → Except Fault State
  | s, [] => .ok s
  | s, op :: ops =>
    match step T s op with
    | .error e => .error e
    | .ok s1 => run T s1 ops

/-- The descriptors on which a run calls `__emutls_get_address`, in order. -/
def accessed : List Op → List Nat
  | [] => []
  | .get _ _ d _ _ :: ops => d :: accessed ops
  | _ :: ops => accessed ops

/-- An operation other than a call of `__emutls_get_address` with threads inactive. -/
def Op.threaded : Op → Prop
  | .get active _ _ _ _ => active = true
  | _ => True

instance (op : Op) : Decidable op.threaded := by
  cases op <;> unfold Op.threaded <;> infer_instance

/-- The descriptors of `ds` appended to `seen` in the order of their first occurrence. -/
def first_seen : List Nat → List Nat → List Nat
  | seen, [] => seen
  | seen, d :: ds => first_seen (if d ∈ seen then seen else seen ++ [d]) ds

/-- The slots are the positions in the order of first access: descriptor `d` holds
`0` when it was never accessed, and its position, counted from one, otherwise. -/
def SlotsAre (s : State) (seen : List Nat) : Prop :=
  s.emutls_size = seen.length ∧
    ∀ d, (s.objs d).loc = if d ∈ seen then seen.indexOf d + 1 else 0

/-- Every slot field is a value of the type `pointer`, and every array holds exactly
`size` entries, `size` a value of the type `pointer`. -/
def Fits (T : Target) (s : State) : Prop :=
  (∀ d, (s.objs d).loc < T.modulus) ∧
    ∀ t arr, s.key t = some arr → arr.data.length = arr.size ∧ arr.size < T.modulus

/-- Thread `t` holds the block `p` of descriptor `d` at slot `off`. -/
def EntryAt (s : State) (t d off p : Nat) : Prop :=
  (s.objs d).loc = off ∧
    ∃ arr, s.key t = some arr ∧ off ≤ arr.data.length ∧ arr.data.getD (off - 1) 0 = p

/-- The raw pointers of the `malloc` calls `emutls_alloc` made while thread `t` ran. -/
def allocs_of (t : Nat) (log : List Event) : List Nat :=
  log.filterMap (fun e =>
    match e with
    | .alloc t1 raw => if t1 = t then some raw else none
    | .release _ _ => none)

/-- The allocator's view of the arrays and blocks: every array is a live block; every
entry lies in a live block whose address is the word before the entry; no array is
the raw block of an entry or the array of another thread; the raw blocks of the
entries are pairwise distinct, within a thread and between threads; and as long as a
thread has released nothing, the raw blocks of its entries are the allocations made
for it. -/
structure Owned (T : Target) (s : State) : Prop where
  base_live : ∀ t arr, s.key t = some arr → arr.base ≠ 0 ∧ ∃ b ∈ s.heap, b.1 = arr.base
  cell : ∀ t arr p, s.key t = some arr → p ∈ arr.data → p ≠ 0 →
    T.ptrBytes ≤ p ∧ p < T.modulus ∧
      ∃ b ∈ s.heap, b.1 = back_ptr T s.mem p ∧ b.1 + T.ptrBytes ≤ p ∧ p ≤ b.1 + b.2
  base_ne : ∀ t t1 arr arr1, s.key t = some arr → s.key t1 = some arr1 → t ≠ t1 →
    arr.base ≠ arr1.base
  base_block : ∀ t t1 arr arr1 p, s.key t = some arr → s.key t1 = some arr1 →
    p ∈ arr1.data → p ≠ 0 → arr.base ≠ back_ptr T s.mem p
  block_ne : ∀ t t1 arr arr1 p p1, s.key t = some arr → s.key t1 = some arr1 → t ≠ t1 →
    p ∈ arr.data → p1 ∈ arr1.data → p ≠ 0 → p1 ≠ 0 →
    back_ptr T s.mem p ≠ back_ptr T s.mem p1
  blocks : ∀ t arr, s.key t = some arr →
    (block_ptrs T s.mem arr.data).Nodup ∧
      ((∀ p, Event.release t p ∉ s.log) →
        (block_ptrs T s.mem arr.data).Perm (allocs_of t s.log))
  no_blocks : ∀ t, s.key t = none → (∀ p, Event.release t p ∉ s.log) →
    allocs_of t s.log = []

/-! ## Concrete instances -/

/-- A target with pointers of 8 bytes, not Bionic. -/
def T64 : Target := ⟨3, false⟩

/-- A target with pointers of 8 bytes, Bionic. -/
def T64b : Target := ⟨3, true⟩

/-- The state before any call: no descriptor registered, nothing allocated. -/
def emptyState : State :=
  { objs := fun _ => ⟨0, 0, 0, 0⟩, emutls_size := 0, key := fun _ => none,
    mem := fun _ => 0, heap := [], log := [], emutls_key_created := false }

/-- A state of a 64-bit process: thread 0 owns an array of capacity 33 at 4096 with
one block for slot 1, descriptor 0 has slot 1 and every other descriptor slot 66. -/
def growState : State :=
  { objs := fun d => ⟨8, 8, if d = 0 then 1 else 66, 0⟩, emutls_size := 66,
    key := fun t => if t = 0 then some ⟨4096, 0, 33, 8200 :: List.replicate 32 0⟩ else none,
    mem := storeLE (fun _ => 0) 8192 8 8192,
    heap := [(8192, 16), (4096, 280)], log := [Event.alloc 0 8192],
    emutls_key_created := true }

/-- A state of a 64-bit Bionic process: as `growState`, with one round to skip. -/
def bionicState : State :=
  { growState with
    key := fun t => if t = 0 then some ⟨4096, 1, 33, 8200 :: List.replicate 32 0⟩ else none }

/-- A run on two descriptors by two threads. -/
def demoOps : List Op :=
  [.register 0 4 4 0, .get true 0 0 4096 8192, .get true 1 0 12288 16384,
   .get true 1 1 0 20480, .get true 0 1 0 24576]

/-- The state `growState` with the field of every descriptor but descriptor 0 at
`2 ^ 61`. -/
def hugeState : State :=
  { growState with objs := fun d => ⟨8, 8, if d = 0 then 1 else 2 ^ 61, 0⟩ }

/-- A state in which descriptor 1 already has slot 500, the key exists and no thread
has an array. -/
def sparseState : State :=
  { emptyState with objs := fun d => ⟨8, 8, if d = 1 then 500 else 0, 0⟩,
                    emutls_key_created := true }

/-- Operations after the first access of descriptor 0 by thread 0: an access that
makes the array of thread 0 grow, a registration, an access by another thread. -/
def laterOps : List Op :=
  [.get true 0 1 16384 32768, .register 0 16 16 7, .get true 1 0 40960 49152]

/-- A run on a Bionic target: thread 1 comes and goes, thread 0 accesses three
descriptors, one of them between its two exit rounds, and receives raw blocks that
thread 1 had released. -/
def lifeOps : List Op :=
  [.register 0 4 4 0, .get true 0 0 4096 8192, .get true 1 0 12288 16384, .exit 1,
   .get true 1 1 0 20480, .exit 1, .get true 0 1 0 16384, .exit 0, .get true 0 2 0 20480]

/-- The state a successful run ends in. -/
def final_state (r : Except Fault State) : State :=
  match r with
  | .ok s => s
  | .error _ => emptyState

/-- The capacity of the array of thread `t` after a call, when the call succeeded. -/
def capacity_after (r : Except Fault (State × Nat)) (t : Nat) : Option Nat :=
  match r with
  | .error _ => none
  | .ok (s, _) => (s.key t).map (fun arr => arr.size)

/-- A state with a template: the four bytes 1, 2, 3, 4 at address 256, and every
descriptor of size 4 and alignment 4 with that template. -/
def templState : State :=
  { emptyState with objs := fun _ => ⟨4, 4, 0, 256⟩,
                    mem := storeLE (fun _ => 0) 256 4 67305985 }

/-- The state after the single-threaded instance of descriptor 0 was created in the
empty state, `malloc` answering 8. -/
def singleState : State :=
  final_state (run T64 emptyState [.get false 0 0 0 8])

/-- The state after a threaded call on descriptor 0 in `singleState`, the allocation
of the array answered with 4096 and that of the block with 8192. -/
def mixedState : State :=
  final_state (run T64 emptyState [.get false 0 0 0 8, .get true 0 0 4096 8192])

/-! ## Further notions used in the statements -/

/-- The key exists as soon as a descriptor has a slot: what holds in every state of
a process whose calls of `__emutls_get_address` were all made in threaded mode, a
slot being assigned on the path that runs `emutls_init`. -/
def KeyReady (s : State) : Prop :=
  ∀ d, (s.objs d).loc ≠ 0 → s.emutls_key_created = true

/-- Thread `t` holds no block for descriptor `d`: it has no array, or the entry of
the array for the slot of `d` is `NULL` or beyond the array. -/
def NoEntry (T : Target) (s : State) (t d : Nat) : Prop :=
  ∀ arr, s.key t = some arr →
    arr.data.getD (((resolve_offset T s d).2 + T.modulus - 1) % T.modulus) 0 = 0

/-- A sequence of calls of `__emutls_register_common` on one descriptor, each call
given as `(size, align, templ)`. -/
def register_all (obj : __emutls_object) (calls : List (Nat × Nat × Nat)) :
    __emutls_object :=
  calls.foldl (fun o c => __emutls_register_common o c.1 c.2.1 c.2.2) obj

/-- The maximum of the sizes supplied by the calls, 0 for no call. -/
def max_size (calls : List (Nat × Nat × Nat)) : Nat :=
  (calls.map (fun c => c.1)).foldl max 0

/-- The template supplied by the last call that passed a template that is not `NULL`
together with a size equal to the maximum of all supplied sizes; `NULL` when there
is no such call. -/
def last_full_template (calls : List (Nat × Nat × Nat)) : Nat :=
  match (calls.filter (fun c => decide (c.2.2 ≠ 0 ∧ c.1 = max_size calls))).getLast? with
  | some c => c.2.2
  | none => 0

/-- An operation of a process without threads: a call of `__emutls_get_address` with
threads inactive, or a registration. -/
def Op.single : Op → Prop
  | .get active _ _ _ _ => active = false
  | .register _ _ _ _ => True
  | .exit _ => False

instance (op : Op) : Decidable op.single := by
  cases op <;> unfold Op.single <;> infer_instance

/-! # Verification -/

/-! ## Arithmetic and the allocator -/

/-- Masking with the complement of `2 ^ k - 1` rounds down to a multiple of `2 ^ k`. -/
theorem land_mask_eq (x W k : Nat) (hx : x < 2 ^ W) :
    Nat.land x (2 ^ W - 2 ^ k) = 2 ^ k * (x / 2 ^ k) := by
  show x &&& (2 ^ W - 2 ^ k) = 2 ^ k * (x / 2 ^ k)
  apply Nat.eq_of_testBit_eq
  intro j
  have h2 : 2 ^ W - 2 ^ k = 2 ^ W - ((2 ^ k - 1) + 1) := by
    have := Nat.two_pow_pos k
    omega
  rw [Nat.testBit_and, Nat.testBit_mul_pow_two, ← Nat.shiftRight_eq_div_pow,
    Nat.testBit_shiftRight, h2]
  by_cases hk : k ≤ W
  · have hlt : 2 ^ k - 1 < 2 ^ W := by
      have := Nat.pow_le_pow_right (show 0 < 2 by decide) hk
      have := Nat.two_pow_pos k
      omega
    rw [Nat.testBit_two_pow_sub_succ hlt, Nat.testBit_two_pow_sub_one]
    by_cases hj : j < W
    · by_cases hjk : j < k
      · simp [hj, hjk]
      · have : k + (j - k) = j := by omega
        simp [hj, hjk, this]
        omega
    · have : x.testBit j = false := by
        apply Nat.testBit_lt_two_pow
        exact lt_of_lt_of_le hx (Nat.pow_le_pow_right (by decide) (by omega))
      have h3 : k + (j - k) = j := by omega
      simp [hj, this, h3]
  · have hW : 2 ^ W ≤ 2 ^ k := Nat.pow_le_pow_right (by decide) (by omega)
    have h0 : 2 ^ W - (2 ^ k - 1 + 1) = 0 := by omega
    have hx0 : x.testBit (k + (j - k)) = false := by
      apply Nat.testBit_lt_two_pow
      exact lt_of_lt_of_le hx (le_trans hW (Nat.pow_le_pow_right (by decide) (by omega)))
    rw [h0, hx0]
    simp

/-- A pointer has at least one byte. -/
theorem ptrBytes_pos (T : Target) : 0 < T.ptrBytes := Nat.two_pow_pos _

/-- The type `pointer` has a value. -/
theorem modulus_pos (T : Target) : 0 < T.modulus := Nat.two_pow_pos _

/-- The outcome of a successful `malloc`. -/
theorem malloc_eq (T : Target) (heap : List (Nat × Nat)) (n answer : Nat)
    (h : (malloc T heap n answer).1 ≠ 0) :
    FreshBlock T heap answer n ∧ malloc T heap n answer = (answer, (answer, n) :: heap) := by
  unfold malloc at h ⊢
  by_cases hf : FreshBlock T heap answer n
  · simp [hf]
  · simp [hf] at h

/-- What a successful `emutls_alloc` did. -/
theorem emutls_alloc_ok (T : Target) (s s1 : State) (t : Nat) (obj : __emutls_object)
    (answer ret : Nat) (h : emutls_alloc T s t obj answer = .ok (s1, ret)) :
    FreshBlock T s.heap answer (emutls_alloc_request T obj) ∧
    ret = emutls_alloc_ret T obj answer ∧
    (answer ≤ emutls_alloc_backptr T obj answer ∧
      emutls_alloc_backptr T obj answer + T.ptrBytes ≤ answer + emutls_alloc_request T obj) ∧
    (answer ≤ ret ∧ ret + obj.size ≤ answer + emutls_alloc_request T obj) ∧
    s1 = { s with
      mem := (if obj.templ ≠ 0 then
          memcpy (storePtr T s.mem (emutls_alloc_backptr T obj answer) answer) ret obj.templ obj.size
        else memset (storePtr T s.mem (emutls_alloc_backptr T obj answer) answer) ret 0 obj.size),
      heap := (answer, emutls_alloc_request T obj) :: s.heap,
      log := s.log ++ [Event.alloc t answer] } := by
  unfold emutls_alloc at h
  simp only at h
  by_cases h0 : (malloc T s.heap (emutls_alloc_request T obj) answer).1 = 0
  · simp [h0] at h
  · obtain ⟨hf, hm⟩ := malloc_eq T s.heap _ answer h0
    rw [hm] at h
    simp only at h
    have h1 : answer ≠ 0 := hf.1
    by_cases h2 : answer ≤ emutls_alloc_backptr T obj answer ∧
      emutls_alloc_backptr T obj answer + T.ptrBytes ≤ answer + emutls_alloc_request T obj
    · by_cases h3 : answer ≤ emutls_alloc_ret T obj answer ∧
        emutls_alloc_ret T obj answer + obj.size ≤ answer + emutls_alloc_request T obj
      · simp only [h1, h2, h3, not_true_eq_false, if_false, and_self] at h
        rw [Except.ok.injEq, Prod.mk.injEq] at h
        refine ⟨hf, h.2.symm, h2, ?_, ?_⟩
        · rw [← h.2]; exact h3
        · rw [← h.1, ← h.2]
      · simp [h1, h2, h3] at h
    · simp [h1, h2] at h

/-! ## Memory -/

/-- A load depends on the bytes it reads only. -/
theorem loadLE_congr (m1 m2 : Nat → Nat) (n : Nat) :
    ∀ a, (∀ x, a ≤ x → x < a + n → m1 x = m2 x) → loadLE m1 a n = loadLE m2 a n := by
  induction n with
  | zero => intro a _; rfl
  | succ n ih =>
    intro a h
    rw [loadLE, loadLE, h a (le_refl a) (by omega),
      ih (a + 1) (fun x h1 h2 => h x (by omega) (by omega))]

/-- Reading back what was stored gives the value, reduced to the width stored. -/
theorem loadLE_storeLE (m : Nat → Nat) (n : Nat) :
    ∀ a v, loadLE (storeLE m a n v) a n = v % 256 ^ n := by
  induction n with
  | zero => intro a v; simp [loadLE, Nat.mod_one]
  | succ n ih =>
    intro a v
    rw [loadLE]
    have h1 : storeLE m a (n + 1) v a = v % 256 := by
      unfold storeLE
      rw [if_pos ⟨le_refl a, by omega⟩, Nat.sub_self, pow_zero, Nat.div_one]
    have h2 : loadLE (storeLE m a (n + 1) v) (a + 1) n =
        loadLE (storeLE m (a + 1) n (v / 256)) (a + 1) n := by
      apply loadLE_congr
      intro x hx1 hx2
      unfold storeLE
      rw [if_pos ⟨by omega, by omega⟩, if_pos ⟨hx1, hx2⟩]
      have hx : x - a = (x - (a + 1)) + 1 := by omega
      rw [hx, pow_succ, Nat.mul_comm, Nat.div_div_eq_div_mul]
    rw [h1, h2, ih, Nat.mod_mod, pow_succ, Nat.mul_comm (256 ^ n) 256, Nat.mod_mul]

/-- The value of `256 ^ sizeof (void *)`. -/
theorem modulus_eq (T : Target) : T.modulus = 256 ^ T.ptrBytes := by
  unfold Target.modulus
  rw [pow_mul]
  norm_num

/-- A pointer stored is the pointer loaded. -/
theorem loadPtr_storePtr (T : Target) (m : Nat → Nat) (a v : Nat) (hv : v < T.modulus) :
    loadPtr T (storePtr T m a v) a = v := by
  unfold loadPtr storePtr
  rw [loadLE_storeLE, ← modulus_eq]
  exact Nat.mod_eq_of_lt hv

/-! ## Registration -/

/-- The three fields `__emutls_register_common` may change, in closed form. -/
theorem register_common_eq (obj : __emutls_object) (size align templ : Nat) :
    __emutls_register_common obj size align templ =
      { size := max obj.size size, align := max obj.align align, loc := obj.loc,
        templ := if templ ≠ 0 ∧ obj.size ≤ size then templ
          else if obj.size < size then 0 else obj.templ } := by
  obtain ⟨s0, a0, l0, t0⟩ := obj
  unfold __emutls_register_common
  simp only
  by_cases h1 : s0 < size <;> by_cases h2 : a0 < align <;> by_cases h3 : templ = 0 <;>
    simp [h1, h2, h3, Nat.le_of_lt, Nat.max_eq_left, Nat.max_eq_right, not_lt.mp]
  all_goals
    by_cases h4 : size = s0
    · simp [h4]
    · have h5 : ¬ s0 ≤ size := by omega
      simp [h4, h5]

/-- C3: after `__emutls_register_common (obj, size, align, templ)` the size is the
maximum of the old size and `size`, the alignment is the maximum of the old
alignment and `align`, and neither field has decreased. -/
theorem register_common_size_align (obj : __emutls_object) (size align templ : Nat) :
    (__emutls_register_common obj size align templ).size = max obj.size size ∧
    (__emutls_register_common obj size align templ).align = max obj.align align ∧
    obj.size ≤ (__emutls_register_common obj size align templ).size ∧
    obj.align ≤ (__emutls_register_common obj size align templ).align := by
  rw [register_common_eq]
  exact ⟨rfl, rfl, le_max_left _ _, le_max_left _ _⟩

/-- C4: after one registration the template is the supplied one when it is present
and `size` equals the merged size; otherwise it is `NULL` when `size` exceeded the
old size, and the previous template when it did not. -/
theorem register_common_templ (obj : __emutls_object) (size align templ : Nat) :
    (__emutls_register_common obj size align templ).templ =
      if templ ≠ 0 ∧ size = max obj.size size then templ
      else if obj.size < size then 0 else obj.templ := by
  rw [register_common_eq]
  have h : size = max obj.size size ↔ obj.size ≤ size := by
    constructor
    · intro h; rw [h]; exact le_max_left _ _
    · intro h; exact (max_eq_right h).symm
  simp only [h]

/-- C5: two registrations with different sizes commute, and on a zero-initialised
descriptor `register (4, 4, T1)` and `register (8, 8, T2)` give size 8, alignment 8
and template `T2` in either order. -/
theorem register_common_order :
    (∀ (obj : __emutls_object) (s1 a1 t1 s2 a2 t2 : Nat), s1 ≠ s2 →
      __emutls_register_common (__emutls_register_common obj s1 a1 t1) s2 a2 t2 =
        __emutls_register_common (__emutls_register_common obj s2 a2 t2) s1 a1 t1) ∧
    (∀ t1 t2 : Nat,
      __emutls_register_common (__emutls_register_common ⟨0, 0, 0, 0⟩ 4 4 t1) 8 8 t2 =
        ⟨8, 8, 0, t2⟩ ∧
      __emutls_register_common (__emutls_register_common ⟨0, 0, 0, 0⟩ 8 8 t2) 4 4 t1 =
        ⟨8, 8, 0, t2⟩) := by
  constructor
  · intro obj s1 a1 t1 s2 a2 t2 hne
    obtain ⟨s0, a0, l0, t0⟩ := obj
    simp only [register_common_eq]
    have hs : max (max s0 s1) s2 = max (max s0 s2) s1 := by omega
    have ha : max (max a0 a1) a2 = max (max a0 a2) a1 := by omega
    rw [hs, ha]
    congr 1
    simp only [Nat.max_def]
    split_ifs <;> omega
  · intro t1 t2
    simp only [register_common_eq]
    by_cases h1 : t1 = 0 <;> by_cases h2 : t2 = 0 <;> simp [h1, h2]

/-- Witness of C5: the registrations `(4, 4, 1)` and `(8, 8, 2)` on a descriptor
that already holds size 6. -/
theorem register_common_order_witness :
    (4 : Nat) ≠ 8 ∧
    __emutls_register_common (__emutls_register_common ⟨6, 2, 0, 9⟩ 4 4 1) 8 8 2 =
      __emutls_register_common (__emutls_register_common ⟨6, 2, 0, 9⟩ 8 8 2) 4 4 1 :=
  ⟨by decide, register_common_order.1 ⟨6, 2, 0, 9⟩ 4 4 1 8 8 2 (by decide)⟩

/-- C6: registering twice in a row with the same arguments gives the state reached
after the first registration. -/
theorem register_common_idem (obj : __emutls_object) (size align templ : Nat) :
    __emutls_register_common (__emutls_register_common obj size align templ) size align templ =
      __emutls_register_common obj size align templ := by
  obtain ⟨s0, a0, l0, t0⟩ := obj
  simp only [register_common_eq]
  have hs : max (max s0 size) size = max s0 size := by omega
  have ha : max (max a0 align) align = max a0 align := by omega
  rw [hs, ha]
  congr 1
  simp only [Nat.max_def]
  split_ifs <;> omega

/-! ## `emutls_alloc`: the address returned -/

/-- A power of two that is at most `sizeof (void *)` divides it. -/
theorem pow_dvd_ptrBytes (T : Target) (k : Nat) (h : 2 ^ k ≤ T.ptrBytes) :
    2 ^ k ∣ T.ptrBytes := by
  unfold Target.ptrBytes at h ⊢
  apply Nat.pow_dvd_pow
  exact (Nat.pow_le_pow_iff_right (by decide)).mp h

/-- The address `emutls_alloc` computes, when nothing overflows: `raw` plus the
pointer width, rounded up to a multiple of the alignment in the over-aligned
branch. -/
theorem emutls_alloc_ret_eq (T : Target) (obj : __emutls_object) (raw k : Nat)
    (ha : obj.align = 2 ^ k) (hov : raw + T.ptrBytes + obj.align - 1 < T.modulus) :
    emutls_alloc_ret T obj raw =
      if obj.align ≤ T.ptrBytes then raw + T.ptrBytes
      else obj.align * ((raw + T.ptrBytes + obj.align - 1) / obj.align) := by
  have hpos : 0 < obj.align := by rw [ha]; exact Nat.two_pow_pos k
  unfold emutls_alloc_ret
  by_cases hb : obj.align ≤ T.ptrBytes
  · simp only [hb, if_true]
    exact Nat.mod_eq_of_lt (by omega)
  · simp only [hb, if_false]
    rw [Nat.mod_eq_of_lt hov, Nat.mod_eq_of_lt (by omega)]
    have hm : T.modulus - 1 - (obj.align - 1) = 2 ^ (8 * T.ptrBytes) - 2 ^ k := by
      unfold Target.modulus at hov ⊢
      rw [ha] at hov ⊢
      have := Nat.two_pow_pos k
      omega
    rw [hm, land_mask_eq _ _ _ (by unfold Target.modulus at hov; exact hov), ha]

/-- C7: for a power-of-two alignment and a raw address that is a multiple of the
pointer width, with `raw + sizeof (void *) + align - 1` inside the address width, the
address computed by `emutls_alloc` is a multiple of the alignment, in both branches;
so is the address every successful `emutls_alloc` on that raw block returns. -/
theorem emutls_alloc_aligned (T : Target) (obj : __emutls_object) (raw k : Nat)
    (ha : obj.align = 2 ^ k) (hraw : raw % T.ptrBytes = 0)
    (hov : raw + T.ptrBytes + obj.align - 1 < T.modulus) :
    emutls_alloc_ret T obj raw % obj.align = 0 ∧
    ∀ (s s1 : State) (t ret : Nat),
      emutls_alloc T s t obj raw = .ok (s1, ret) → ret % obj.align = 0 := by
  have key : emutls_alloc_ret T obj raw % obj.align = 0 := by
    rw [emutls_alloc_ret_eq T obj raw k ha hov]
    by_cases hb : obj.align ≤ T.ptrBytes
    · simp only [hb, if_true]
      have hd : obj.align ∣ T.ptrBytes := by
        rw [ha] at hb ⊢; exact pow_dvd_ptrBytes T k hb
      have hd2 : obj.align ∣ raw := dvd_trans hd (Nat.dvd_of_mod_eq_zero hraw)
      exact Nat.mod_eq_zero_of_dvd (dvd_add hd2 hd)
    · simp only [hb, if_false]
      exact Nat.mul_mod_right _ _
  refine ⟨key, ?_⟩
  intro s s1 t ret h
  rw [(emutls_alloc_ok T s s1 t obj raw ret h).2.1]
  exact key

/-- Witness of C7: a block of alignment 64 on a raw address that is a multiple of 8;
`emutls_alloc` returns 4160 for the raw address 4104. -/
theorem emutls_alloc_aligned_witness :
    (64 = 2 ^ 6 ∧ 4104 % T64.ptrBytes = 0 ∧ 4104 + T64.ptrBytes + 64 - 1 < T64.modulus) ∧
    (emutls_alloc T64 emptyState 0 ⟨24, 64, 0, 0⟩ 4104).toOption.map Prod.snd = some 4160 ∧
    emutls_alloc_ret T64 ⟨24, 64, 0, 0⟩ 4104 % 64 = 0 :=
  ⟨by decide, by decide,
    (emutls_alloc_aligned T64 ⟨24, 64, 0, 0⟩ 4104 6 (by decide) (by decide) (by decide)).1⟩

/-! ## The array of a thread -/

/-- The outcome of a successful `realloc`. -/
theorem realloc_eq (T : Target) (heap : List (Nat × Nat)) (old n answer : Nat)
    (h : (realloc T heap old n answer).1 ≠ 0) :
    FreshBlock T (heap.filter (fun b => b.1 ≠ old)) answer n ∧
    realloc T heap old n answer = (answer, (answer, n) :: heap.filter (fun b => b.1 ≠ old)) := by
  unfold realloc at h ⊢
  simp only at h ⊢
  by_cases hf : FreshBlock T (heap.filter (fun b => b.1 ≠ old)) answer n
  · rw [if_pos hf]; exact ⟨hf, rfl⟩
  · rw [if_neg hf] at h; exact absurd rfl h

/-- A key holding a value for the thread exists. -/
theorem key_exists_of_some (s : State) (t : Nat) (a : __emutls_array)
    (h : s.key t = some a) : key_exists s t = true := by
  unfold key_exists
  rw [h]
  exact Bool.or_true _

/-- A key that `emutls_init` created exists. -/
theorem key_exists_of_created (s : State) (t : Nat) (h : s.emutls_key_created = true) :
    key_exists s t = true := by
  unfold key_exists
  rw [h]
  exact Bool.true_or _

/-- A key that does not exist was not created and holds no value. -/
theorem key_exists_false (s : State) (t : Nat) (h : key_exists s t = false) :
    s.emutls_key_created = false ∧ s.key t = none := by
  unfold key_exists at h
  rw [Bool.or_eq_false_iff] at h
  refine ⟨h.1, ?_⟩
  cases hk : s.key t with
  | none => rfl
  | some a => rw [hk] at h; exact absurd h.2 (Bool.noConfusion)

/-- For a key that exists `__gthread_setspecific` stores the array. -/
theorem setspecific_of_exists (s : State) (t : Nat) (arr : __emutls_array)
    (h : key_exists s t = true) :
    __gthread_setspecific s t arr = { s with key := Function.update s.key t (some arr) } := by
  unfold __gthread_setspecific
  rw [if_pos h]

/-- For a key that does not exist `__gthread_setspecific` does nothing. -/
theorem setspecific_of_not (s : State) (t : Nat) (arr : __emutls_array)
    (h : key_exists s t = false) : __gthread_setspecific s t arr = s := by
  unfold __gthread_setspecific
  rw [if_neg (by rw [h]; decide)]

/-- The call `__gthread_setspecific` after the allocator has answered, for a key that
exists. -/
theorem setspecific_heap_exists (s : State) (t : Nat) (arr : __emutls_array)
    (heap : List (Nat × Nat)) (h : key_exists s t = true) :
    __gthread_setspecific { s with heap := heap } t arr =
      { s with heap := heap, key := Function.update s.key t (some arr) } :=
  setspecific_of_exists { s with heap := heap } t arr h

/-- The call `__gthread_setspecific` after the allocator has answered, for a key that
does not exist. -/
theorem setspecific_heap_not (s : State) (t : Nat) (arr : __emutls_array)
    (heap : List (Nat × Nat)) (h : key_exists s t = false) :
    __gthread_setspecific { s with heap := heap } t arr = { s with heap := heap } :=
  setspecific_of_not { s with heap := heap } t arr h

/-- A write into the array the key of the thread holds. -/
theorem write_array_of_some (s : State) (t : Nat) (a arr : __emutls_array)
    (h : s.key t = some a) :
    write_array s t arr = { s with key := Function.update s.key t (some arr) } := by
  unfold write_array
  rw [h]

/-- A write into an array that the key of the thread does not hold. -/
theorem write_array_of_none (s : State) (t : Nat) (arr : __emutls_array)
    (h : s.key t = none) : write_array s t arr = s := by
  unfold write_array
  rw [h]

/-- The three ways `ensure_array` succeeds: the array is created, grown, or kept. -/
theorem ensure_array_ok (T : Target) (s s2 : State) (t offset answer : Nat)
    (arr : __emutls_array) (h : ensure_array T s t offset answer = .ok (s2, arr)) :
    (s.key t = none ∧
      FreshBlock T s.heap answer (((offset + 32) % T.modulus + hdr_size) % T.modulus * T.ptrBytes) ∧
      hdr_size ≤ ((offset + 32) % T.modulus + hdr_size) % T.modulus ∧
      arr = { base := answer, skip_destructor_rounds := EMUTLS_SKIP_DESTRUCTOR_ROUNDS T,
              size := (offset + 32) % T.modulus,
              data := List.replicate
                (((offset + 32) % T.modulus + hdr_size) % T.modulus - hdr_size) 0 } ∧
      s2 = __gthread_setspecific { s with
        heap := (answer, ((offset + 32) % T.modulus + hdr_size) % T.modulus * T.ptrBytes)
          :: s.heap } t arr) ∨
    (∃ arr0, s.key t = some arr0 ∧ arr0.size < offset ∧
      FreshBlock T (s.heap.filter (fun b => b.1 ≠ arr0.base)) answer
        ((grown_size T arr0.size offset + hdr_size) % T.modulus * T.ptrBytes % T.modulus) ∧
      arr0.size ≤ grown_size T arr0.size offset ∧
      (grown_size T arr0.size offset + hdr_size) * T.ptrBytes < T.modulus ∧
      arr = { arr0 with base := answer, size := grown_size T arr0.size offset,
                        data := arr0.data.take arr0.size ++
                          List.replicate (grown_size T arr0.size offset - arr0.size) 0 } ∧
      s2 = { s with
        heap := (answer, (grown_size T arr0.size offset + hdr_size) % T.modulus * T.ptrBytes
          % T.modulus) :: s.heap.filter (fun b => b.1 ≠ arr0.base),
        key := Function.update s.key t (some arr) }) ∨
    (s.key t = some arr ∧ offset ≤ arr.size ∧ s2 = s) := by
  unfold ensure_array at h
  cases hk : s.key t with
  | none =>
    left
    rw [hk] at h
    dsimp only [calloc] at h
    by_cases h0 : (malloc T s.heap
        (((offset + 32) % T.modulus + hdr_size) % T.modulus * T.ptrBytes) answer).1 = 0
    · rw [if_pos h0] at h; cases h
    · obtain ⟨hf, hm⟩ := malloc_eq T s.heap _ answer h0
      rw [hm] at h
      have h1 : answer ≠ 0 := hf.1
      by_cases h2 : ((offset + 32) % T.modulus + hdr_size) % T.modulus < hdr_size
      · rw [if_neg h1, if_pos h2] at h; cases h
      · rw [if_neg h1, if_neg h2] at h
        rw [Except.ok.injEq, Prod.mk.injEq] at h
        refine ⟨rfl, hf, by omega, h.2.symm, ?_⟩
        rw [← h.1, ← h.2]
  | some arr0 =>
    right
    rw [hk] at h
    dsimp only at h
    by_cases hg : offset > arr0.size
    · left
      simp only [hg, if_true] at h
      by_cases h0 : (realloc T s.heap arr0.base
          ((grown_size T arr0.size offset + hdr_size) % T.modulus * T.ptrBytes % T.modulus)
          answer).1 = 0
      · rw [if_pos h0] at h; cases h
      · obtain ⟨hf, hm⟩ := realloc_eq T s.heap _ _ answer h0
        rw [hm] at h
        have h1 : answer ≠ 0 := hf.1
        by_cases h2 : grown_size T arr0.size offset < arr0.size ∨
            T.modulus ≤ (grown_size T arr0.size offset + hdr_size) * T.ptrBytes
        · rw [if_neg h1, if_pos h2] at h; cases h
        · rw [if_neg h1, if_neg h2] at h
          rw [Except.ok.injEq, Prod.mk.injEq] at h
          refine ⟨arr0, rfl, hg, hf, by omega, by omega, h.2.symm, ?_⟩
          rw [← h.1, ← h.2]
          exact setspecific_heap_exists s t _ _ (key_exists_of_some s t arr0 hk)
    · right
      simp only [hg, if_false] at h
      rw [Except.ok.injEq, Prod.mk.injEq] at h
      rw [← h.2]
      exact ⟨rfl, by omega, h.1.symm⟩

/-- Slot resolution touches the descriptors and the counter only. -/
theorem resolve_offset_frame (T : Target) (s : State) (d : Nat) :
    (resolve_offset T s d).1.key = s.key ∧ (resolve_offset T s d).1.mem = s.mem ∧
    (resolve_offset T s d).1.heap = s.heap ∧ (resolve_offset T s d).1.log = s.log := by
  unfold resolve_offset
  dsimp only
  split_ifs <;> exact ⟨rfl, rfl, rfl, rfl⟩

/-- The grown capacity when neither doubling nor adding the slack overflows. -/
theorem grown_size_eq (T : Target) (c offset : Nat) (h2c : 2 * c < T.modulus)
    (hs : offset + 32 < T.modulus) :
    grown_size T c offset = if offset ≤ 2 * c then 2 * c else offset + 32 := by
  unfold grown_size
  dsimp only
  rw [Nat.mod_eq_of_lt (by omega : c * 2 < T.modulus), Nat.mod_eq_of_lt hs]
  split_ifs <;> omega


/-- The two ways a threaded `__emutls_get_address` succeeds: the entry of the slot is
already there, or a block is allocated for it. -/
theorem get_address_ok (T : Target) (s s1 : State) (t d arrAns rawAns p : Nat)
    (h : __emutls_get_address T true s t d arrAns rawAns = .ok (s1, p)) :
    ∃ s2 arr,
      ensure_array T (resolve_offset T s d).1 t (resolve_offset T s d).2 arrAns = .ok (s2, arr) ∧
      ((resolve_offset T s d).2 + T.modulus - 1) % T.modulus < arr.data.length ∧
      ((arr.data.getD (((resolve_offset T s d).2 + T.modulus - 1) % T.modulus) 0 ≠ 0 ∧
          p = arr.data.getD (((resolve_offset T s d).2 + T.modulus - 1) % T.modulus) 0 ∧
          s1 = s2) ∨
        (arr.data.getD (((resolve_offset T s d).2 + T.modulus - 1) % T.modulus) 0 = 0 ∧
          ∃ s3, emutls_alloc T s2 t (s2.objs d) rawAns = .ok (s3, p) ∧
            s1 = write_array s3 t { arr with
              data := arr.data.set (((resolve_offset T s d).2 + T.modulus - 1) % T.modulus) p })) := by
  unfold __emutls_get_address at h
  simp only [not_true_eq_false, if_false] at h
  cases he : ensure_array T (resolve_offset T s d).1 t (resolve_offset T s d).2 arrAns with
  | error e => rw [he] at h; cases h
  | ok r =>
    obtain ⟨s2, arr⟩ := r
    rw [he] at h
    dsimp only at h
    refine ⟨s2, arr, rfl, ?_⟩
    by_cases hi : arr.data.length ≤ ((resolve_offset T s d).2 + T.modulus - 1) % T.modulus
    · rw [if_pos hi] at h; cases h
    · rw [if_neg hi] at h
      refine ⟨by omega, ?_⟩
      by_cases hz : arr.data.getD (((resolve_offset T s d).2 + T.modulus - 1) % T.modulus) 0 = 0
      · right
        rw [if_pos hz] at h
        refine ⟨hz, ?_⟩
        cases ha : emutls_alloc T s2 t (s2.objs d) rawAns with
        | error e => rw [ha] at h; cases h
        | ok r3 =>
          obtain ⟨s3, ret1⟩ := r3
          rw [ha] at h
          dsimp only at h
          rw [Except.ok.injEq, Prod.mk.injEq] at h
          refine ⟨s3, ?_, ?_⟩
          · rw [h.2]
          · rw [← h.1, ← h.2]
      · left
        rw [if_neg hz] at h
        rw [Except.ok.injEq, Prod.mk.injEq] at h
        exact ⟨hz, h.2.symm, h.1.symm⟩

/-- The write of the new block into an array the key of the thread holds. -/
theorem alloc_write_array (T : Target) (s2 s3 : State) (t : Nat) (obj : __emutls_object)
    (raw p : Nat) (a arr : __emutls_array)
    (ha : emutls_alloc T s2 t obj raw = .ok (s3, p)) (hk : s2.key t = some a) :
    write_array s3 t arr = { s3 with key := Function.update s3.key t (some arr) } := by
  obtain ⟨-, -, -, -, rfl⟩ := emutls_alloc_ok T s2 s3 t obj raw p ha
  exact write_array_of_some _ t a arr hk

/-- The write of the new block into an array the key of the thread does not hold. -/
theorem alloc_write_lost (T : Target) (s2 s3 : State) (t : Nat) (obj : __emutls_object)
    (raw p : Nat) (arr : __emutls_array)
    (ha : emutls_alloc T s2 t obj raw = .ok (s3, p)) (hk : s2.key t = none) :
    write_array s3 t arr = s3 := by
  obtain ⟨-, -, -, -, rfl⟩ := emutls_alloc_ok T s2 s3 t obj raw p ha
  exact write_array_of_none _ t arr hk

/-! ## Growth of the array -/

/-- C10, the claim fails: an array of capacity 33 accessed at slot 66 grows to
capacity 66, while `max (2 * 33) (66 + 32)` is 98. -/
theorem growth_not_max :
    (growState.key 0).map (fun arr => arr.size) = some 33 ∧
    (resolve_offset T64 growState 1).2 = 66 ∧
    capacity_after (__emutls_get_address T64 true growState 0 1 16384 32768) 0 = some 66 ∧
    max (2 * 33) (66 + 32) = 98 := by
  decide

/-- C10, amended: for an existing array of capacity `c` and a slot `s > c`, with
`2 * c` and `s + 32` inside the pointer width, `__emutls_get_address` grows the
array to capacity `2 * c` when `s ≤ 2 * c` and to `s + 32` otherwise: every
successful call leaves that capacity, and the growth succeeds whenever the
environment's answer to `realloc` is a fresh block of the new byte count. -/
theorem get_address_grown_capacity (T : Target) (s : State) (t d : Nat)
    (arr : __emutls_array) (arrAns rawAns : Nat) (hkey : s.key t = some arr)
    (hslot : arr.size < (resolve_offset T s d).2)
    (h2c : 2 * arr.size < T.modulus) (hs : (resolve_offset T s d).2 + 32 < T.modulus) :
    (∀ s1 p, __emutls_get_address T true s t d arrAns rawAns = .ok (s1, p) →
      ∃ arr1, s1.key t = some arr1 ∧
        arr1.size = if (resolve_offset T s d).2 ≤ 2 * arr.size then 2 * arr.size
          else (resolve_offset T s d).2 + 32) ∧
    (FreshBlock T (s.heap.filter (fun b => b.1 ≠ arr.base)) arrAns
        (((if (resolve_offset T s d).2 ≤ 2 * arr.size then 2 * arr.size
          else (resolve_offset T s d).2 + 32) + hdr_size) * T.ptrBytes) →
      ∃ s2 arr1, ensure_array T (resolve_offset T s d).1 t (resolve_offset T s d).2 arrAns
          = .ok (s2, arr1) ∧ s2.key t = some arr1 ∧
        arr1.size = if (resolve_offset T s d).2 ≤ 2 * arr.size then 2 * arr.size
          else (resolve_offset T s d).2 + 32) := by
  have hg := grown_size_eq T arr.size (resolve_offset T s d).2 h2c hs
  obtain ⟨fk, -, fh, -⟩ := resolve_offset_frame T s d
  have hkey1 : (resolve_offset T s d).1.key t = some arr := by rw [fk]; exact hkey
  constructor
  · intro s1 p h
    obtain ⟨s2, arr1, he, -, hcase⟩ := get_address_ok T s s1 t d arrAns rawAns p h
    have hs2 : s2.key t = some arr1 ∧ arr1.size = grown_size T arr.size (resolve_offset T s d).2 := by
      rcases ensure_array_ok T _ s2 t _ arrAns arr1 he with
        ⟨hn, -⟩ | ⟨arr0, h0, -, -, -, -, ha, hs2⟩ | ⟨h0, hle, -⟩
      · rw [hkey1] at hn; cases hn
      · rw [hkey1, Option.some.injEq] at h0
        subst h0
        constructor
        · rw [hs2]; simp
        · rw [ha]
      · rw [hkey1, Option.some.injEq] at h0
        subst h0
        omega
    rcases hcase with ⟨-, -, rfl⟩ | ⟨-, s3, ha, rfl⟩
    · exact ⟨arr1, hs2.1, by rw [hs2.2, hg]⟩
    · rw [alloc_write_array T s2 s3 t _ rawAns p arr1 _ ha hs2.1]
      refine ⟨_, Function.update_same _ _ _, ?_⟩
      dsimp only
      rw [hs2.2, hg]
  · intro hf
    have hlt : (grown_size T arr.size (resolve_offset T s d).2 + hdr_size) * T.ptrBytes
        < T.modulus := by
      rw [hg]
      have := hf.2.2.1
      omega
    have hb : (grown_size T arr.size (resolve_offset T s d).2 + hdr_size) % T.modulus *
        T.ptrBytes % T.modulus =
        (grown_size T arr.size (resolve_offset T s d).2 + hdr_size) * T.ptrBytes := by
      have hp := ptrBytes_pos T
      have h1 : grown_size T arr.size (resolve_offset T s d).2 + hdr_size < T.modulus := by
        calc grown_size T arr.size (resolve_offset T s d).2 + hdr_size
            = (grown_size T arr.size (resolve_offset T s d).2 + hdr_size) * 1 := by ring
          _ ≤ (grown_size T arr.size (resolve_offset T s d).2 + hdr_size) * T.ptrBytes :=
            Nat.mul_le_mul_left _ hp
          _ < T.modulus := hlt
      rw [Nat.mod_eq_of_lt h1, Nat.mod_eq_of_lt hlt]
    have hr : realloc T (resolve_offset T s d).1.heap arr.base
        ((grown_size T arr.size (resolve_offset T s d).2 + hdr_size) % T.modulus *
          T.ptrBytes % T.modulus) arrAns =
        (arrAns, (arrAns, (grown_size T arr.size (resolve_offset T s d).2 + hdr_size) *
          T.ptrBytes) :: s.heap.filter (fun b => b.1 ≠ arr.base)) := by
      rw [hb, fh, hg]
      unfold realloc
      dsimp only
      rw [if_pos hf]
    have hge : ¬ (grown_size T arr.size (resolve_offset T s d).2 < arr.size ∨
        T.modulus ≤ (grown_size T arr.size (resolve_offset T s d).2 + hdr_size) * T.ptrBytes) := by
      have : arr.size ≤ grown_size T arr.size (resolve_offset T s d).2 := by
        rw [hg]; split_ifs <;> omega
      omega
    unfold ensure_array
    rw [hkey1]
    dsimp only
    rw [if_pos hslot, hr]
    dsimp only
    rw [if_neg hf.1, if_neg hge,
      setspecific_heap_exists _ t _ _ (key_exists_of_some _ t arr hkey1)]
    refine ⟨_, _, rfl, Function.update_same _ _ _, ?_⟩
    dsimp only
    rw [hg]

/-- Witness of C10: the array of capacity 33 of `growState`, accessed at slot 66. -/
theorem get_address_grown_capacity_witness :
    (growState.key 0 = some ⟨4096, 0, 33, 8200 :: List.replicate 32 0⟩ ∧
      33 < (resolve_offset T64 growState 1).2 ∧ 2 * 33 < T64.modulus ∧
      (resolve_offset T64 growState 1).2 + 32 < T64.modulus) ∧
    ∃ s2 arr1, ensure_array T64 (resolve_offset T64 growState 1).1 0
        (resolve_offset T64 growState 1).2 16384 = .ok (s2, arr1) ∧ s2.key 0 = some arr1 ∧
      arr1.size = if (resolve_offset T64 growState 1).2 ≤ 2 * 33 then 2 * 33
        else (resolve_offset T64 growState 1).2 + 32 :=
  ⟨by decide,
    (get_address_grown_capacity T64 growState 0 1 ⟨4096, 0, 33, 8200 :: List.replicate 32 0⟩
      16384 32768 (by decide) (by decide) (by decide) (by decide)).2 (by decide)⟩

/-! ## The exit hook -/

/-- What a successful `free` did. -/
theorem free_ok (s s1 : State) (t p : Nat) (h : free s t p = .ok s1) :
    (p = 0 ∧ s1 = s) ∨
    (p ≠ 0 ∧ (∃ b ∈ s.heap, b.1 = p) ∧
      s1 = { s with heap := s.heap.filter (fun b => b.1 ≠ p),
                    log := s.log ++ [Event.release t p] }) := by
  unfold free at h
  by_cases h0 : p = 0
  · rw [if_pos h0] at h
    rw [Except.ok.injEq] at h
    exact Or.inl ⟨h0, h.symm⟩
  · rw [if_neg h0] at h
    by_cases h1 : ∃ b ∈ s.heap, b.1 = p
    · rw [if_pos h1] at h
      rw [Except.ok.injEq] at h
      exact Or.inr ⟨h0, h1, h.symm⟩
    · rw [if_neg h1] at h; cases h

/-- A successful pass over the entries releases the back-pointers of the entries, in
order, and touches nothing but the allocator. -/
theorem destroy_blocks_ok (T : Target) (t : Nat) (data : List Nat) :
    ∀ (s s1 : State), destroy_blocks T t s data = .ok s1 →
      s1.objs = s.objs ∧ s1.emutls_size = s.emutls_size ∧ s1.key = s.key ∧ s1.mem = s.mem ∧
      s1.log = s.log ++ (block_ptrs T s.mem data).map (Event.release t) ∧
      s1.heap = s.heap.filter (fun b => b.1 ∉ block_ptrs T s.mem data) := by
  induction data with
  | nil =>
    intro s s1 h
    simp only [destroy_blocks, Except.ok.injEq] at h
    subst h
    simp [block_ptrs]
  | cons p rest ih =>
    intro s s1 h
    rw [destroy_blocks] at h
    by_cases hp : p ≠ 0
    · rw [if_pos hp] at h
      cases hf : free s t (back_ptr T s.mem p) with
      | error e => rw [hf] at h; cases h
      | ok s2 =>
        rw [hf] at h
        dsimp only at h
        obtain ⟨h1, h2, h3, h4, h5, h6⟩ := ih s2 s1 h
        rcases free_ok s s2 t _ hf with ⟨hq, rfl⟩ | ⟨hq, _, rfl⟩
        · refine ⟨h1, h2, h3, h4, ?_, ?_⟩
          · rw [h5]; simp [block_ptrs, hp, hq]
          · rw [h6]; simp [block_ptrs, hp, hq]
        · refine ⟨h1, h2, h3, h4, ?_, ?_⟩
          · rw [h5]; simp [block_ptrs, hp, hq]
          · rw [h6]
            simp only [block_ptrs, List.filter_filter]
            simp [hp, hq]
            congr 1; funext a; rw [Bool.and_comm]
    · rw [if_neg hp] at h
      obtain ⟨h1, h2, h3, h4, h5, h6⟩ := ih s s1 h
      have hp0 : p = 0 := by simpa using hp
      refine ⟨h1, h2, h3, h4, ?_, ?_⟩
      · rw [h5]; simp [block_ptrs, hp0]
      · rw [h6]; simp [block_ptrs, hp0]

/-- While the countdown lasts, a round of the exit hook only decrements it. -/
theorem exit_rounds_skip (T : Target) (t : Nat) :
    ∀ (k : Nat) (s : State) (arr : __emutls_array), s.key t = some arr →
      k ≤ arr.skip_destructor_rounds →
      exit_rounds T t k s = .ok { s with key := (Function.update s.key t
        (some { arr with skip_destructor_rounds := arr.skip_destructor_rounds - k })) } := by
  intro k
  induction k with
  | zero =>
    intro s arr hkey _
    rw [exit_rounds]
    congr 1
    have : Function.update s.key t (some { arr with
        skip_destructor_rounds := arr.skip_destructor_rounds - 0 }) = s.key := by
      have h0 : (some { arr with skip_destructor_rounds := arr.skip_destructor_rounds - 0 })
          = s.key t := by rw [hkey]; rfl
      rw [h0]; exact Function.update_eq_self t s.key
    rw [this]
  | succ k ih =>
    intro s arr hkey hk
    have hpos : arr.skip_destructor_rounds > 0 := by omega
    rw [exit_rounds]
    unfold thread_exit_round
    rw [hkey]
    dsimp only
    unfold emutls_destroy
    rw [if_pos hpos]
    dsimp only
    rw [ih _ { arr with skip_destructor_rounds := arr.skip_destructor_rounds - 1 }
      (Function.update_same _ _ _) (by dsimp only; omega)]
    dsimp only
    rw [Function.update_idem, Function.update_idem, Nat.sub_sub, Nat.add_comm 1 k]

/-- One more round after `k` rounds. -/
theorem exit_rounds_succ_last (T : Target) (t : Nat) :
    ∀ (k : Nat) (s : State), exit_rounds T t (k + 1) s =
      match exit_rounds T t k s with
      | .error e => .error e
      | .ok s1 => thread_exit_round T s1 t := by
  intro k
  induction k with
  | zero =>
    intro s
    simp only [exit_rounds]
    cases thread_exit_round T s t <;> rfl
  | succ k ih =>
    intro s
    rw [exit_rounds]
    cases h : thread_exit_round T s t with
    | error e => rw [exit_rounds, h]
    | ok s1 =>
      dsimp only
      rw [ih s1]
      conv_rhs => rw [exit_rounds, h]

/-- C8: for a store whose countdown is `N`, each of the first `N` rounds of the exit
hook leaves the allocator and its record untouched, decrements the countdown by one,
keeps capacity and entries and sets the key to the same store again; round `N + 1`
is `emutls_destroy` on the countdown zero, and when it returns it has released the
blocks of the entries and then the array. -/
theorem destroy_deferred (T : Target) (s : State) (t : Nat) (arr : __emutls_array)
    (hkey : s.key t = some arr) (hbase : arr.base ≠ 0) :
    (∀ k, k ≤ arr.skip_destructor_rounds →
      exit_rounds T t k s = .ok { s with key := (Function.update s.key t
        (some { arr with skip_destructor_rounds := arr.skip_destructor_rounds - k })) }) ∧
    exit_rounds T t (arr.skip_destructor_rounds + 1) s =
      emutls_destroy T { s with key := Function.update s.key t none } t
        { arr with skip_destructor_rounds := 0 } ∧
    (∀ s1, exit_rounds T t (arr.skip_destructor_rounds + 1) s = .ok s1 →
      s1.key t = none ∧
      s1.log = s.log ++ (block_ptrs T s.mem (arr.data.take arr.size)).map (Event.release t) ++
        [Event.release t arr.base] ∧
      ∀ b ∈ s1.heap, b.1 ≠ arr.base) := by
  have h1 := exit_rounds_skip T t
  have h2 : exit_rounds T t (arr.skip_destructor_rounds + 1) s =
      emutls_destroy T { s with key := Function.update s.key t none } t
        { arr with skip_destructor_rounds := 0 } := by
    rw [exit_rounds_succ_last, h1 _ s arr hkey (le_refl _)]
    dsimp only
    unfold thread_exit_round
    dsimp only
    rw [Function.update_same]
    dsimp only
    rw [Function.update_idem, Nat.sub_self]
  refine ⟨fun k hk => h1 k s arr hkey hk, h2, ?_⟩
  intro s1 hs1
  rw [h2] at hs1
  unfold emutls_destroy at hs1
  dsimp only at hs1
  rw [if_neg (by omega)] at hs1
  by_cases hl : arr.data.length < arr.size
  · rw [if_pos hl] at hs1; cases hs1
  · rw [if_neg hl] at hs1
    cases hd : destroy_blocks T t { s with key := Function.update s.key t none }
        (arr.data.take arr.size) with
    | error e => rw [hd] at hs1; cases hs1
    | ok s2 =>
      rw [hd] at hs1
      dsimp only at hs1
      obtain ⟨-, -, hk2, -, hl2, -⟩ := destroy_blocks_ok T t _ _ s2 hd
      rcases free_ok s2 s1 _ _ hs1 with ⟨h0, -⟩ | ⟨-, -, rfl⟩
      · exact absurd h0 hbase
      · dsimp only
        refine ⟨?_, ?_, ?_⟩
        · rw [hk2]; exact Function.update_same _ _ _
        · rw [hl2]
        · intro b hb
          have := (List.mem_filter.mp hb).2
          simpa using this

/-- Witness of C8: the Bionic store of `bionicState`, released in the second round. -/
theorem destroy_deferred_witness :
    (bionicState.key 0 = some ⟨4096, 1, 33, 8200 :: List.replicate 32 0⟩ ∧ (4096 : Nat) ≠ 0) ∧
    (∃ s1, exit_rounds T64b 0 1 bionicState = .ok s1 ∧ s1.log = [Event.alloc 0 8192] ∧
      s1.key 0 = some ⟨4096, 0, 33, 8200 :: List.replicate 32 0⟩) ∧
    ∃ s2, exit_rounds T64b 0 2 bionicState = .ok s2 ∧ s2.key 0 = none ∧
      s2.log = [Event.alloc 0 8192, Event.release 0 8192, Event.release 0 4096] := by
  have h := destroy_deferred T64b bionicState 0 ⟨4096, 1, 33, 8200 :: List.replicate 32 0⟩
    (by decide) (by decide)
  refine ⟨by decide, ⟨_, h.1 1 (by decide), by decide, by decide⟩, ?_⟩
  have hs : ∃ s2, exit_rounds T64b 0 2 bionicState = .ok s2 := ⟨_, rfl⟩
  obtain ⟨s2, hs2⟩ := hs
  obtain ⟨h1, h2, -⟩ := h.2.2 s2 hs2
  refine ⟨s2, hs2, h1, ?_⟩
  rw [h2]
  decide

/-! ## What the operations leave alone -/

/-- A successful `ensure_array` touches the allocator and the key of the thread only;
the thread holds the array afterwards when the key exists. -/
theorem ensure_array_frame (T : Target) (s s2 : State) (t offset answer : Nat)
    (arr : __emutls_array) (h : ensure_array T s t offset answer = .ok (s2, arr)) :
    s2.objs = s.objs ∧ s2.emutls_size = s.emutls_size ∧ s2.mem = s.mem ∧ s2.log = s.log ∧
    (key_exists s t = true → s2.key t = some arr) ∧ ∀ t1, t1 ≠ t → s2.key t1 = s.key t1 := by
  rcases ensure_array_ok T s s2 t offset answer arr h with
    ⟨-, -, -, -, rfl⟩ | ⟨arr0, -, -, -, -, -, -, rfl⟩ | ⟨h0, -, rfl⟩
  · cases hk : key_exists s t with
    | true =>
      rw [setspecific_heap_exists s t _ _ hk]
      exact ⟨rfl, rfl, rfl, rfl, fun _ => Function.update_same _ _ _,
        fun t1 ht => Function.update_noteq ht _ _⟩
    | false =>
      rw [setspecific_heap_not s t _ _ hk]
      exact ⟨rfl, rfl, rfl, rfl, fun hc => Bool.noConfusion hc, fun _ _ => rfl⟩
  · exact ⟨rfl, rfl, rfl, rfl, fun _ => Function.update_same _ _ _,
      fun t1 ht => Function.update_noteq ht _ _⟩
  · exact ⟨rfl, rfl, rfl, rfl, fun _ => h0, fun _ _ => rfl⟩

/-- A successful `ensure_array` leaves the flag of the key; while the key does not
exist it leaves the keys, and the array it returns is a new one that is not stored. -/
theorem ensure_array_flag (T : Target) (s s2 : State) (t offset answer : Nat)
    (arr : __emutls_array) (h : ensure_array T s t offset answer = .ok (s2, arr)) :
    s2.emutls_key_created = s.emutls_key_created ∧
    (key_exists s t = false → s2.key = s.key ∧ s2.key t = none) := by
  rcases ensure_array_ok T s s2 t offset answer arr h with
    ⟨-, -, -, -, rfl⟩ | ⟨arr0, h0, -, -, -, -, -, rfl⟩ | ⟨h0, -, rfl⟩
  · cases hk : key_exists s t with
    | true =>
      rw [setspecific_heap_exists s t _ _ hk]
      exact ⟨rfl, fun hc => Bool.noConfusion hc⟩
    | false =>
      rw [setspecific_heap_not s t _ _ hk]
      exact ⟨rfl, fun _ => ⟨rfl, (key_exists_false s t hk).2⟩⟩
  · refine ⟨rfl, fun hc => ?_⟩
    rw [key_exists_of_some s t arr0 h0] at hc
    exact Bool.noConfusion hc
  · refine ⟨rfl, fun hc => ?_⟩
    rw [key_exists_of_some _ t arr h0] at hc
    exact Bool.noConfusion hc

/-- The key of every other thread after a write into the array of a thread. -/
theorem write_array_other (s : State) (t t1 : Nat) (arr : __emutls_array) (ht : t1 ≠ t) :
    (write_array s t arr).key t1 = s.key t1 := by
  unfold write_array
  cases s.key t with
  | none => rfl
  | some a => exact Function.update_noteq ht _ _

/-- A write into the array of a thread changes the keys only. -/
theorem write_array_frame (s : State) (t : Nat) (arr : __emutls_array) :
    (write_array s t arr).objs = s.objs ∧
    (write_array s t arr).emutls_size = s.emutls_size ∧
    (write_array s t arr).mem = s.mem ∧ (write_array s t arr).heap = s.heap ∧
    (write_array s t arr).log = s.log ∧
    (write_array s t arr).emutls_key_created = s.emutls_key_created := by
  unfold write_array
  cases s.key t with
  | none => exact ⟨rfl, rfl, rfl, rfl, rfl, rfl⟩
  | some a => exact ⟨rfl, rfl, rfl, rfl, rfl, rfl⟩

/-- A threaded `__emutls_get_address` changes the descriptors and the counter as the
slot resolution does, and leaves the keys of the other threads alone. -/
theorem get_address_frame (T : Target) (s s1 : State) (t d arrAns rawAns p : Nat)
    (h : __emutls_get_address T true s t d arrAns rawAns = .ok (s1, p)) :
    s1.objs = (resolve_offset T s d).1.objs ∧
    s1.emutls_size = (resolve_offset T s d).1.emutls_size ∧
    ∀ t1, t1 ≠ t → s1.key t1 = s.key t1 := by
  obtain ⟨s2, arr, he, -, hcase⟩ := get_address_ok T s s1 t d arrAns rawAns p h
  obtain ⟨e1, e2, -, -, -, e6⟩ := ensure_array_frame T _ s2 t _ arrAns arr he
  have fk := (resolve_offset_frame T s d).1
  rcases hcase with ⟨-, -, rfl⟩ | ⟨-, s3, ha, rfl⟩
  · exact ⟨e1, e2, fun t1 ht => by rw [e6 t1 ht, fk]⟩
  · obtain ⟨w1, w2, -⟩ := write_array_frame s3 t { arr with
      data := arr.data.set (((resolve_offset T s d).2 + T.modulus - 1) % T.modulus) p }
    obtain ⟨-, -, -, -, rfl⟩ := emutls_alloc_ok T s2 s3 t _ rawAns p ha
    refine ⟨by rw [w1]; exact e1, by rw [w2]; exact e2, fun t1 ht => ?_⟩
    rw [write_array_other _ t t1 _ ht]
    dsimp only
    rw [e6 t1 ht, fk]

/-- A round of the exit hook leaves the descriptors and the counter alone. -/
theorem thread_exit_round_frame (T : Target) (s s1 : State) (t : Nat)
    (h : thread_exit_round T s t = .ok s1) :
    s1.objs = s.objs ∧ s1.emutls_size = s.emutls_size ∧ s1.mem = s.mem ∧
    ∀ t1, t1 ≠ t → s1.key t1 = s.key t1 := by
  unfold thread_exit_round at h
  cases hk : s.key t with
  | none =>
    rw [hk] at h
    dsimp only at h
    rw [Except.ok.injEq] at h
    subst h
    exact ⟨rfl, rfl, rfl, fun _ _ => rfl⟩
  | some arr =>
    rw [hk] at h
    dsimp only at h
    unfold emutls_destroy at h
    by_cases hpos : arr.skip_destructor_rounds > 0
    · rw [if_pos hpos] at h
      dsimp only at h
      rw [Except.ok.injEq] at h
      subst h
      refine ⟨rfl, rfl, rfl, fun t1 ht => ?_⟩
      dsimp only
      rw [Function.update_noteq ht, Function.update_noteq ht]
    · rw [if_neg hpos] at h
      by_cases hl : arr.data.length < arr.size
      · rw [if_pos hl] at h; cases h
      · rw [if_neg hl] at h
        cases hd : destroy_blocks T t { s with key := Function.update s.key t none }
            (arr.data.take arr.size) with
        | error e => rw [hd] at h; cases h
        | ok s2 =>
          rw [hd] at h
          dsimp only at h
          obtain ⟨h1, h2, h3, h4, -, -⟩ := destroy_blocks_ok T t _ _ s2 hd
          have hfr : s1.objs = s2.objs ∧ s1.emutls_size = s2.emutls_size ∧
              s1.key = s2.key ∧ s1.mem = s2.mem := by
            rcases free_ok s2 s1 _ _ h with ⟨-, rfl⟩ | ⟨-, -, rfl⟩
            · exact ⟨rfl, rfl, rfl, rfl⟩
            · exact ⟨rfl, rfl, rfl, rfl⟩
          refine ⟨by rw [hfr.1, h1], by rw [hfr.2.1, h2], by rw [hfr.2.2.2, h4],
            fun t1 ht => ?_⟩
          rw [hfr.2.2.1, h3]
          dsimp only
          rw [Function.update_noteq ht]

/-- A pass over the entries leaves the flag of the key. -/
theorem destroy_blocks_flag (T : Target) (t : Nat) (data : List Nat) :
    ∀ (s s1 : State), destroy_blocks T t s data = .ok s1 →
      s1.emutls_key_created = s.emutls_key_created := by
  induction data with
  | nil =>
    intro s s1 h
    simp only [destroy_blocks, Except.ok.injEq] at h
    subst h
    rfl
  | cons p rest ih =>
    intro s s1 h
    rw [destroy_blocks] at h
    by_cases hp : p ≠ 0
    · rw [if_pos hp] at h
      cases hf : free s t (back_ptr T s.mem p) with
      | error e => rw [hf] at h; cases h
      | ok s2 =>
        rw [hf] at h
        dsimp only at h
        rw [ih s2 s1 h]
        rcases free_ok s s2 t _ hf with ⟨-, rfl⟩ | ⟨-, -, rfl⟩ <;> rfl
    · rw [if_neg hp] at h
      exact ih s s1 h

/-- A round of the exit hook leaves the flag of the key. -/
theorem thread_exit_round_flag (T : Target) (s s1 : State) (t : Nat)
    (h : thread_exit_round T s t = .ok s1) :
    s1.emutls_key_created = s.emutls_key_created := by
  unfold thread_exit_round at h
  cases hk : s.key t with
  | none =>
    rw [hk] at h
    dsimp only at h
    rw [Except.ok.injEq] at h
    subst h
    rfl
  | some arr =>
    rw [hk] at h
    dsimp only at h
    unfold emutls_destroy at h
    by_cases hpos : arr.skip_destructor_rounds > 0
    · rw [if_pos hpos] at h
      dsimp only at h
      rw [Except.ok.injEq] at h
      subst h
      rfl
    · rw [if_neg hpos] at h
      by_cases hl : arr.data.length < arr.size
      · rw [if_pos hl] at h; cases h
      · rw [if_neg hl] at h
        cases hd : destroy_blocks T t { s with key := Function.update s.key t none }
            (arr.data.take arr.size) with
        | error e => rw [hd] at h; cases h
        | ok s2 =>
          rw [hd] at h
          dsimp only at h
          have h2 := destroy_blocks_flag T t _ _ s2 hd
          rcases free_ok s2 s1 _ _ h with ⟨-, rfl⟩ | ⟨-, -, rfl⟩
          · exact h2
          · exact h2

/-- A threaded `__emutls_get_address` leaves the flag of the key as the slot
resolution set it. -/
theorem get_address_flag (T : Target) (s s1 : State) (t d arrAns rawAns p : Nat)
    (h : __emutls_get_address T true s t d arrAns rawAns = .ok (s1, p)) :
    s1.emutls_key_created = (resolve_offset T s d).1.emutls_key_created := by
  obtain ⟨s2, arr, he, -, hcase⟩ := get_address_ok T s s1 t d arrAns rawAns p h
  obtain ⟨f1, -⟩ := ensure_array_flag T _ s2 t _ arrAns arr he
  rcases hcase with ⟨-, -, rfl⟩ | ⟨-, s3, ha, rfl⟩
  · exact f1
  · rw [(write_array_frame s3 t _).2.2.2.2.2]
    obtain ⟨-, -, -, -, rfl⟩ := emutls_alloc_ok T s2 s3 t _ rawAns p ha
    exact f1

/-- After slot resolution in a process that only ran in threaded mode the key exists. -/
theorem resolve_offset_ready (T : Target) (s : State) (d : Nat) (hr : KeyReady s) :
    (resolve_offset T s d).1.emutls_key_created = true := by
  unfold resolve_offset
  dsimp only
  by_cases h0 : (s.objs d).loc = 0
  · rw [if_pos h0]
  · rw [if_neg h0]
    exact hr d h0

/-- After slot resolution in a process that only ran in threaded mode the key exists
for every thread. -/
theorem resolve_offset_exists (T : Target) (s : State) (t d : Nat) (hr : KeyReady s) :
    key_exists (resolve_offset T s d).1 t = true :=
  key_exists_of_created _ t (resolve_offset_ready T s d hr)

/-- Threaded operations keep the key in step with the slots. -/
theorem ready_step (T : Target) (s s1 : State) (op : Op) (hr : KeyReady s)
    (hop : op.threaded) (hstep : step T s op = .ok s1) : KeyReady s1 := by
  cases op with
  | get active t d arrAns rawAns =>
    have hact : active = true := hop
    subst hact
    simp only [step] at hstep
    cases hg : __emutls_get_address T true s t d arrAns rawAns with
    | error e => rw [hg] at hstep; cases hstep
    | ok r =>
      obtain ⟨s2, p⟩ := r
      rw [hg] at hstep
      dsimp only at hstep
      rw [Except.ok.injEq] at hstep
      subst hstep
      intro d1 _
      rw [get_address_flag T s s2 t d arrAns rawAns p hg]
      exact resolve_offset_ready T s d hr
  | register d size align templ =>
    simp only [step] at hstep
    rw [Except.ok.injEq] at hstep
    subst hstep
    intro d1 h1
    dsimp only at h1 ⊢
    apply hr d1
    by_cases hd : d1 = d
    · subst hd
      rw [Function.update_same, register_common_eq] at h1
      exact h1
    · rw [Function.update_noteq hd] at h1
      exact h1
  | exit t =>
    simp only [step] at hstep
    obtain ⟨e1, -, -, -⟩ := thread_exit_round_frame T s s1 t hstep
    intro d1 h1
    rw [thread_exit_round_flag T s s1 t hstep]
    rw [e1] at h1
    exact hr d1 h1

/-- Threaded runs keep the key in step with the slots. -/
theorem ready_run (T : Target) (ops : List Op) :
    ∀ (s s1 : State), KeyReady s → (∀ op ∈ ops, op.threaded) → run T s ops = .ok s1 →
      KeyReady s1 := by
  induction ops with
  | nil =>
    intro s s1 hr _ hrun
    rw [run, Except.ok.injEq] at hrun
    subst hrun
    exact hr
  | cons op ops ih =>
    intro s s1 hr hops hrun
    rw [run] at hrun
    cases hs : step T s op with
    | error e => rw [hs] at hrun; cases hrun
    | ok s2 =>
      rw [hs] at hrun
      exact ih s2 s1 (ready_step T s s2 op hr (hops op (List.mem_cons_self _ _)) hs)
        (fun o ho => hops o (List.mem_cons_of_mem _ ho)) hrun

/-! ## Well-formed states -/

/-- The two ways `__emutls_get_address` succeeds when threads are inactive. -/
theorem get_address_single_ok (T : Target) (s s1 : State) (t d arrAns rawAns p : Nat)
    (h : __emutls_get_address T false s t d arrAns rawAns = .ok (s1, p)) :
    ((s.objs d).loc = 0 ∧ ∃ s2, emutls_alloc T s t (s.objs d) rawAns = .ok (s2, p) ∧
        s1 = { s2 with objs := Function.update s2.objs d { s2.objs d with loc := p } }) ∨
    ((s.objs d).loc ≠ 0 ∧ s1 = s ∧ p = (s.objs d).loc) := by
  unfold __emutls_get_address at h
  simp only [Bool.false_eq_true, not_false_eq_true, if_true] at h
  by_cases h0 : (s.objs d).loc = 0
  · left
    rw [if_pos h0] at h
    refine ⟨h0, ?_⟩
    cases ha : emutls_alloc T s t (s.objs d) rawAns with
    | error e => rw [ha] at h; cases h
    | ok r =>
      obtain ⟨s2, ret⟩ := r
      rw [ha] at h
      dsimp only at h
      rw [Except.ok.injEq, Prod.mk.injEq] at h
      refine ⟨s2, by rw [h.2], ?_⟩
      rw [← h.1, ← h.2]
  · right
    rw [if_neg h0] at h
    rw [Except.ok.injEq, Prod.mk.injEq] at h
    exact ⟨h0, h.1.symm, h.2.symm⟩

/-- A pointer has at least eight bits. -/
theorem modulus_ge (T : Target) : 256 ≤ T.modulus := by
  unfold Target.modulus
  have h : 8 ≤ 8 * T.ptrBytes := by have := ptrBytes_pos T; omega
  calc 256 = 2 ^ 8 := by norm_num
    _ ≤ 2 ^ (8 * T.ptrBytes) := Nat.pow_le_pow_right (by decide) h

/-- The address `emutls_alloc` computes is a value of the type `pointer`. -/
theorem emutls_alloc_ret_lt (T : Target) (obj : __emutls_object) (ptr : Nat) :
    emutls_alloc_ret T obj ptr < T.modulus := by
  unfold emutls_alloc_ret
  split_ifs
  · exact Nat.mod_lt _ (modulus_pos T)
  · exact lt_of_le_of_lt Nat.and_le_left (Nat.mod_lt _ (modulus_pos T))

/-- The array `ensure_array` returns holds exactly `size` entries. -/
theorem ensure_array_fits (T : Target) (s s2 : State) (t offset answer : Nat)
    (arr : __emutls_array) (hfit : Fits T s)
    (h : ensure_array T s t offset answer = .ok (s2, arr)) :
    arr.data.length = arr.size ∧ arr.size < T.modulus := by
  have hM := modulus_pos T
  rcases ensure_array_ok T s s2 t offset answer arr h with
    ⟨-, -, hh, rfl, -⟩ | ⟨arr0, h0, -, -, hge, hlt, rfl, -⟩ | ⟨h0, -, -⟩
  · dsimp only
    have h1 : (offset + 32) % T.modulus < T.modulus := Nat.mod_lt _ hM
    refine ⟨?_, h1⟩
    rw [List.length_replicate]
    by_cases hw : (offset + 32) % T.modulus + hdr_size < T.modulus
    · rw [Nat.mod_eq_of_lt hw]; omega
    · exfalso
      have h2 : ((offset + 32) % T.modulus + hdr_size) % T.modulus =
          (offset + 32) % T.modulus + hdr_size - T.modulus := by
        rw [Nat.mod_eq_sub_mod (by omega)]
        have := modulus_ge T
        exact Nat.mod_eq_of_lt (by unfold hdr_size; omega)
      rw [h2] at hh
      omega
  · dsimp only
    obtain ⟨hl, -⟩ := hfit.2 t arr0 h0
    have hp := ptrBytes_pos T
    have h1 : grown_size T arr0.size offset + hdr_size ≤
        (grown_size T arr0.size offset + hdr_size) * T.ptrBytes :=
      Nat.le_mul_of_pos_right _ hp
    refine ⟨?_, by omega⟩
    rw [List.length_append, List.length_replicate, List.length_take, hl]
    omega
  · exact hfit.2 t arr h0

/-- The key of the exiting thread after a round: cleared, or the same array with the
countdown decremented. -/
theorem thread_exit_round_key (T : Target) (s s1 : State) (t : Nat)
    (h : thread_exit_round T s t = .ok s1) :
    s1.key t = none ∨ ∃ arr, s.key t = some arr ∧ s1.key t =
      some { arr with skip_destructor_rounds := arr.skip_destructor_rounds - 1 } := by
  unfold thread_exit_round at h
  cases hk : s.key t with
  | none =>
    rw [hk] at h
    dsimp only at h
    rw [Except.ok.injEq] at h
    subst h
    exact Or.inl hk
  | some arr =>
    rw [hk] at h
    dsimp only at h
    unfold emutls_destroy at h
    by_cases hpos : arr.skip_destructor_rounds > 0
    · rw [if_pos hpos] at h
      dsimp only at h
      rw [Except.ok.injEq] at h
      subst h
      exact Or.inr ⟨arr, rfl, Function.update_same _ _ _⟩
    · rw [if_neg hpos] at h
      left
      by_cases hl : arr.data.length < arr.size
      · rw [if_pos hl] at h; cases h
      · rw [if_neg hl] at h
        cases hd : destroy_blocks T t { s with key := Function.update s.key t none }
            (arr.data.take arr.size) with
        | error e => rw [hd] at h; cases h
        | ok s2 =>
          rw [hd] at h
          dsimp only at h
          obtain ⟨-, -, h3, -, -, -⟩ := destroy_blocks_ok T t _ _ s2 hd
          have hfr : s1.key = s2.key := by
            rcases free_ok s2 s1 _ _ h with ⟨-, rfl⟩ | ⟨-, -, rfl⟩ <;> rfl
          rw [hfr, h3]
          exact Function.update_same _ _ _

/-- Slot resolution keeps the slot fields in the type `pointer`. -/
theorem resolve_offset_fits (T : Target) (s : State) (d : Nat) (hfit : Fits T s) :
    Fits T (resolve_offset T s d).1 ∧ (resolve_offset T s d).2 < T.modulus ∧
    ((resolve_offset T s d).1.objs d).loc = (resolve_offset T s d).2 := by
  unfold resolve_offset
  dsimp only
  by_cases h0 : (s.objs d).loc = 0
  · rw [if_pos h0]
    dsimp only
    have hm : (s.emutls_size + 1) % T.modulus < T.modulus := Nat.mod_lt _ (modulus_pos T)
    refine ⟨⟨fun x => ?_, hfit.2⟩, hm, ?_⟩
    · dsimp only
      by_cases hx : x = d
      · subst hx; rw [Function.update_same]; exact hm
      · rw [Function.update_noteq hx]; exact hfit.1 x
    · rw [Function.update_same]
  · rw [if_neg h0]
    exact ⟨hfit, hfit.1 d, rfl⟩

/-- Every operation keeps the slot fields and the arrays well-formed. -/
theorem fits_step (T : Target) (s s1 : State) (op : Op) (hfit : Fits T s)
    (hstep : step T s op = .ok s1) : Fits T s1 := by
  cases op with
  | get active t d arrAns rawAns =>
    simp only [step] at hstep
    cases hg : __emutls_get_address T active s t d arrAns rawAns with
    | error e => rw [hg] at hstep; cases hstep
    | ok r =>
      obtain ⟨s2, p⟩ := r
      rw [hg] at hstep
      dsimp only at hstep
      rw [Except.ok.injEq] at hstep
      subst hstep
      cases active with
      | true =>
        obtain ⟨hf1, -, -⟩ := resolve_offset_fits T s d hfit
        obtain ⟨s3, arr, he, -, hcase⟩ := get_address_ok T s s2 t d arrAns rawAns p hg
        obtain ⟨e1, -, -, -, e5, e6⟩ := ensure_array_frame T _ s3 t _ arrAns arr he
        have ha := ensure_array_fits T _ s3 t _ arrAns arr hf1 he
        have hf3 : Fits T s3 := by
          refine ⟨fun x => by rw [e1]; exact hf1.1 x, fun t1 a1 hk => ?_⟩
          by_cases ht : t1 = t
          · subst ht
            cases hx : key_exists (resolve_offset T s d).1 t1 with
            | true =>
              rw [e5 hx, Option.some.injEq] at hk
              subst hk
              exact ha
            | false =>
              rw [((ensure_array_flag T _ s3 t1 _ arrAns arr he).2 hx).2] at hk
              cases hk
          · rw [e6 t1 ht] at hk
            exact hf1.2 t1 a1 hk
        rcases hcase with ⟨-, -, rfl⟩ | ⟨-, s4, hal, rfl⟩
        · exact hf3
        · cases hk3 : s3.key t with
          | none =>
            rw [alloc_write_lost T s3 s4 t _ rawAns p _ hal hk3]
            obtain ⟨-, -, -, -, rfl⟩ := emutls_alloc_ok T s3 s4 t _ rawAns p hal
            exact ⟨hf3.1, hf3.2⟩
          | some a0 =>
            rw [alloc_write_array T s3 s4 t _ rawAns p a0 _ hal hk3]
            obtain ⟨-, -, -, -, rfl⟩ := emutls_alloc_ok T s3 s4 t _ rawAns p hal
            refine ⟨hf3.1, fun t1 a1 hk => ?_⟩
            dsimp only at hk
            by_cases ht : t1 = t
            · subst ht
              rw [Function.update_same, Option.some.injEq] at hk
              subst hk
              dsimp only
              rw [List.length_set]
              exact ha
            · rw [Function.update_noteq ht] at hk
              exact hf3.2 t1 a1 hk
      | false =>
        rcases get_address_single_ok T s s2 t d arrAns rawAns p hg with
          ⟨-, s3, hal, rfl⟩ | ⟨-, rfl, -⟩
        · obtain ⟨-, hret, -, -, rfl⟩ := emutls_alloc_ok T s s3 t _ rawAns p hal
          refine ⟨fun x => ?_, hfit.2⟩
          dsimp only
          by_cases hx : x = d
          · subst hx
            rw [Function.update_same]
            dsimp only
            rw [hret]
            exact emutls_alloc_ret_lt T _ _
          · rw [Function.update_noteq hx]; exact hfit.1 x
        · exact hfit
  | register d size align templ =>
    simp only [step] at hstep
    rw [Except.ok.injEq] at hstep
    subst hstep
    refine ⟨fun x => ?_, hfit.2⟩
    dsimp only
    by_cases hx : x = d
    · subst hx
      rw [Function.update_same, register_common_eq]
      exact hfit.1 x
    · rw [Function.update_noteq hx]; exact hfit.1 x
  | exit t =>
    simp only [step] at hstep
    obtain ⟨e1, -, -, e4⟩ := thread_exit_round_frame T s s1 t hstep
    refine ⟨fun x => by rw [e1]; exact hfit.1 x, fun t1 a1 hk => ?_⟩
    by_cases ht : t1 = t
    · subst ht
      rcases thread_exit_round_key T s s1 t1 hstep with hn | ⟨arr, hs, hs1⟩
      · rw [hn] at hk; cases hk
      · rw [hs1, Option.some.injEq] at hk
        subst hk
        exact hfit.2 t1 arr hs
    · rw [e4 t1 ht] at hk
      exact hfit.2 t1 a1 hk

/-- Every run keeps the slot fields and the arrays well-formed. -/
theorem fits_run (T : Target) (ops : List Op) :
    ∀ (s s1 : State), Fits T s → run T s ops = .ok s1 → Fits T s1 := by
  induction ops with
  | nil =>
    intro s s1 hfit hrun
    rw [run, Except.ok.injEq] at hrun
    subst hrun
    exact hfit
  | cons op ops ih =>
    intro s s1 hfit hrun
    rw [run] at hrun
    cases hs : step T s op with
    | error e => rw [hs] at hrun; cases hrun
    | ok s2 =>
      rw [hs] at hrun
      exact ih s2 s1 (fits_step T s s2 op hfit hs) hrun

/-! ## Pointer stability -/

/-- The index `offset - 1` in the type `pointer`, for a slot that is not zero. -/
theorem index_of_slot (T : Target) (off : Nat) (h0 : 0 < off) (hM : off < T.modulus) :
    (off + T.modulus - 1) % T.modulus = off - 1 := by
  have h : off + T.modulus - 1 = off - 1 + T.modulus := by omega
  rw [h, Nat.add_mod_right]
  exact Nat.mod_eq_of_lt (by omega)

/-- A slot that is assigned stays as it is under slot resolution of any descriptor. -/
theorem resolve_offset_loc (T : Target) (s : State) (d d1 : Nat) (h : (s.objs d).loc ≠ 0) :
    ((resolve_offset T s d1).1.objs d).loc = (s.objs d).loc := by
  unfold resolve_offset
  dsimp only
  by_cases h0 : (s.objs d1).loc = 0
  · rw [if_pos h0]
    dsimp only
    have hne : d ≠ d1 := by
      intro he; subst he; exact h h0
    rw [Function.update_noteq hne]
  · rw [if_neg h0]

/-- After a successful threaded call the thread holds the returned block at the slot
of the descriptor; slot and block are not zero. -/
theorem get_address_entry (T : Target) (s s1 : State) (t d arrAns rawAns p : Nat)
    (hfit : Fits T s) (hkx : key_exists (resolve_offset T s d).1 t = true)
    (h : __emutls_get_address T true s t d arrAns rawAns = .ok (s1, p)) :
    ∃ off, 0 < off ∧ off < T.modulus ∧ p ≠ 0 ∧ EntryAt s1 t d off p := by
  obtain ⟨hf1, hoff, hloc⟩ := resolve_offset_fits T s d hfit
  obtain ⟨s2, arr, he, hidx, hcase⟩ := get_address_ok T s s1 t d arrAns rawAns p h
  obtain ⟨e1, -, -, -, e5, -⟩ := ensure_array_frame T _ s2 t _ arrAns arr he
  have e5 := e5 hkx
  obtain ⟨hlen, hsz⟩ := ensure_array_fits T _ s2 t _ arrAns arr hf1 he
  obtain ⟨g1, -, -⟩ := get_address_frame T s s1 t d arrAns rawAns p h
  have hpos : 0 < (resolve_offset T s d).2 := by
    by_contra hc
    have hz : (resolve_offset T s d).2 = 0 := by omega
    rw [hz, Nat.zero_add, Nat.mod_eq_of_lt (by have := modulus_pos T; omega)] at hidx
    omega
  have hi := index_of_slot T _ hpos hoff
  rw [hi] at hidx hcase
  refine ⟨(resolve_offset T s d).2, hpos, hoff, ?_, ?_, ?_⟩
  · rcases hcase with ⟨hne, hp, -⟩ | ⟨-, s3, ha, -⟩
    · rw [hp]; exact hne
    · obtain ⟨hfr, -, -, hb, -⟩ := emutls_alloc_ok T s2 s3 t _ rawAns p ha
      have := hfr.1
      omega
  · rw [g1]; exact hloc
  · rcases hcase with ⟨-, hp, rfl⟩ | ⟨-, s3, ha, rfl⟩
    · exact ⟨arr, e5, by omega, hp.symm⟩
    · rw [alloc_write_array T s2 s3 t _ rawAns p arr _ ha e5]
      refine ⟨_, Function.update_same _ _ _, ?_, ?_⟩
      · dsimp only
        rw [List.length_set]; omega
      · dsimp only
        rw [List.getD_eq_getElem?_getD, List.getElem?_set_self hidx]
        rfl

/-- An entry of a thread survives every operation but the exit hook of the thread. -/
theorem entry_step (T : Target) (s s1 : State) (op : Op) (t d off p : Nat)
    (hfit : Fits T s) (h0 : 0 < off) (hp : p ≠ 0)
    (hent : EntryAt s t d off p) (hne : op ≠ .exit t) (hstep : step T s op = .ok s1) :
    EntryAt s1 t d off p := by
  obtain ⟨hloc, arr, hkey, hlen, hget⟩ := hent
  have hlne : (s.objs d).loc ≠ 0 := by omega
  cases op with
  | get active t1 d1 arrAns rawAns =>
    simp only [step] at hstep
    cases hg : __emutls_get_address T active s t1 d1 arrAns rawAns with
    | error e => rw [hg] at hstep; cases hstep
    | ok r =>
      obtain ⟨s2, q⟩ := r
      rw [hg] at hstep
      dsimp only at hstep
      rw [Except.ok.injEq] at hstep
      subst hstep
      cases active with
      | true =>
        obtain ⟨g1, -, g3⟩ := get_address_frame T s s2 t1 d1 arrAns rawAns q hg
        have hloc2 : (s2.objs d).loc = off := by
          rw [g1, resolve_offset_loc T s d d1 hlne, hloc]
        refine ⟨hloc2, ?_⟩
        by_cases ht : t = t1
        · subst ht
          obtain ⟨hf1, -, -⟩ := resolve_offset_fits T s d1 hfit
          obtain ⟨fk, -, -, -⟩ := resolve_offset_frame T s d1
          obtain ⟨s3, arr1, he, hidx, hcase⟩ := get_address_ok T s s2 t d1 arrAns rawAns q hg
          obtain ⟨-, -, -, -, e5, -⟩ := ensure_array_frame T _ s3 t _ arrAns arr1 he
          have e5 := e5 (key_exists_of_some _ t arr (by rw [fk]; exact hkey))
          have harr1 : off ≤ arr1.data.length ∧ arr1.data.getD (off - 1) 0 = p := by
            rcases ensure_array_ok T _ s3 t _ arrAns arr1 he with
              ⟨hn, -⟩ | ⟨arr0, hk0, -, -, hge, -, rfl, -⟩ | ⟨hk0, -, -⟩
            · rw [fk, hkey] at hn; cases hn
            · rw [fk, hkey, Option.some.injEq] at hk0
              subst hk0
              obtain ⟨hl, -⟩ := hfit.2 t arr hkey
              dsimp only
              rw [← hl, List.take_length]
              constructor
              · rw [List.length_append]; omega
              · rw [List.getD_append _ _ _ _ (by omega)]; exact hget
            · rw [fk, hkey, Option.some.injEq] at hk0
              subst hk0
              exact ⟨hlen, hget⟩
          rcases hcase with ⟨-, -, rfl⟩ | ⟨hz, s4, hal, rfl⟩
          · exact ⟨arr1, e5, harr1⟩
          · rw [alloc_write_array T s3 s4 t _ rawAns q arr1 _ hal e5]
            refine ⟨_, Function.update_same _ _ _, ?_, ?_⟩
            · dsimp only
              rw [List.length_set]; exact harr1.1
            · dsimp only
              have hne2 : ((resolve_offset T s d1).2 + T.modulus - 1) % T.modulus ≠ off - 1 := by
                intro hc
                rw [hc, harr1.2] at hz
                exact hp hz
              rw [List.getD_eq_getElem?_getD, List.getElem?_set_ne hne2,
                ← List.getD_eq_getElem?_getD]
              exact harr1.2
        · exact ⟨arr, by rw [g3 t ht]; exact hkey, hlen, hget⟩
      | false =>
        rcases get_address_single_ok T s s2 t1 d1 arrAns rawAns q hg with
          ⟨hz, s3, hal, rfl⟩ | ⟨-, rfl, -⟩
        · obtain ⟨-, -, -, -, rfl⟩ := emutls_alloc_ok T s s3 t1 _ rawAns q hal
          have hd : d ≠ d1 := by
            intro hc; subst hc; exact hlne hz
          refine ⟨?_, arr, hkey, hlen, hget⟩
          dsimp only
          rw [Function.update_noteq hd]
          exact hloc
        · exact ⟨hloc, arr, hkey, hlen, hget⟩
  | register d1 size align templ =>
    simp only [step] at hstep
    rw [Except.ok.injEq] at hstep
    subst hstep
    refine ⟨?_, arr, hkey, hlen, hget⟩
    dsimp only
    by_cases hx : d = d1
    · subst hx
      rw [Function.update_same, register_common_eq]
      exact hloc
    · rw [Function.update_noteq hx]; exact hloc
  | exit t1 =>
    simp only [step] at hstep
    have ht : t ≠ t1 := by
      intro hc; subst hc; exact hne rfl
    obtain ⟨e1, -, -, e4⟩ := thread_exit_round_frame T s s1 t1 hstep
    exact ⟨by rw [e1]; exact hloc, arr, by rw [e4 t ht]; exact hkey, hlen, hget⟩

/-- An entry of a thread survives every run without the exit hook of the thread. -/
theorem entry_run (T : Target) (t d off p : Nat) (h0 : 0 < off) (hp : p ≠ 0)
    (ops : List Op) :
    ∀ (s s1 : State), Fits T s → EntryAt s t d off p → (∀ op ∈ ops, op ≠ .exit t) →
      run T s ops = .ok s1 → Fits T s1 ∧ EntryAt s1 t d off p := by
  induction ops with
  | nil =>
    intro s s1 hfit hent _ hrun
    rw [run, Except.ok.injEq] at hrun
    subst hrun
    exact ⟨hfit, hent⟩
  | cons op ops ih =>
    intro s s1 hfit hent hne hrun
    rw [run] at hrun
    cases hs : step T s op with
    | error e => rw [hs] at hrun; cases hrun
    | ok s2 =>
      rw [hs] at hrun
      exact ih s2 s1 (fits_step T s s2 op hfit hs)
        (entry_step T s s2 op t d off p hfit h0 hp hent (hne op (List.mem_cons_self _ _)) hs)
        (fun o ho => hne o (List.mem_cons_of_mem _ ho)) hrun

/-- A thread that holds the block of a descriptor gets it back from
`__emutls_get_address`, whatever the environment answers, and the state is left as it
is. -/
theorem get_address_of_entry (T : Target) (s : State) (t d off p arrAns rawAns : Nat)
    (hfit : Fits T s) (h0 : 0 < off) (hM : off < T.modulus) (hp : p ≠ 0)
    (hent : EntryAt s t d off p) :
    __emutls_get_address T true s t d arrAns rawAns = .ok (s, p) := by
  obtain ⟨hloc, arr, hkey, hlen, hget⟩ := hent
  obtain ⟨hl, -⟩ := hfit.2 t arr hkey
  have hr : resolve_offset T s d = (s, off) := by
    unfold resolve_offset
    dsimp only
    rw [if_neg (by omega), hloc]
  have he : ensure_array T s t off arrAns = .ok (s, arr) := by
    unfold ensure_array
    rw [hkey]
    dsimp only
    rw [if_neg (by omega)]
  unfold __emutls_get_address
  simp only [not_true_eq_false, if_false]
  rw [hr]
  dsimp only
  rw [he]
  dsimp only
  rw [index_of_slot T off h0 hM, if_neg (by omega), hget, if_neg hp]

/-- C1: in threaded mode, in a state reached by a threaded run from a state without
arrays in which the key exists if a descriptor has a slot (the state at the start of
the process is one), if `__emutls_get_address (d)` called by thread `t` returns `p`,
then after any further run that does not contain the exit hook of `t` (calls by `t`
on any descriptors, also ones that make the array grow, calls by other threads,
registrations), the next call by `t` on `d` returns `p` again, whatever the
environment answers. -/
theorem pointer_stable (T : Target) (s0 s s1 s2 : State) (pre ops : List Op)
    (t d arrAns rawAns p : Nat)
    (hkeys : ∀ t1, s0.key t1 = none) (hlocs : ∀ d1, (s0.objs d1).loc < T.modulus)
    (hready : KeyReady s0) (hpre : ∀ op ∈ pre, op.threaded)
    (hreach : run T s0 pre = .ok s)
    (hget : __emutls_get_address T true s t d arrAns rawAns = .ok (s1, p))
    (hops : ∀ op ∈ ops, op ≠ .exit t) (hrun : run T s1 ops = .ok s2) :
    ∀ arrAns1 rawAns1, __emutls_get_address T true s2 t d arrAns1 rawAns1 = .ok (s2, p) := by
  have hfit0 : Fits T s0 := ⟨hlocs, fun t1 arr hk => by rw [hkeys t1] at hk; cases hk⟩
  have hfit : Fits T s := fits_run T pre s0 s hfit0 hreach
  have hr : KeyReady s := ready_run T pre s0 s hready hpre hreach
  obtain ⟨off, h0, hM, hp, hent⟩ := get_address_entry T s s1 t d arrAns rawAns p hfit
    (resolve_offset_exists T s t d hr) hget
  have hfit1 : Fits T s1 := by
    apply fits_step T s s1 (.get true t d arrAns rawAns) hfit
    simp only [step]
    rw [hget]
  obtain ⟨hfit2, hent2⟩ := entry_run T t d off p h0 hp ops s1 s2 hfit1 hent hops hrun
  intro arrAns1 rawAns1
  exact get_address_of_entry T s2 t d off p arrAns1 rawAns1 hfit2 h0 hM hp hent2

/-- Witness of C1: thread 0 obtains the block 8200 of descriptor 0, then its array
grows from capacity 33 to 532 for slot 500, and the block is still 8200. -/
theorem pointer_stable_witness :
    __emutls_get_address T64 true sparseState 0 0 4096 8192 =
      .ok (final_state (run T64 sparseState [.get true 0 0 4096 8192]), 8200) ∧
    run T64 (final_state (run T64 sparseState [.get true 0 0 4096 8192])) laterOps =
      .ok (final_state (run T64 sparseState (.get true 0 0 4096 8192 :: laterOps))) ∧
    capacity_after (.ok (final_state (run T64 sparseState [.get true 0 0 4096 8192]), 0)) 0
      = some 33 ∧
    capacity_after (.ok (final_state (run T64 sparseState (.get true 0 0 4096 8192 :: laterOps)),
      0)) 0 = some 532 ∧
    ∀ arrAns1 rawAns1, __emutls_get_address T64 true
      (final_state (run T64 sparseState (.get true 0 0 4096 8192 :: laterOps))) 0 0
        arrAns1 rawAns1 =
      .ok (final_state (run T64 sparseState (.get true 0 0 4096 8192 :: laterOps)), 8200) :=
  ⟨rfl, rfl, by decide, by decide,
    pointer_stable T64 sparseState sparseState _ _ [] laterOps 0 0 4096 8192 8200
      (fun _ => rfl) (fun d1 => by unfold sparseState; dsimp only; split_ifs <;> decide)
      (fun _ _ => rfl) (by decide) rfl rfl (by decide) rfl⟩

/-! ## Blocks and their raw allocations -/

/-- The address of the word before the block: `emutls_alloc` stores the raw pointer
at `ret - sizeof (void *)`, and the block starts at least that far into the
allocation. -/
theorem emutls_alloc_backptr_eq (T : Target) (obj : __emutls_object) (ptr : Nat)
    (hn : ptr + emutls_alloc_request T obj < T.modulus)
    (hb : ptr ≤ emutls_alloc_backptr T obj ptr ∧
      emutls_alloc_backptr T obj ptr + T.ptrBytes ≤ ptr + emutls_alloc_request T obj) :
    T.ptrBytes ≤ emutls_alloc_ret T obj ptr ∧
    emutls_alloc_backptr T obj ptr = emutls_alloc_ret T obj ptr - T.ptrBytes := by
  have hlt := emutls_alloc_ret_lt T obj ptr
  unfold emutls_alloc_backptr at hb ⊢
  by_cases h1 : obj.align ≤ T.ptrBytes
  · rw [if_pos h1] at hb ⊢
    have hr : emutls_alloc_ret T obj ptr = ptr + T.ptrBytes := by
      unfold emutls_alloc_ret
      rw [if_pos h1]
      exact Nat.mod_eq_of_lt (by omega)
    rw [hr]
    omega
  · rw [if_neg h1] at hb ⊢
    by_cases h2 : T.ptrBytes ≤ emutls_alloc_ret T obj ptr
    · have he : emutls_alloc_ret T obj ptr + T.modulus - T.ptrBytes =
          emutls_alloc_ret T obj ptr - T.ptrBytes + T.modulus := by omega
      rw [he, Nat.add_mod_right, Nat.mod_eq_of_lt (by omega)]
      exact ⟨h2, rfl⟩
    · exfalso
      have he : (emutls_alloc_ret T obj ptr + T.modulus - T.ptrBytes) % T.modulus =
          emutls_alloc_ret T obj ptr + T.modulus - T.ptrBytes :=
        Nat.mod_eq_of_lt (by omega)
      rw [he] at hb
      omega

/-- What a successful `emutls_alloc` leaves behind: a fresh block that contains the
word before the returned address, that word holding the raw pointer, and memory
outside the block as it was. -/
theorem emutls_alloc_facts (T : Target) (s s1 : State) (t : Nat) (obj : __emutls_object)
    (answer ret : Nat) (h : emutls_alloc T s t obj answer = .ok (s1, ret)) :
    FreshBlock T s.heap answer (emutls_alloc_request T obj) ∧
    (answer + T.ptrBytes ≤ ret ∧ ret ≤ answer + emutls_alloc_request T obj ∧ ret < T.modulus) ∧
    back_ptr T s1.mem ret = answer ∧
    (∀ x, x < answer ∨ answer + emutls_alloc_request T obj ≤ x → s1.mem x = s.mem x) ∧
    s1.heap = (answer, emutls_alloc_request T obj) :: s.heap ∧
    s1.log = s.log ++ [Event.alloc t answer] ∧ s1.key = s.key ∧ s1.objs = s.objs := by
  obtain ⟨hf, hret, hb, hr, rfl⟩ := emutls_alloc_ok T s s1 t obj answer ret h
  have hlt : ret < T.modulus := by rw [hret]; exact emutls_alloc_ret_lt T obj answer
  obtain ⟨hpw, hbe⟩ := emutls_alloc_backptr_eq T obj answer hf.2.2.1 hb
  rw [← hret] at hpw hbe
  have hM := modulus_pos T
  refine ⟨hf, ⟨by omega, by omega, hlt⟩, ?_, ?_, rfl, rfl, rfl, rfl⟩
  · dsimp only
    unfold back_ptr
    have ha : (ret + T.modulus - T.ptrBytes) % T.modulus = ret - T.ptrBytes := by
      have he : ret + T.modulus - T.ptrBytes = ret - T.ptrBytes + T.modulus := by omega
      rw [he, Nat.add_mod_right, Nat.mod_eq_of_lt (by omega)]
    rw [ha, ← hbe]
    have hcell : ∀ x, emutls_alloc_backptr T obj answer ≤ x →
        x < emutls_alloc_backptr T obj answer + T.ptrBytes →
        (if obj.templ ≠ 0 then
          memcpy (storePtr T s.mem (emutls_alloc_backptr T obj answer) answer) ret obj.templ
            obj.size
        else memset (storePtr T s.mem (emutls_alloc_backptr T obj answer) answer) ret 0
          obj.size) x = storePtr T s.mem (emutls_alloc_backptr T obj answer) answer x := by
      intro x _ hx2
      have hx : ¬ (ret ≤ x ∧ x < ret + obj.size) := by omega
      split_ifs
      · unfold memcpy; rw [if_neg hx]
      · unfold memset; rw [if_neg hx]
    unfold loadPtr
    rw [loadLE_congr _ _ _ _ hcell]
    exact loadPtr_storePtr T s.mem _ answer (by omega)
  · intro x hx
    dsimp only
    have hx1 : ¬ (ret ≤ x ∧ x < ret + obj.size) := by omega
    have hx2 : ¬ (emutls_alloc_backptr T obj answer ≤ x ∧
        x < emutls_alloc_backptr T obj answer + T.ptrBytes) := by omega
    have hst : storePtr T s.mem (emutls_alloc_backptr T obj answer) answer x = s.mem x := by
      unfold storePtr storeLE; rw [if_neg hx2]
    split_ifs
    · unfold memcpy; rw [if_neg hx1, hst]
    · unfold memset; rw [if_neg hx1, hst]

/-- Filling an empty entry adds one entry that is not `NULL`. -/
theorem filter_set_perm (v : Nat) (hv : v ≠ 0) (l : List Nat) :
    ∀ i, i < l.length → l.getD i 0 = 0 →
      ((l.set i v).filter (fun p => p ≠ 0)).Perm (v :: l.filter (fun p => p ≠ 0)) := by
  induction l with
  | nil => intro i hi; simp at hi
  | cons a l ih =>
    intro i hi hz
    cases i with
    | zero =>
      simp only [List.getD_cons_zero] at hz
      subst hz
      simp [hv]
    | succ i =>
      simp only [List.getD_cons_succ] at hz
      simp only [List.length_cons, Nat.add_lt_add_iff_right] at hi
      rw [List.set_cons_succ]
      by_cases ha : a = 0
      · subst ha
        simpa using ih i hi hz
      · have h1 := ih i hi hz
        simp only [List.filter_cons, ha, ne_eq, not_false_eq_true, decide_True, if_true]
        exact (List.Perm.cons a h1).trans (List.Perm.swap v a _)

/-- A fresh block is not a live block. -/
theorem fresh_ne_live (T : Target) (heap : List (Nat × Nat)) (p n : Nat)
    (hf : FreshBlock T heap p n) (b : Nat × Nat) (hb : b ∈ heap) : b.1 ≠ p := by
  have := hf.2.2.2 b hb
  omega

/-- A write inside a fresh block leaves the word before an entry of a live block as
it was. -/
theorem back_ptr_frame (T : Target) (mem mem1 : Nat → Nat) (heap : List (Nat × Nat))
    (ptr n p : Nat) (hf : FreshBlock T heap ptr n)
    (hout : ∀ x, x < ptr ∨ ptr + n ≤ x → mem1 x = mem x)
    (hp : T.ptrBytes ≤ p ∧ p < T.modulus ∧
      ∃ b ∈ heap, b.1 = back_ptr T mem p ∧ b.1 + T.ptrBytes ≤ p ∧ p ≤ b.1 + b.2) :
    back_ptr T mem1 p = back_ptr T mem p := by
  obtain ⟨h1, h2, b, hb, -, h3, h4⟩ := hp
  have hd := hf.2.2.2 b hb
  unfold back_ptr loadPtr
  have ha : (p + T.modulus - T.ptrBytes) % T.modulus = p - T.ptrBytes := by
    have he : p + T.modulus - T.ptrBytes = p - T.ptrBytes + T.modulus := by omega
    rw [he, Nat.add_mod_right, Nat.mod_eq_of_lt (by omega)]
  rw [ha]
  apply loadLE_congr
  intro x hx1 hx2
  apply hout
  omega

/-- The events of other threads do not count. -/
theorem allocs_of_append_other (t t1 raw : Nat) (log : List Event) (h : t1 ≠ t) :
    allocs_of t (log ++ [Event.alloc t1 raw]) = allocs_of t log := by
  unfold allocs_of
  rw [List.filterMap_append]
  simp [h]

/-- An allocation of the thread is counted last. -/
theorem allocs_of_append_self (t raw : Nat) (log : List Event) :
    allocs_of t (log ++ [Event.alloc t raw]) = allocs_of t log ++ [raw] := by
  unfold allocs_of
  rw [List.filterMap_append]
  simp

/-- The raw blocks of entries whose words are unchanged are unchanged. -/
theorem block_ptrs_congr (T : Target) (mem mem1 : Nat → Nat) (data : List Nat)
    (h : ∀ q ∈ data, q ≠ 0 → back_ptr T mem1 q = back_ptr T mem q) :
    block_ptrs T mem1 data = block_ptrs T mem data := by
  unfold block_ptrs
  congr 1
  apply List.map_congr_left
  intro q hq
  rw [List.mem_filter] at hq
  exact h q hq.1 (by simpa using hq.2)

/-- Filling an empty entry with a block adds the raw pointer of the block. -/
theorem block_ptrs_set (T : Target) (mem mem1 : Nat → Nat) (data : List Nat)
    (idx p ptr : Nat) (hidx : idx < data.length) (hz : data.getD idx 0 = 0) (hp : p ≠ 0)
    (hptr : ptr ≠ 0) (hbp : back_ptr T mem1 p = ptr)
    (h : ∀ q ∈ data, q ≠ 0 → back_ptr T mem1 q = back_ptr T mem q) :
    (block_ptrs T mem1 (data.set idx p)).Perm (ptr :: block_ptrs T mem data) := by
  rw [← block_ptrs_congr T mem mem1 data h]
  unfold block_ptrs
  have h1 := ((filter_set_perm p hp data idx hidx hz).map (back_ptr T mem1)).filter
    (fun q => q ≠ 0)
  rw [List.map_cons, hbp, List.filter_cons_of_pos (by simpa using hptr)] at h1
  exact h1

/-- The members of the list of raw blocks. -/
theorem mem_block_ptrs (T : Target) (mem : Nat → Nat) (data : List Nat) (q : Nat) :
    q ∈ block_ptrs T mem data ↔ q ≠ 0 ∧ ∃ p ∈ data, p ≠ 0 ∧ back_ptr T mem p = q := by
  unfold block_ptrs
  simp only [List.mem_filter, List.mem_map, ne_eq, decide_not, Bool.not_eq_eq_eq_not,
    Bool.not_true, decide_eq_false_iff_not]
  tauto

/-- Allocating a block for an empty entry of thread `t` keeps the allocator's view. -/
theorem owned_alloc (T : Target) (s s3 : State) (t : Nat) (obj : __emutls_object)
    (rawAns p idx : Nat) (arr : __emutls_array) (hown : Owned T s)
    (hkey : s.key t = some arr) (hidx : idx < arr.data.length)
    (hz : arr.data.getD idx 0 = 0)
    (ha : emutls_alloc T s t obj rawAns = .ok (s3, p)) :
    Owned T { s3 with key := (Function.update s3.key t
      (some { arr with data := arr.data.set idx p })) } := by
  obtain ⟨hf, ⟨hb1, hb2, hb3⟩, hbp, hout, hheap, hlog, hk3, -⟩ :=
    emutls_alloc_facts T s s3 t obj rawAns p ha
  have hpw := ptrBytes_pos T
  have hp0 : p ≠ 0 := by omega
  have hold : ∀ t1 arr1 q, s.key t1 = some arr1 → q ∈ arr1.data → q ≠ 0 →
      back_ptr T s3.mem q = back_ptr T s.mem q := fun t1 arr1 q h1 h2 h3 =>
    back_ptr_frame T s.mem s3.mem s.heap rawAns _ q hf hout (hown.cell t1 arr1 q h1 h2 h3)
  have hkeys : ∀ t1 arr1, Function.update s3.key t
      (some { arr with data := arr.data.set idx p }) t1 = some arr1 →
      (t1 = t ∧ arr1 = { arr with data := arr.data.set idx p }) ∨
      (t1 ≠ t ∧ s.key t1 = some arr1) := by
    intro t1 arr1 h
    by_cases ht : t1 = t
    · subst ht
      rw [Function.update_same, Option.some.injEq] at h
      exact Or.inl ⟨rfl, h.symm⟩
    · rw [Function.update_noteq ht, hk3] at h
      exact Or.inr ⟨ht, h⟩
  -- the facts about one entry of the new state
  have hentry : ∀ t1 arr1 q, Function.update s3.key t
      (some { arr with data := arr.data.set idx p }) t1 = some arr1 → q ∈ arr1.data →
      q ≠ 0 → (t1 = t ∧ back_ptr T s3.mem q = rawAns) ∨
        (∃ arr0, s.key t1 = some arr0 ∧ q ∈ arr0.data ∧
          back_ptr T s3.mem q = back_ptr T s.mem q) := by
    intro t1 arr1 q h hq hq0
    rcases hkeys t1 arr1 h with ⟨rfl, rfl⟩ | ⟨-, h1⟩
    · rcases List.mem_or_eq_of_mem_set hq with hq1 | rfl
      · exact Or.inr ⟨arr, hkey, hq1, hold t1 arr q hkey hq1 hq0⟩
      · exact Or.inl ⟨rfl, hbp⟩
    · exact Or.inr ⟨arr1, h1, hq, hold t1 arr1 q h1 hq hq0⟩
  have hbase : ∀ t1 arr1, Function.update s3.key t
      (some { arr with data := arr.data.set idx p }) t1 = some arr1 →
      ∃ arr0, s.key t1 = some arr0 ∧ arr0.base = arr1.base := by
    intro t1 arr1 h
    rcases hkeys t1 arr1 h with ⟨rfl, rfl⟩ | ⟨-, h1⟩
    · exact ⟨arr, hkey, rfl⟩
    · exact ⟨arr1, h1, rfl⟩
  constructor
  · intro t1 arr1 h
    obtain ⟨arr0, h0, he⟩ := hbase t1 arr1 h
    obtain ⟨h1, b, hb, hbe⟩ := hown.base_live t1 arr0 h0
    dsimp only
    rw [hheap, ← he]
    exact ⟨h1, b, List.mem_cons_of_mem _ hb, hbe⟩
  · intro t1 arr1 q h hq hq0
    dsimp only at h ⊢
    rw [hheap]
    rcases hkeys t1 arr1 h with ⟨rfl, rfl⟩ | ⟨-, k1⟩
    · rcases List.mem_or_eq_of_mem_set hq with hq1 | rfl
      · obtain ⟨c1, c2, b, hb, c3, c4, c5⟩ := hown.cell t1 arr q hkey hq1 hq0
        exact ⟨c1, c2, b, List.mem_cons_of_mem _ hb,
          by rw [hold t1 arr q hkey hq1 hq0]; exact c3, c4, c5⟩
      · exact ⟨by omega, hb3, (rawAns, _), List.mem_cons_self _ _, hbp.symm, hb1, hb2⟩
    · have hq2 := hold t1 arr1 q k1 hq hq0
      obtain ⟨c1, c2, b, hb, c3, c4, c5⟩ := hown.cell t1 arr1 q k1 hq hq0
      exact ⟨c1, c2, b, List.mem_cons_of_mem _ hb, by rw [hq2]; exact c3, c4, c5⟩
  · intro t1 t2 arr1 arr2 h1 h2 hne
    obtain ⟨a1, k1, e1⟩ := hbase t1 arr1 h1
    obtain ⟨a2, k2, e2⟩ := hbase t2 arr2 h2
    rw [← e1, ← e2]
    exact hown.base_ne t1 t2 a1 a2 k1 k2 hne
  · intro t1 t2 arr1 arr2 q h1 h2 hq hq0
    obtain ⟨a1, k1, e1⟩ := hbase t1 arr1 h1
    dsimp only at h2 ⊢
    rw [← e1]
    rcases hentry t2 arr2 q h2 hq hq0 with ⟨-, hq1⟩ | ⟨arr0, h0, hq1, hq2⟩
    · rw [hq1]
      obtain ⟨-, b, hb, hbe⟩ := hown.base_live t1 a1 k1
      rw [← hbe]
      exact fresh_ne_live T s.heap rawAns _ hf b hb
    · rw [hq2]
      exact hown.base_block t1 t2 a1 arr0 q k1 h0 hq1 hq0
  · intro t1 t2 arr1 arr2 q1 q2 h1 h2 hne hq1 hq2 hq10 hq20
    dsimp only at h1 h2 ⊢
    rcases hentry t1 arr1 q1 h1 hq1 hq10 with ⟨e1, b1⟩ | ⟨a1, k1, m1, b1⟩
    · rcases hentry t2 arr2 q2 h2 hq2 hq20 with ⟨e2, -⟩ | ⟨a2, k2, m2, b2⟩
      · exact absurd (e1.trans e2.symm) hne
      · obtain ⟨-, -, b, hb, c3, -⟩ := hown.cell t2 a2 q2 k2 m2 hq20
        rw [b1, b2, ← c3]
        exact (fresh_ne_live T s.heap rawAns _ hf b hb).symm
    · rcases hentry t2 arr2 q2 h2 hq2 hq20 with ⟨-, b2⟩ | ⟨a2, k2, m2, b2⟩
      · obtain ⟨-, -, b, hb, c3, -⟩ := hown.cell t1 a1 q1 k1 m1 hq10
        rw [b1, b2, ← c3]
        exact fresh_ne_live T s.heap rawAns _ hf b hb
      · rw [b1, b2]
        exact hown.block_ne t1 t2 a1 a2 q1 q2 k1 k2 hne m1 m2 hq10 hq20
  · intro t1 arr1 h
    dsimp only at h ⊢
    rw [hlog]
    have hrel : (∀ q, Event.release t1 q ∉ s.log ++ [Event.alloc t rawAns]) →
        ∀ q, Event.release t1 q ∉ s.log := fun hr q hq =>
      hr q (List.mem_append_left _ hq)
    rcases hkeys t1 arr1 h with ⟨rfl, rfl⟩ | ⟨hne, h1⟩
    · obtain ⟨n1, n2⟩ := hown.blocks t1 arr hkey
      have hperm := block_ptrs_set T s.mem s3.mem arr.data idx p rawAns hidx hz hp0 hf.1 hbp
        (fun q hq hq0 => hold t1 arr q hkey hq hq0)
      dsimp only
      have hnot : rawAns ∉ block_ptrs T s.mem arr.data := by
        intro hm
        obtain ⟨-, q, hq, hq0, hq1⟩ := (mem_block_ptrs T s.mem arr.data rawAns).mp hm
        obtain ⟨-, -, b, hb, c3, -, -⟩ := hown.cell t1 arr q hkey hq hq0
        exact fresh_ne_live T s.heap rawAns _ hf b hb (by rw [c3, hq1])
      refine ⟨(List.Perm.nodup_iff hperm).mpr (List.nodup_cons.mpr ⟨hnot, n1⟩), fun hr => ?_⟩
      rw [allocs_of_append_self]
      exact hperm.trans ((List.Perm.cons rawAns (n2 (hrel hr))).trans
        (List.perm_append_singleton rawAns _).symm)
    · obtain ⟨n1, n2⟩ := hown.blocks t1 arr1 h1
      rw [block_ptrs_congr T s.mem s3.mem arr1.data
        (fun q hq hq0 => hold t1 arr1 q h1 hq hq0), allocs_of_append_other t1 t rawAns _
        (Ne.symm hne)]
      exact ⟨n1, fun hr => n2 (hrel hr)⟩
  · intro t1 h hr
    dsimp only at h hr ⊢
    have hne : t1 ≠ t := by
      intro hc; subst hc; rw [Function.update_same] at h; cases h
    rw [Function.update_noteq hne, hk3] at h
    rw [hlog] at hr ⊢
    rw [allocs_of_append_other t1 t rawAns _ (Ne.symm hne)]
    exact hown.no_blocks t1 h (fun q hq => hr q (List.mem_append_left _ hq))

/-- Entries that are `NULL` have no raw block. -/
theorem block_ptrs_append_zeros (T : Target) (mem : Nat → Nat) (data : List Nat) (k : Nat) :
    block_ptrs T mem (data ++ List.replicate k 0) = block_ptrs T mem data := by
  unfold block_ptrs
  have h : (List.replicate k 0).filter (fun p => p ≠ 0) = [] := by
    rw [List.filter_eq_nil_iff]
    intro a ha
    rw [List.eq_of_mem_replicate ha]
    simp
  rw [List.filter_append, h, List.append_nil]

/-- Creating or growing the array of a thread keeps the allocator's view. -/
theorem owned_ensure (T : Target) (s s2 : State) (t offset answer : Nat)
    (arr : __emutls_array) (hown : Owned T s) (hfit : Fits T s)
    (hkx : key_exists s t = true)
    (h : ensure_array T s t offset answer = .ok (s2, arr)) : Owned T s2 := by
  rcases ensure_array_ok T s s2 t offset answer arr h with
    ⟨hnone, hf, -, harr, hs2⟩ | ⟨arr0, hk0, -, hf, -, -, harr, rfl⟩ | ⟨-, -, rfl⟩
  · -- the array is created
    rw [setspecific_heap_exists s t _ _ hkx] at hs2
    subst hs2
    have hdata : ∀ q ∈ arr.data, q = 0 := by
      intro q hq
      rw [harr] at hq
      exact List.eq_of_mem_replicate hq
    have hbase : arr.base = answer := by rw [harr]
    have hkeys : ∀ t1 arr1, Function.update s.key t (some arr) t1 = some arr1 →
        (t1 = t ∧ arr1 = arr) ∨ (t1 ≠ t ∧ s.key t1 = some arr1) := by
      intro t1 arr1 h
      by_cases ht : t1 = t
      · subst ht
        rw [Function.update_same, Option.some.injEq] at h
        exact Or.inl ⟨rfl, h.symm⟩
      · rw [Function.update_noteq ht] at h
        exact Or.inr ⟨ht, h⟩
    constructor
    · intro t1 arr1 h1
      dsimp only at h1 ⊢
      rcases hkeys t1 arr1 h1 with ⟨-, rfl⟩ | ⟨-, k1⟩
      · rw [hbase]
        exact ⟨hf.1, _, List.mem_cons_self _ _, rfl⟩
      · obtain ⟨c1, b, hb, c2⟩ := hown.base_live t1 arr1 k1
        exact ⟨c1, b, List.mem_cons_of_mem _ hb, c2⟩
    · intro t1 arr1 q h1 hq hq0
      dsimp only at h1 ⊢
      rcases hkeys t1 arr1 h1 with ⟨-, rfl⟩ | ⟨-, k1⟩
      · exact absurd (hdata q hq) hq0
      · obtain ⟨c1, c2, b, hb, c3⟩ := hown.cell t1 arr1 q k1 hq hq0
        exact ⟨c1, c2, b, List.mem_cons_of_mem _ hb, c3⟩
    · intro t1 t2 arr1 arr2 h1 h2 hne
      dsimp only at h1 h2
      rcases hkeys t1 arr1 h1 with ⟨e1, rfl⟩ | ⟨-, k1⟩
      · rcases hkeys t2 arr2 h2 with ⟨e2, -⟩ | ⟨-, k2⟩
        · exact absurd (e1.trans e2.symm) hne
        · obtain ⟨-, b, hb, c2⟩ := hown.base_live t2 arr2 k2
          rw [hbase, ← c2]
          exact (fresh_ne_live T s.heap answer _ hf b hb).symm
      · rcases hkeys t2 arr2 h2 with ⟨-, rfl⟩ | ⟨-, k2⟩
        · obtain ⟨-, b, hb, c2⟩ := hown.base_live t1 arr1 k1
          rw [hbase, ← c2]
          exact fresh_ne_live T s.heap answer _ hf b hb
        · exact hown.base_ne t1 t2 arr1 arr2 k1 k2 hne
    · intro t1 t2 arr1 arr2 q h1 h2 hq hq0
      dsimp only at h1 h2 ⊢
      rcases hkeys t2 arr2 h2 with ⟨-, rfl⟩ | ⟨-, k2⟩
      · exact absurd (hdata q hq) hq0
      · rcases hkeys t1 arr1 h1 with ⟨-, rfl⟩ | ⟨-, k1⟩
        · obtain ⟨-, -, b, hb, c3, -⟩ := hown.cell t2 arr2 q k2 hq hq0
          rw [hbase, ← c3]
          exact (fresh_ne_live T s.heap answer _ hf b hb).symm
        · exact hown.base_block t1 t2 arr1 arr2 q k1 k2 hq hq0
    · intro t1 t2 arr1 arr2 q1 q2 h1 h2 hne hq1 hq2 hq10 hq20
      dsimp only at h1 h2 ⊢
      rcases hkeys t1 arr1 h1 with ⟨-, rfl⟩ | ⟨-, k1⟩
      · exact absurd (hdata q1 hq1) hq10
      · rcases hkeys t2 arr2 h2 with ⟨-, rfl⟩ | ⟨-, k2⟩
        · exact absurd (hdata q2 hq2) hq20
        · exact hown.block_ne t1 t2 arr1 arr2 q1 q2 k1 k2 hne hq1 hq2 hq10 hq20
    · intro t1 arr1 h1
      dsimp only at h1 ⊢
      rcases hkeys t1 arr1 h1 with ⟨e1, rfl⟩ | ⟨-, k1⟩
      · subst e1
        have hb : block_ptrs T s.mem arr1.data = [] := by
          rw [harr]
          exact block_ptrs_append_zeros T s.mem [] _
        rw [hb]
        refine ⟨List.nodup_nil, fun hr => ?_⟩
        rw [hown.no_blocks t1 hnone hr]
      · exact hown.blocks t1 arr1 k1
    · intro t1 h1
      dsimp only at h1 ⊢
      have hne : t1 ≠ t := by
        intro hc; subst hc; rw [Function.update_same] at h1; cases h1
      rw [Function.update_noteq hne] at h1
      exact hown.no_blocks t1 h1
  · -- the array is grown
    obtain ⟨hl0, -⟩ := hfit.2 t arr0 hk0
    have hdata : arr.data = arr0.data ++
        List.replicate (grown_size T arr0.size offset - arr0.size) 0 := by
      rw [harr]
      dsimp only
      rw [← hl0, List.take_length]
    have hmem : ∀ q ∈ arr.data, q ≠ 0 → q ∈ arr0.data := by
      intro q hq hq0
      rw [hdata, List.mem_append] at hq
      rcases hq with hq | hq
      · exact hq
      · exact absurd (List.eq_of_mem_replicate hq) hq0
    have hbase : arr.base = answer := by rw [harr]
    have hkeys : ∀ t1 arr1, Function.update s.key t (some arr) t1 = some arr1 →
        (t1 = t ∧ arr1 = arr) ∨ (t1 ≠ t ∧ s.key t1 = some arr1) := by
      intro t1 arr1 h
      by_cases ht : t1 = t
      · subst ht
        rw [Function.update_same, Option.some.injEq] at h
        exact Or.inl ⟨rfl, h.symm⟩
      · rw [Function.update_noteq ht] at h
        exact Or.inr ⟨ht, h⟩
    -- an entry of the new state is an entry of the old state
    have hentry : ∀ t1 arr1 q, Function.update s.key t (some arr) t1 = some arr1 →
        q ∈ arr1.data → q ≠ 0 → ∃ arr2, s.key t1 = some arr2 ∧ q ∈ arr2.data := by
      intro t1 arr1 q h1 hq hq0
      rcases hkeys t1 arr1 h1 with ⟨rfl, rfl⟩ | ⟨-, k1⟩
      · exact ⟨arr0, hk0, hmem q hq hq0⟩
      · exact ⟨arr1, k1, hq⟩
    -- a live block that is not the old array stays live
    have hlive : ∀ b ∈ s.heap, b.1 ≠ arr0.base →
        b ∈ (answer, (grown_size T arr0.size offset + hdr_size) % T.modulus * T.ptrBytes
          % T.modulus) :: s.heap.filter (fun b => b.1 ≠ arr0.base) := by
      intro b hb hne
      apply List.mem_cons_of_mem
      rw [List.mem_filter]
      exact ⟨hb, by simpa using hne⟩
    have hfresh : ∀ b ∈ s.heap, b.1 ≠ arr0.base → b.1 ≠ answer := by
      intro b hb hne
      apply fresh_ne_live T _ answer _ hf b
      rw [List.mem_filter]
      exact ⟨hb, by simpa using hne⟩
    constructor
    · intro t1 arr1 h1
      dsimp only at h1 ⊢
      rcases hkeys t1 arr1 h1 with ⟨-, rfl⟩ | ⟨hne, k1⟩
      · rw [hbase]
        exact ⟨hf.1, _, List.mem_cons_self _ _, rfl⟩
      · obtain ⟨c1, b, hb, c2⟩ := hown.base_live t1 arr1 k1
        refine ⟨c1, b, hlive b hb ?_, c2⟩
        rw [c2]
        exact hown.base_ne t1 t arr1 arr0 k1 hk0 hne
    · intro t1 arr1 q h1 hq hq0
      dsimp only at h1 ⊢
      obtain ⟨arr2, k2, hq2⟩ := hentry t1 arr1 q h1 hq hq0
      obtain ⟨c1, c2, b, hb, c3, c4⟩ := hown.cell t1 arr2 q k2 hq2 hq0
      refine ⟨c1, c2, b, hlive b hb ?_, c3, c4⟩
      rw [c3]
      exact (hown.base_block t t1 arr0 arr2 q hk0 k2 hq2 hq0).symm
    · intro t1 t2 arr1 arr2 h1 h2 hne
      dsimp only at h1 h2
      rcases hkeys t1 arr1 h1 with ⟨e1, rfl⟩ | ⟨n1, k1⟩
      · rcases hkeys t2 arr2 h2 with ⟨e2, -⟩ | ⟨n2, k2⟩
        · exact absurd (e1.trans e2.symm) hne
        · obtain ⟨-, b, hb, c2⟩ := hown.base_live t2 arr2 k2
          rw [hbase, ← c2]
          refine (hfresh b hb ?_).symm
          rw [c2]
          exact hown.base_ne t2 t arr2 arr0 k2 hk0 n2
      · rcases hkeys t2 arr2 h2 with ⟨-, rfl⟩ | ⟨-, k2⟩
        · obtain ⟨-, b, hb, c2⟩ := hown.base_live t1 arr1 k1
          rw [hbase, ← c2]
          refine hfresh b hb ?_
          rw [c2]
          exact hown.base_ne t1 t arr1 arr0 k1 hk0 n1
        · exact hown.base_ne t1 t2 arr1 arr2 k1 k2 hne
    · intro t1 t2 arr1 arr2 q h1 h2 hq hq0
      dsimp only at h1 h2 ⊢
      obtain ⟨arr3, k3, hq3⟩ := hentry t2 arr2 q h2 hq hq0
      rcases hkeys t1 arr1 h1 with ⟨-, rfl⟩ | ⟨-, k1⟩
      · obtain ⟨-, -, b, hb, c3, -⟩ := hown.cell t2 arr3 q k3 hq3 hq0
        rw [hbase, ← c3]
        refine (hfresh b hb ?_).symm
        rw [c3]
        exact (hown.base_block t t2 arr0 arr3 q hk0 k3 hq3 hq0).symm
      · exact hown.base_block t1 t2 arr1 arr3 q k1 k3 hq3 hq0
    · intro t1 t2 arr1 arr2 q1 q2 h1 h2 hne hq1 hq2 hq10 hq20
      dsimp only at h1 h2 ⊢
      obtain ⟨a1, k1, m1⟩ := hentry t1 arr1 q1 h1 hq1 hq10
      obtain ⟨a2, k2, m2⟩ := hentry t2 arr2 q2 h2 hq2 hq20
      exact hown.block_ne t1 t2 a1 a2 q1 q2 k1 k2 hne m1 m2 hq10 hq20
    · intro t1 arr1 h1
      dsimp only at h1 ⊢
      rcases hkeys t1 arr1 h1 with ⟨e1, rfl⟩ | ⟨-, k1⟩
      · subst e1
        rw [hdata, block_ptrs_append_zeros]
        exact hown.blocks t1 arr0 hk0
      · exact hown.blocks t1 arr1 k1
    · intro t1 h1
      dsimp only at h1 ⊢
      have hne : t1 ≠ t := by
        intro hc; subst hc; rw [Function.update_same] at h1; cases h1
      rw [Function.update_noteq hne] at h1
      exact hown.no_blocks t1 h1
  · exact hown

/-- Releases are not allocations. -/
theorem allocs_of_append_releases (t t1 : Nat) (log : List Event) (rel : List Nat) :
    allocs_of t (log ++ rel.map (Event.release t1)) = allocs_of t log := by
  have h : allocs_of t (rel.map (Event.release t1)) = [] := by
    induction rel with
    | nil => rfl
    | cons a rel ih =>
      unfold allocs_of at ih ⊢
      rw [List.map_cons, List.filterMap_cons]
      exact ih
  unfold allocs_of at h ⊢
  rw [List.filterMap_append, h, List.append_nil]

/-- The three ways a round of the exit hook returns: the thread has no store; the
countdown is decremented; or the blocks that pass the two `free` loops stay live,
and the array is among the pointers released. -/
theorem thread_exit_round_ok (T : Target) (s s1 : State) (t : Nat)
    (h : thread_exit_round T s t = .ok s1) :
    (s.key t = none ∧ s1 = s) ∨
    (∃ arr, s.key t = some arr ∧ 0 < arr.skip_destructor_rounds ∧
      s1 = { s with key := (Function.update s.key t
        (some { arr with skip_destructor_rounds := arr.skip_destructor_rounds - 1 })) }) ∨
    (∃ arr, s.key t = some arr ∧ arr.skip_destructor_rounds = 0 ∧
      s1.key = Function.update s.key t none ∧ s1.mem = s.mem ∧
      (∀ b ∈ s.heap, b.1 ∉ block_ptrs T s.mem (arr.data.take arr.size) →
        b.1 ≠ arr.base → b ∈ s1.heap) ∧
      ∃ rel : List Nat, s1.log = s.log ++ rel.map (Event.release t) ∧
        (arr.base ≠ 0 → arr.base ∈ rel)) := by
  unfold thread_exit_round at h
  cases hk : s.key t with
  | none =>
    rw [hk] at h
    dsimp only at h
    rw [Except.ok.injEq] at h
    exact Or.inl ⟨rfl, h.symm⟩
  | some arr =>
    right
    rw [hk] at h
    dsimp only at h
    unfold emutls_destroy at h
    by_cases hpos : arr.skip_destructor_rounds > 0
    · left
      rw [if_pos hpos] at h
      dsimp only at h
      rw [Except.ok.injEq, Function.update_idem] at h
      exact ⟨arr, rfl, hpos, h.symm⟩
    · right
      rw [if_neg hpos] at h
      by_cases hl : arr.data.length < arr.size
      · rw [if_pos hl] at h; cases h
      · rw [if_neg hl] at h
        cases hd : destroy_blocks T t { s with key := Function.update s.key t none }
            (arr.data.take arr.size) with
        | error e => rw [hd] at h; cases h
        | ok s2 =>
          rw [hd] at h
          dsimp only at h
          obtain ⟨-, -, d3, d4, d5, d6⟩ := destroy_blocks_ok T t _ _ s2 hd
          dsimp only at d3 d4 d5 d6
          refine ⟨arr, rfl, by omega, ?_⟩
          rcases free_ok s2 s1 _ _ h with ⟨h0, rfl⟩ | ⟨h0, -, rfl⟩
          · refine ⟨d3, d4, ?_, block_ptrs T s.mem (arr.data.take arr.size), d5,
              fun hb => absurd h0 hb⟩
            intro b hb hnb _
            rw [d6, List.mem_filter]
            exact ⟨hb, by simpa using hnb⟩
          · dsimp only
            refine ⟨d3, d4, ?_, block_ptrs T s.mem (arr.data.take arr.size) ++ [arr.base], ?_,
              fun _ => by simp⟩
            · intro b hb hnb hne
              rw [List.mem_filter, d6, List.mem_filter]
              exact ⟨⟨hb, by simpa using hnb⟩, by simpa using hne⟩
            · rw [d5, List.map_append, List.append_assoc]
              rfl

/-- The allocator's view depends on the keys, the memory, the live blocks and the
record of allocations only. -/
theorem owned_congr (T : Target) (s s1 : State) (hown : Owned T s) (hk : s1.key = s.key)
    (hm : s1.mem = s.mem) (hh : s1.heap = s.heap) (hl : s1.log = s.log) : Owned T s1 := by
  obtain ⟨o1, o2, o3, o4, o5, o6, o7⟩ := hown
  constructor
  · rw [hk, hh]; exact o1
  · rw [hk, hh, hm]; exact o2
  · rw [hk]; exact o3
  · rw [hk, hm]; exact o4
  · rw [hk, hm]; exact o5
  · rw [hk, hm, hl]; exact o6
  · rw [hk, hl]; exact o7

/-- A round of the exit hook keeps the allocator's view. -/
theorem owned_exit (T : Target) (s s1 : State) (t : Nat) (hfit : Fits T s)
    (hown : Owned T s) (h : thread_exit_round T s t = .ok s1) : Owned T s1 := by
  rcases thread_exit_round_ok T s s1 t h with
    ⟨-, rfl⟩ | ⟨arr, hk, -, rfl⟩ | ⟨arr, hk, -, e1, e2, e3, rel, e4, e5⟩
  · exact hown
  · -- the countdown is decremented: same address, same entries
    have hkeys : ∀ t1 arr1, Function.update s.key t
        (some { arr with skip_destructor_rounds := arr.skip_destructor_rounds - 1 }) t1 =
          some arr1 →
        ∃ arr0, s.key t1 = some arr0 ∧ arr0.base = arr1.base ∧ arr0.data = arr1.data := by
      intro t1 arr1 h1
      by_cases ht : t1 = t
      · subst ht
        rw [Function.update_same, Option.some.injEq] at h1
        subst h1
        exact ⟨arr, hk, rfl, rfl⟩
      · rw [Function.update_noteq ht] at h1
        exact ⟨arr1, h1, rfl, rfl⟩
    constructor
    · intro t1 arr1 h1
      obtain ⟨a1, k1, b1, -⟩ := hkeys t1 arr1 h1
      rw [← b1]
      exact hown.base_live t1 a1 k1
    · intro t1 arr1 q h1 hq hq0
      obtain ⟨a1, k1, -, d1⟩ := hkeys t1 arr1 h1
      rw [← d1] at hq
      exact hown.cell t1 a1 q k1 hq hq0
    · intro t1 t2 arr1 arr2 h1 h2 hne
      obtain ⟨a1, k1, b1, -⟩ := hkeys t1 arr1 h1
      obtain ⟨a2, k2, b2, -⟩ := hkeys t2 arr2 h2
      rw [← b1, ← b2]
      exact hown.base_ne t1 t2 a1 a2 k1 k2 hne
    · intro t1 t2 arr1 arr2 q h1 h2 hq hq0
      obtain ⟨a1, k1, b1, -⟩ := hkeys t1 arr1 h1
      obtain ⟨a2, k2, -, d2⟩ := hkeys t2 arr2 h2
      rw [← b1]
      rw [← d2] at hq
      exact hown.base_block t1 t2 a1 a2 q k1 k2 hq hq0
    · intro t1 t2 arr1 arr2 q1 q2 h1 h2 hne hq1 hq2 hq10 hq20
      obtain ⟨a1, k1, -, d1⟩ := hkeys t1 arr1 h1
      obtain ⟨a2, k2, -, d2⟩ := hkeys t2 arr2 h2
      rw [← d1] at hq1
      rw [← d2] at hq2
      exact hown.block_ne t1 t2 a1 a2 q1 q2 k1 k2 hne hq1 hq2 hq10 hq20
    · intro t1 arr1 h1
      obtain ⟨a1, k1, -, d1⟩ := hkeys t1 arr1 h1
      dsimp only
      rw [← d1]
      exact hown.blocks t1 a1 k1
    · intro t1 h1 hr
      have hne : t1 ≠ t := by
        intro hc; subst hc; dsimp only at h1; rw [Function.update_same] at h1; cases h1
      dsimp only at h1 hr ⊢
      rw [Function.update_noteq hne] at h1
      exact hown.no_blocks t1 h1 hr
  · -- the store is released
    obtain ⟨hl, -⟩ := hfit.2 t arr hk
    have htake : arr.data.take arr.size = arr.data := by rw [← hl, List.take_length]
    rw [htake] at e3
    have hkeys : ∀ t1 arr1, s1.key t1 = some arr1 → t1 ≠ t ∧ s.key t1 = some arr1 := by
      intro t1 arr1 h1
      rw [e1] at h1
      by_cases ht : t1 = t
      · subst ht; rw [Function.update_same] at h1; cases h1
      · rw [Function.update_noteq ht] at h1
        exact ⟨ht, h1⟩
    -- a block of another thread is not released
    have hkeep : ∀ t1 arr1 q, t1 ≠ t → s.key t1 = some arr1 → q ∈ arr1.data → q ≠ 0 →
        back_ptr T s.mem q ∉ block_ptrs T s.mem arr.data := by
      intro t1 arr1 q hne k1 hq hq0 hm
      obtain ⟨-, p, hp, hp0, hpq⟩ := (mem_block_ptrs T s.mem arr.data _).mp hm
      exact hown.block_ne t t1 arr arr1 p q hk k1 (Ne.symm hne) hp hq hp0 hq0 hpq
    have hrel : ∀ t1, (∀ q, Event.release t1 q ∉ s1.log) → ∀ q, Event.release t1 q ∉ s.log := by
      intro t1 hr q hq
      apply hr q
      rw [e4]
      exact List.mem_append_left _ hq
    constructor
    · intro t1 arr1 h1
      obtain ⟨hne, k1⟩ := hkeys t1 arr1 h1
      obtain ⟨c1, b, hb, c2⟩ := hown.base_live t1 arr1 k1
      refine ⟨c1, b, e3 b hb ?_ ?_, c2⟩
      · intro hm
        obtain ⟨-, p, hp, hp0, hpq⟩ := (mem_block_ptrs T s.mem arr.data _).mp hm
        rw [c2] at hpq
        exact hown.base_block t1 t arr1 arr p k1 hk hp hp0 hpq.symm
      · rw [c2]
        exact hown.base_ne t1 t arr1 arr k1 hk hne
    · intro t1 arr1 q h1 hq hq0
      obtain ⟨hne, k1⟩ := hkeys t1 arr1 h1
      obtain ⟨c1, c2, b, hb, c3, c4⟩ := hown.cell t1 arr1 q k1 hq hq0
      rw [e2]
      refine ⟨c1, c2, b, e3 b hb ?_ ?_, c3, c4⟩
      · rw [c3]
        exact hkeep t1 arr1 q hne k1 hq hq0
      · rw [c3]
        exact (hown.base_block t t1 arr arr1 q hk k1 hq hq0).symm
    · intro t1 t2 arr1 arr2 h1 h2 hne
      exact hown.base_ne t1 t2 arr1 arr2 (hkeys t1 arr1 h1).2 (hkeys t2 arr2 h2).2 hne
    · intro t1 t2 arr1 arr2 q h1 h2 hq hq0
      rw [e2]
      exact hown.base_block t1 t2 arr1 arr2 q (hkeys t1 arr1 h1).2 (hkeys t2 arr2 h2).2 hq hq0
    · intro t1 t2 arr1 arr2 q1 q2 h1 h2 hne hq1 hq2 hq10 hq20
      rw [e2]
      exact hown.block_ne t1 t2 arr1 arr2 q1 q2 (hkeys t1 arr1 h1).2 (hkeys t2 arr2 h2).2 hne
        hq1 hq2 hq10 hq20
    · intro t1 arr1 h1
      obtain ⟨hne, k1⟩ := hkeys t1 arr1 h1
      obtain ⟨n1, n2⟩ := hown.blocks t1 arr1 k1
      refine ⟨by rw [e2]; exact n1, fun hr => ?_⟩
      rw [e2, e4, allocs_of_append_releases]
      exact n2 (hrel t1 hr)
    · intro t1 h1 hr
      have hr0 := hrel t1 hr
      rw [e4] at hr ⊢
      rw [allocs_of_append_releases]
      by_cases ht : t1 = t
      · subst ht
        exfalso
        apply hr arr.base
        apply List.mem_append_right
        exact List.mem_map_of_mem _ (e5 (hown.base_live t1 arr hk).1)
      · rw [e1, Function.update_noteq ht] at h1
        exact hown.no_blocks t1 h1 hr0

/-- Every threaded operation keeps the allocator's view. -/
theorem owned_step (T : Target) (s s1 : State) (op : Op) (hfit : Fits T s)
    (hown : Owned T s) (hr : KeyReady s) (hop : op.threaded)
    (hstep : step T s op = .ok s1) : Owned T s1 := by
  cases op with
  | get active t d arrAns rawAns =>
    have hact : active = true := hop
    subst hact
    simp only [step] at hstep
    cases hg : __emutls_get_address T true s t d arrAns rawAns with
    | error e => rw [hg] at hstep; cases hstep
    | ok r =>
      obtain ⟨s2, p⟩ := r
      rw [hg] at hstep
      dsimp only at hstep
      rw [Except.ok.injEq] at hstep
      subst hstep
      obtain ⟨fk, fm, fh, fl⟩ := resolve_offset_frame T s d
      obtain ⟨hf1, -, -⟩ := resolve_offset_fits T s d hfit
      have ho1 : Owned T (resolve_offset T s d).1 := owned_congr T s _ hown fk fm fh fl
      obtain ⟨s3, arr, he, hidx, hcase⟩ := get_address_ok T s s2 t d arrAns rawAns p hg
      have hkx := resolve_offset_exists T s t d hr
      have ho3 : Owned T s3 := owned_ensure T _ s3 t _ arrAns arr ho1 hf1 hkx he
      obtain ⟨-, -, -, -, e5, -⟩ := ensure_array_frame T _ s3 t _ arrAns arr he
      have e5 := e5 hkx
      rcases hcase with ⟨-, -, rfl⟩ | ⟨hz, s4, hal, rfl⟩
      · exact ho3
      · rw [alloc_write_array T s3 s4 t _ rawAns p arr _ hal e5]
        exact owned_alloc T s3 s4 t _ rawAns p _ arr ho3 e5 hidx hz hal
  | register d size align templ =>
    simp only [step] at hstep
    rw [Except.ok.injEq] at hstep
    subst hstep
    exact owned_congr T s _ hown rfl rfl rfl rfl
  | exit t =>
    simp only [step] at hstep
    exact owned_exit T s s1 t hfit hown hstep

/-- Every threaded run keeps the allocator's view. -/
theorem owned_run (T : Target) (ops : List Op) :
    ∀ (s s1 : State), Fits T s → Owned T s → KeyReady s → (∀ op ∈ ops, op.threaded) →
      run T s ops = .ok s1 → Fits T s1 ∧ Owned T s1 := by
  induction ops with
  | nil =>
    intro s s1 hfit hown _ _ hrun
    rw [run, Except.ok.injEq] at hrun
    subst hrun
    exact ⟨hfit, hown⟩
  | cons op ops ih =>
    intro s s1 hfit hown hr hops hrun
    rw [run] at hrun
    cases hs : step T s op with
    | error e => rw [hs] at hrun; cases hrun
    | ok s2 =>
      rw [hs] at hrun
      exact ih s2 s1 (fits_step T s s2 op hfit hs)
        (owned_step T s s2 op hfit hown hr (hops op (List.mem_cons_self _ _)) hs)
        (ready_step T s s2 op hr (hops op (List.mem_cons_self _ _)) hs)
        (fun o ho => hops o (List.mem_cons_of_mem _ ho)) hrun

/-- The pass over the entries succeeds when the raw blocks are live and pairwise
distinct. -/
theorem destroy_blocks_succeeds (T : Target) (t : Nat) (data : List Nat) :
    ∀ s : State, (block_ptrs T s.mem data).Nodup →
      (∀ q ∈ block_ptrs T s.mem data, ∃ b ∈ s.heap, b.1 = q) →
      ∃ s1, destroy_blocks T t s data = .ok s1 := by
  induction data with
  | nil => intro s _ _; exact ⟨s, rfl⟩
  | cons p rest ih =>
    intro s hnd hlive
    rw [destroy_blocks]
    by_cases hp : p ≠ 0
    · rw [if_pos hp]
      by_cases hq : back_ptr T s.mem p = 0
      · have hb : block_ptrs T s.mem (p :: rest) = block_ptrs T s.mem rest := by
          simp [block_ptrs, hp, hq]
        rw [hb] at hnd hlive
        have hf : free s t (back_ptr T s.mem p) = .ok s := by
          unfold free; rw [if_pos hq]
        rw [hf]
        exact ih s hnd hlive
      · have hb : block_ptrs T s.mem (p :: rest) =
            back_ptr T s.mem p :: block_ptrs T s.mem rest := by
          simp [block_ptrs, hp, hq]
        rw [hb] at hnd hlive
        obtain ⟨hnot, hnd1⟩ := List.nodup_cons.mp hnd
        have hl := hlive _ (List.mem_cons_self _ _)
        have hf : free s t (back_ptr T s.mem p) = .ok { s with
            heap := s.heap.filter (fun b => b.1 ≠ back_ptr T s.mem p),
            log := s.log ++ [Event.release t (back_ptr T s.mem p)] } := by
          unfold free; rw [if_neg hq, if_pos hl]
        rw [hf]
        dsimp only
        apply ih
        · exact hnd1
        · intro q hq1
          obtain ⟨b, hb1, hb2⟩ := hlive q (List.mem_cons_of_mem _ hq1)
          refine ⟨b, ?_, hb2⟩
          dsimp only
          rw [List.mem_filter]
          refine ⟨hb1, ?_⟩
          have : b.1 ≠ back_ptr T s.mem p := by
            rw [hb2]; intro hc; rw [hc] at hq1; exact hnot hq1
          simpa using this
    · rw [if_neg hp]
      have hp0 : p = 0 := by simpa using hp
      have hb : block_ptrs T s.mem (p :: rest) = block_ptrs T s.mem rest := by
        simp [block_ptrs, hp0]
      rw [hb] at hnd hlive
      exact ih s hnd hlive

/-- The freeing branch of `emutls_destroy` on a store of an owned state: it returns,
having released the raw blocks of the entries and then the array. -/
theorem destroy_releases (T : Target) (s : State) (t : Nat) (arr : __emutls_array)
    (hfit : Fits T s) (hown : Owned T s) (hkey : s.key t = some arr) :
    ∃ s1, emutls_destroy T { s with key := Function.update s.key t none } t
        { arr with skip_destructor_rounds := 0 } = .ok s1 ∧
      s1.key t = none ∧
      s1.log = s.log ++ (block_ptrs T s.mem arr.data).map (Event.release t) ++
        [Event.release t arr.base] ∧
      ∀ b ∈ s1.heap, b.1 ∉ block_ptrs T s.mem arr.data ∧ b.1 ≠ arr.base := by
  obtain ⟨hl, -⟩ := hfit.2 t arr hkey
  obtain ⟨hnd, -⟩ := hown.blocks t arr hkey
  obtain ⟨hb0, b0, hb0m, hb0e⟩ := hown.base_live t arr hkey
  have hlive : ∀ q ∈ block_ptrs T s.mem arr.data, ∃ b ∈ s.heap, b.1 = q := by
    intro q hq
    obtain ⟨-, p, hp, hp0, hpq⟩ := (mem_block_ptrs T s.mem arr.data q).mp hq
    obtain ⟨-, -, b, hb, c3, -⟩ := hown.cell t arr p hkey hp hp0
    exact ⟨b, hb, by rw [c3, hpq]⟩
  have hnot : arr.base ∉ block_ptrs T s.mem arr.data := by
    intro hm
    obtain ⟨-, p, hp, hp0, hpq⟩ := (mem_block_ptrs T s.mem arr.data arr.base).mp hm
    exact hown.base_block t t arr arr p hkey hkey hp hp0 hpq.symm
  obtain ⟨s2, hd⟩ := destroy_blocks_succeeds T t arr.data
    { s with key := Function.update s.key t none } hnd hlive
  obtain ⟨-, -, d3, -, d5, d6⟩ := destroy_blocks_ok T t arr.data _ s2 hd
  dsimp only at d3 d5 d6
  have hlive2 : ∃ b ∈ s2.heap, b.1 = arr.base := by
    refine ⟨b0, ?_, hb0e⟩
    rw [d6, List.mem_filter]
    refine ⟨hb0m, ?_⟩
    rw [hb0e]
    simpa using hnot
  have htake : arr.data.take arr.size = arr.data := by rw [← hl, List.take_length]
  refine ⟨{ s2 with heap := s2.heap.filter (fun b => b.1 ≠ arr.base),
                    log := s2.log ++ [Event.release t arr.base] }, ?_, ?_, ?_, ?_⟩
  · unfold emutls_destroy
    dsimp only
    rw [if_neg (by omega), if_neg (by omega), htake, hd]
    dsimp only
    unfold free
    rw [if_neg hb0, if_pos hlive2]
  · dsimp only
    rw [d3]
    exact Function.update_same _ _ _
  · dsimp only
    rw [d5]
  · intro b hb
    dsimp only at hb
    rw [List.mem_filter, d6, List.mem_filter] at hb
    exact ⟨by simpa using hb.1.2, by simpa using hb.2⟩

/-- C9: after any threaded run (accesses by any threads, registrations, exit rounds)
from a state without arrays and without recorded allocations, in which the key
exists if a descriptor has a slot (the state at the start of the process is one),
for a thread `t` that has a store and has released nothing so far: the next `N + 1`
exit rounds of `t` (`N` the countdown of the store) return, and they release exactly
the raw allocations `emutls_alloc` made for `t`, each once, and then the array, once;
none of them is live afterwards. -/
theorem release_exactly_once (T : Target) (s0 s : State) (ops : List Op) (t : Nat)
    (arr : __emutls_array)
    (hkeys : ∀ t1, s0.key t1 = none) (hlocs : ∀ d, (s0.objs d).loc < T.modulus)
    (hready : KeyReady s0)
    (hlog : s0.log = []) (hops : ∀ op ∈ ops, op.threaded)
    (hrun : run T s0 ops = .ok s) (hkey : s.key t = some arr)
    (hrel : ∀ p, Event.release t p ∉ s.log) :
    ∃ (s1 : State) (blocks : List Nat),
      exit_rounds T t (arr.skip_destructor_rounds + 1) s = .ok s1 ∧
      s1.key t = none ∧
      s1.log = s.log ++ blocks.map (Event.release t) ++ [Event.release t arr.base] ∧
      blocks.Perm (allocs_of t s.log) ∧ blocks.Nodup ∧ arr.base ∉ blocks ∧
      ∀ b ∈ s1.heap, b.1 ∉ blocks ∧ b.1 ≠ arr.base := by
  have hfit0 : Fits T s0 := ⟨hlocs, fun t1 a hk => by rw [hkeys t1] at hk; cases hk⟩
  have hown0 : Owned T s0 := by
    constructor
    · intro t1 a hk; rw [hkeys t1] at hk; cases hk
    · intro t1 a p hk; rw [hkeys t1] at hk; cases hk
    · intro t1 t2 a1 a2 hk; rw [hkeys t1] at hk; cases hk
    · intro t1 t2 a1 a2 p hk; rw [hkeys t1] at hk; cases hk
    · intro t1 t2 a1 a2 p1 p2 hk; rw [hkeys t1] at hk; cases hk
    · intro t1 a hk; rw [hkeys t1] at hk; cases hk
    · intro t1 _ _; rw [hlog]; rfl
  obtain ⟨hfit, hown⟩ := owned_run T ops s0 s hfit0 hown0 hready hops hrun
  obtain ⟨s1, h1, h2, h3, h4⟩ := destroy_releases T s t arr hfit hown hkey
  obtain ⟨hnd, hperm⟩ := hown.blocks t arr hkey
  have hnot : arr.base ∉ block_ptrs T s.mem arr.data := by
    intro hm
    obtain ⟨-, p, hp, hp0, hpq⟩ := (mem_block_ptrs T s.mem arr.data arr.base).mp hm
    exact hown.base_block t t arr arr p hkey hkey hp hp0 hpq.symm
  refine ⟨s1, block_ptrs T s.mem arr.data, ?_, h2, h3, hperm hrel, hnd, hnot, h4⟩
  rw [exit_rounds_succ_last, exit_rounds_skip T t _ s arr hkey (le_refl _)]
  dsimp only
  unfold thread_exit_round
  dsimp only
  rw [Function.update_same]
  dsimp only
  rw [Function.update_idem, Nat.sub_self]
  exact h1

/-- Witness of C9: after the run `lifeOps` thread 0 owns the array at 4096, with the
countdown at zero, and made the raw allocations 8192, 16384 and 20480. -/
theorem release_exactly_once_witness :
    ((∀ op ∈ lifeOps, op.threaded) ∧
      run T64b emptyState lifeOps = .ok (final_state (run T64b emptyState lifeOps)) ∧
      (final_state (run T64b emptyState lifeOps)).key 0 =
        some ⟨4096, 0, 33, 8200 :: 16392 :: 20488 :: List.replicate 30 0⟩ ∧
      (final_state (run T64b emptyState lifeOps)).log =
        [.alloc 0 8192, .alloc 1 16384, .alloc 1 20480, .release 1 16384, .release 1 20480,
         .release 1 12288, .alloc 0 16384, .alloc 0 20480] ∧
      allocs_of 0 (final_state (run T64b emptyState lifeOps)).log = [8192, 16384, 20480]) ∧
    ∃ (s1 : State) (blocks : List Nat),
      exit_rounds T64b 0 1 (final_state (run T64b emptyState lifeOps)) = .ok s1 ∧
      s1.key 0 = none ∧
      s1.log = (final_state (run T64b emptyState lifeOps)).log ++
        blocks.map (Event.release 0) ++ [Event.release 0 4096] ∧
      blocks.Perm (allocs_of 0 (final_state (run T64b emptyState lifeOps)).log) ∧
      blocks.Nodup ∧ 4096 ∉ blocks ∧ ∀ b ∈ s1.heap, b.1 ∉ blocks ∧ b.1 ≠ 4096 := by
  have hlog : (final_state (run T64b emptyState lifeOps)).log =
      [.alloc 0 8192, .alloc 1 16384, .alloc 1 20480, .release 1 16384, .release 1 20480,
       .release 1 12288, .alloc 0 16384, .alloc 0 20480] := by decide
  have hrel : ∀ p, Event.release 0 p ∉ (final_state (run T64b emptyState lifeOps)).log := by
    intro p hp
    rw [hlog] at hp
    simp at hp
  exact ⟨⟨by decide, rfl, by decide, hlog, by decide⟩,
    release_exactly_once T64b emptyState (final_state (run T64b emptyState lifeOps)) lifeOps 0
      ⟨4096, 0, 33, 8200 :: 16392 :: 20488 :: List.replicate 30 0⟩ (fun _ => rfl)
      (fun _ => Nat.two_pow_pos _) (fun _ h => absurd rfl h) rfl (by decide) rfl
      (by decide) hrel⟩

/-! ## Slots -/

/-- The list of first occurrences has no duplicates and the expected members. -/
theorem first_seen_spec (ds : List Nat) :
    ∀ seen : List Nat, seen.Nodup →
      (first_seen seen ds).Nodup ∧ seen.length ≤ (first_seen seen ds).length ∧
      ∀ x, x ∈ first_seen seen ds ↔ x ∈ seen ∨ x ∈ ds := by
  induction ds with
  | nil => intro seen h; simp [first_seen, h]
  | cons d ds ih =>
    intro seen h
    rw [first_seen]
    by_cases hd : d ∈ seen
    · rw [if_pos hd]
      obtain ⟨h1, h2, h3⟩ := ih seen h
      refine ⟨h1, h2, fun x => ?_⟩
      rw [h3, List.mem_cons]
      constructor
      · rintro (hx | hx)
        · exact Or.inl hx
        · exact Or.inr (Or.inr hx)
      · rintro (hx | rfl | hx)
        · exact Or.inl hx
        · exact Or.inl hd
        · exact Or.inr hx
    · rw [if_neg hd]
      have hnd : (seen ++ [d]).Nodup := by
        rw [List.nodup_append]
        refine ⟨h, List.nodup_singleton d, ?_⟩
        intro a ha hb
        rw [List.mem_singleton] at hb
        subst hb
        exact hd ha
      obtain ⟨h1, h2, h3⟩ := ih (seen ++ [d]) hnd
      refine ⟨h1, ?_, fun x => ?_⟩
      · rw [List.length_append] at h2; omega
      · rw [h3, List.mem_append, List.mem_singleton, List.mem_cons]
        tauto

/-- The number of descriptors seen is the number of distinct descriptors accessed. -/
theorem first_seen_length (ds : List Nat) : (first_seen [] ds).length = ds.dedup.length := by
  obtain ⟨h1, -, h3⟩ := first_seen_spec ds [] List.nodup_nil
  apply List.Perm.length_eq
  rw [List.perm_ext_iff_of_nodup h1 (List.nodup_dedup ds)]
  intro x
  rw [h3 x, List.mem_dedup]
  simp

/-- Slot resolution keeps the slots in the order of first access. -/
theorem slots_resolve (T : Target) (s : State) (d : Nat) (seen : List Nat)
    (hinv : SlotsAre s seen) (hK : (first_seen seen [d]).length < T.modulus) :
    SlotsAre (resolve_offset T s d).1 (first_seen seen [d]) := by
  obtain ⟨h1, h2⟩ := hinv
  unfold resolve_offset
  dsimp only
  rw [first_seen, first_seen] at hK ⊢
  by_cases hd : d ∈ seen
  · have hne : (s.objs d).loc ≠ 0 := by rw [h2 d, if_pos hd]; omega
    rw [if_neg hne, if_pos hd]
    exact ⟨h1, h2⟩
  · have h0 : (s.objs d).loc = 0 := by rw [h2 d, if_neg hd]
    rw [if_pos h0, if_neg hd]
    rw [if_neg hd, List.length_append, List.length_singleton] at hK
    have hm : (s.emutls_size + 1) % T.modulus = seen.length + 1 := by
      rw [h1]; exact Nat.mod_eq_of_lt hK
    refine ⟨?_, fun x => ?_⟩
    · dsimp only
      rw [hm, List.length_append, List.length_singleton]
    · dsimp only
      by_cases hx : x = d
      · subst hx
        rw [Function.update_same]
        dsimp only
        rw [hm, if_pos (by simp), List.indexOf_append_of_not_mem hd]
        simp
      · rw [Function.update_noteq hx, h2 x]
        by_cases hxs : x ∈ seen
        · rw [if_pos hxs, if_pos (by simp [hxs]), List.indexOf_append_of_mem hxs]
        · rw [if_neg hxs, if_neg (by simp [hxs, hx])]

/-- One threaded operation keeps the slots in the order of first access. -/
theorem slots_step (T : Target) (s s1 : State) (op : Op) (seen : List Nat)
    (hinv : SlotsAre s seen) (hth : op.threaded) (hstep : step T s op = .ok s1)
    (hK : (first_seen seen (accessed [op])).length < T.modulus) :
    SlotsAre s1 (first_seen seen (accessed [op])) := by
  cases op with
  | get active t d arrAns rawAns =>
    have hact : active = true := hth
    subst hact
    simp only [step] at hstep
    cases hg : __emutls_get_address T true s t d arrAns rawAns with
    | error e => rw [hg] at hstep; cases hstep
    | ok r =>
      obtain ⟨s2, p⟩ := r
      rw [hg] at hstep
      dsimp only at hstep
      rw [Except.ok.injEq] at hstep
      subst hstep
      obtain ⟨e1, e2, -⟩ := get_address_frame T s s2 t d arrAns rawAns p hg
      have hr := slots_resolve T s d seen hinv hK
      exact ⟨by rw [e2]; exact hr.1, fun x => by rw [e1]; exact hr.2 x⟩
  | register d size align templ =>
    simp only [step] at hstep
    rw [Except.ok.injEq] at hstep
    subst hstep
    refine ⟨hinv.1, fun x => ?_⟩
    dsimp only [accessed, first_seen]
    by_cases hx : x = d
    · subst hx
      rw [Function.update_same, register_common_eq]
      exact hinv.2 x
    · rw [Function.update_noteq hx]
      exact hinv.2 x
  | exit t =>
    simp only [step] at hstep
    obtain ⟨e1, e2, -⟩ := thread_exit_round_frame T s s1 t hstep
    exact ⟨by rw [e2]; exact hinv.1, fun x => by rw [e1]; exact hinv.2 x⟩

/-- The descriptors seen, one operation at a time. -/
theorem accessed_cons (seen : List Nat) (op : Op) (ops : List Op) :
    first_seen seen (accessed (op :: ops)) =
      first_seen (first_seen seen (accessed [op])) (accessed ops) := by
  cases op <;> rfl

/-- A threaded run keeps the slots in the order of first access. -/
theorem slots_run (T : Target) (ops : List Op) :
    ∀ (s s1 : State) (seen : List Nat), seen.Nodup → SlotsAre s seen →
      (∀ op ∈ ops, op.threaded) → run T s ops = .ok s1 →
      (first_seen seen (accessed ops)).length < T.modulus →
      SlotsAre s1 (first_seen seen (accessed ops)) := by
  induction ops with
  | nil =>
    intro s s1 seen _ hinv _ hrun _
    rw [run, Except.ok.injEq] at hrun
    subst hrun
    exact hinv
  | cons op ops ih =>
    intro s s1 seen hnd hinv hth hrun hK
    rw [run] at hrun
    cases hs : step T s op with
    | error e => rw [hs] at hrun; cases hrun
    | ok s2 =>
      rw [hs] at hrun
      dsimp only at hrun
      rw [accessed_cons] at hK ⊢
      obtain ⟨n1, -, -⟩ := first_seen_spec (accessed [op]) seen hnd
      obtain ⟨-, l2, -⟩ := first_seen_spec (accessed ops) _ n1
      have h2 := slots_step T s s2 op seen hinv (hth op (List.mem_cons_self _ _)) hs
        (by omega)
      exact ih s2 s1 _ n1 h2 (fun o ho => hth o (List.mem_cons_of_mem _ ho)) hrun hK

/-- C2: starting with the counter at zero and every slot field zero, after any run of
threaded `__emutls_get_address` calls (registrations and exit rounds may occur between
them) with `K` distinct descriptors accessed, `K < 2 ^ w`: the counter is `K`, the
descriptors with a slot are the accessed ones, their slots are pairwise distinct, and
the slots are exactly the numbers `1 .. K`. -/
theorem dense_unique_slots (T : Target) (s0 s : State) (ops : List Op)
    (hsize : s0.emutls_size = 0) (hloc : ∀ d, (s0.objs d).loc = 0)
    (hops : ∀ op ∈ ops, op.threaded) (hrun : run T s0 ops = .ok s)
    (hK : (accessed ops).dedup.length < T.modulus) :
    s.emutls_size = (accessed ops).dedup.length ∧
    (∀ d, (s.objs d).loc ≠ 0 ↔ d ∈ accessed ops) ∧
    (∀ d1 d2, (s.objs d1).loc ≠ 0 → (s.objs d1).loc = (s.objs d2).loc → d1 = d2) ∧
    (∀ v, (∃ d, (s.objs d).loc = v ∧ v ≠ 0) ↔ 1 ≤ v ∧ v ≤ (accessed ops).dedup.length) := by
  have hlen := first_seen_length (accessed ops)
  obtain ⟨hnd, -, hmem⟩ := first_seen_spec (accessed ops) [] List.nodup_nil
  have h0 : SlotsAre s0 [] := ⟨by rw [hsize]; rfl, fun d => by rw [hloc d]; simp⟩
  obtain ⟨h1, h2⟩ := slots_run T ops s0 s [] List.nodup_nil h0 hops hrun (by rw [hlen]; exact hK)
  have hmem1 : ∀ d, d ∈ first_seen [] (accessed ops) ↔ d ∈ accessed ops := by
    intro d; rw [hmem d]; simp
  have hiff : ∀ d, (s.objs d).loc ≠ 0 ↔ d ∈ first_seen [] (accessed ops) := by
    intro d
    rw [h2 d]
    by_cases hd : d ∈ first_seen [] (accessed ops)
    · simp [hd]
    · simp [hd]
  refine ⟨by rw [h1, hlen], fun d => by rw [hiff d, hmem1 d], ?_, ?_⟩
  · intro d1 d2 hne heq
    have m1 := (hiff d1).mp hne
    have m2 := (hiff d2).mp (by rw [← heq]; exact hne)
    rw [h2 d1, h2 d2, if_pos m1, if_pos m2] at heq
    exact (List.indexOf_inj m1 m2).mp (by omega)
  · intro v
    rw [← hlen]
    constructor
    · rintro ⟨d, hd, hv⟩
      have m := (hiff d).mp (by rw [hd]; exact hv)
      rw [h2 d, if_pos m] at hd
      have := List.indexOf_lt_length.mpr m
      omega
    · rintro ⟨hv1, hv2⟩
      have hlt : v - 1 < (first_seen [] (accessed ops)).length := by omega
      refine ⟨(first_seen [] (accessed ops))[v - 1], ?_, by omega⟩
      rw [h2, if_pos (List.getElem_mem _), List.indexOf_getElem hnd (v - 1) hlt]
      omega

/-- Witness of C2: the run `demoOps` from the empty state accesses two descriptors. -/
theorem dense_unique_slots_witness :
    (emptyState.emutls_size = 0 ∧ (∀ d, (emptyState.objs d).loc = 0) ∧
      (∀ op ∈ demoOps, op.threaded) ∧ (accessed demoOps).dedup.length < T64.modulus) ∧
    ∃ s, run T64 emptyState demoOps = .ok s ∧ s.emutls_size = 2 ∧
      (s.objs 0).loc = 1 ∧ (s.objs 1).loc = 2 ∧
      ∀ v, (∃ d, (s.objs d).loc = v ∧ v ≠ 0) ↔ 1 ≤ v ∧ v ≤ 2 := by
  have hth : ∀ op ∈ demoOps, op.threaded := by decide
  have hs : ∃ s, run T64 emptyState demoOps = .ok s := ⟨_, rfl⟩
  obtain ⟨s, hrun⟩ := hs
  have h := dense_unique_slots T64 emptyState s demoOps rfl (fun _ => rfl) hth hrun (by decide)
  have e0 : (run T64 emptyState demoOps).toOption.map (fun s => (s.objs 0).loc) = some 1 := by
    decide
  have e1 : (run T64 emptyState demoOps).toOption.map (fun s => (s.objs 1).loc) = some 2 := by
    decide
  rw [hrun] at e0 e1
  exact ⟨⟨rfl, fun _ => rfl, hth, by decide⟩, s, hrun, h.1, Option.some.inj e0,
    Option.some.inj e1, h.2.2.2⟩

/-! ## The block inside its allocation -/

/-- Rounding up to a multiple: `a * ((x + a - 1) / a)` is the lowest multiple of `a`
that is at least `x`. -/
theorem round_up_lowest (a x : Nat) (ha : 0 < a) :
    x ≤ a * ((x + a - 1) / a) ∧ a * ((x + a - 1) / a) ≤ x + a - 1 ∧
    ∀ m, x ≤ m → m % a = 0 → a * ((x + a - 1) / a) ≤ m := by
  have h1 := Nat.div_add_mod (x + a - 1) a
  have h2 := Nat.mod_lt (x + a - 1) ha
  refine ⟨by omega, by omega, ?_⟩
  intro m hm hd
  obtain ⟨j, rfl⟩ := Nat.dvd_of_mod_eq_zero hd
  apply Nat.mul_le_mul_left
  have h3 : (x + a - 1) / a ≤ (a * j + (a - 1)) / a := Nat.div_le_div_right (by omega)
  have h4 : (a - 1) / a = 0 := Nat.div_eq_of_lt (by omega)
  rw [Nat.mul_add_div ha, h4] at h3
  exact h3

/-- The byte count requested, when it does not overflow. -/
theorem emutls_alloc_request_eq (T : Target) (obj : __emutls_object)
    (hn : request_sum T obj < T.modulus) :
    emutls_alloc_request T obj = request_sum T obj := by
  unfold emutls_alloc_request request_sum at *
  split_ifs at hn ⊢ <;> exact Nat.mod_eq_of_lt hn

/-- Where the block lies in its allocation, for a power-of-two alignment and without
overflow: the word before the block and the block are inside the allocation. -/
theorem emutls_alloc_ret_bounds (T : Target) (obj : __emutls_object) (raw k : Nat)
    (ha : obj.align = 2 ^ k) (hn : request_sum T obj < T.modulus)
    (haddr : raw + request_sum T obj < T.modulus) :
    raw + T.ptrBytes ≤ emutls_alloc_ret T obj raw ∧
    emutls_alloc_ret T obj raw + obj.size ≤ raw + emutls_alloc_request T obj ∧
    emutls_alloc_backptr T obj raw = emutls_alloc_ret T obj raw - T.ptrBytes := by
  have hpos : 0 < obj.align := by rw [ha]; exact Nat.two_pow_pos k
  have hpw := ptrBytes_pos T
  rw [emutls_alloc_request_eq T obj hn]
  unfold emutls_alloc_backptr
  unfold request_sum at *
  by_cases hb : obj.align ≤ T.ptrBytes
  · rw [if_pos hb] at hn haddr ⊢
    have hr : emutls_alloc_ret T obj raw = raw + T.ptrBytes := by
      unfold emutls_alloc_ret
      rw [if_pos hb]
      exact Nat.mod_eq_of_lt (by omega)
    rw [if_pos hb, hr]
    omega
  · rw [if_neg hb] at hn haddr ⊢
    have hov : raw + T.ptrBytes + obj.align - 1 < T.modulus := by omega
    have hr := emutls_alloc_ret_eq T obj raw k ha hov
    rw [if_neg hb] at hr
    rw [if_neg hb]
    obtain ⟨r1, r2, -⟩ := round_up_lowest obj.align (raw + T.ptrBytes) hpos
    rw [← hr] at r1 r2
    refine ⟨r1, by omega, ?_⟩
    have he : emutls_alloc_ret T obj raw + T.modulus - T.ptrBytes =
        emutls_alloc_ret T obj raw - T.ptrBytes + T.modulus := by omega
    rw [he, Nat.add_mod_right, Nat.mod_eq_of_lt (by omega)]

/-- With a power-of-two alignment, a byte count that does not overflow and a fresh
block as the answer of `malloc`, `emutls_alloc` returns. -/
theorem emutls_alloc_succeeds (T : Target) (s : State) (t : Nat) (obj : __emutls_object)
    (raw k : Nat) (ha : obj.align = 2 ^ k) (hn : request_sum T obj < T.modulus)
    (hf : FreshBlock T s.heap raw (emutls_alloc_request T obj)) :
    ∃ s1, emutls_alloc T s t obj raw = .ok (s1, emutls_alloc_ret T obj raw) := by
  have haddr : raw + request_sum T obj < T.modulus := by
    rw [← emutls_alloc_request_eq T obj hn]; exact hf.2.2.1
  obtain ⟨b1, b2, b3⟩ := emutls_alloc_ret_bounds T obj raw k ha hn haddr
  have hpw := ptrBytes_pos T
  have hm : malloc T s.heap (emutls_alloc_request T obj) raw =
      (raw, (raw, emutls_alloc_request T obj) :: s.heap) := by
    unfold malloc; rw [if_pos hf]
  have c1 : raw ≤ emutls_alloc_backptr T obj raw ∧
      emutls_alloc_backptr T obj raw + T.ptrBytes ≤ raw + emutls_alloc_request T obj := by
    rw [b3]; omega
  have c2 : raw ≤ emutls_alloc_ret T obj raw ∧
      emutls_alloc_ret T obj raw + obj.size ≤ raw + emutls_alloc_request T obj := by
    omega
  unfold emutls_alloc
  dsimp only
  rw [hm]
  dsimp only
  rw [if_neg hf.1, if_neg (not_not.mpr c1), if_neg (not_not.mpr c2)]
  exact ⟨_, rfl⟩

/-- C17: without address overflow, the address `emutls_alloc` returns for the raw
address `raw` is `raw + sizeof (void *)` when the alignment is at most the pointer
width, and for a power-of-two alignment above the pointer width it is the lowest
multiple of the alignment that is at least `raw + sizeof (void *)`. -/
theorem emutls_alloc_lowest (T : Target) (obj : __emutls_object) (raw : Nat) :
    (obj.align ≤ T.ptrBytes → raw + T.ptrBytes < T.modulus →
      emutls_alloc_ret T obj raw = raw + T.ptrBytes) ∧
    (∀ k, obj.align = 2 ^ k → T.ptrBytes < obj.align →
      raw + T.ptrBytes + obj.align - 1 < T.modulus →
      raw + T.ptrBytes ≤ emutls_alloc_ret T obj raw ∧
      emutls_alloc_ret T obj raw % obj.align = 0 ∧
      ∀ m, raw + T.ptrBytes ≤ m → m % obj.align = 0 → emutls_alloc_ret T obj raw ≤ m) ∧
    ∀ (s s1 : State) (t ret : Nat),
      emutls_alloc T s t obj raw = .ok (s1, ret) → ret = emutls_alloc_ret T obj raw := by
  refine ⟨fun hb hov => ?_, fun k ha hb hov => ?_,
    fun s s1 t ret h => (emutls_alloc_ok T s s1 t obj raw ret h).2.1⟩
  · unfold emutls_alloc_ret
    rw [if_pos hb]
    exact Nat.mod_eq_of_lt hov
  · have hpos : 0 < obj.align := by rw [ha]; exact Nat.two_pow_pos k
    have hr := emutls_alloc_ret_eq T obj raw k ha hov
    rw [if_neg (by omega)] at hr
    obtain ⟨r1, -, r3⟩ := round_up_lowest obj.align (raw + T.ptrBytes) hpos
    rw [← hr] at r1 r3
    refine ⟨r1, ?_, r3⟩
    rw [hr]
    exact Nat.mul_mod_right _ _

/-- Witness of C17: alignment 64 on the raw address 4104 gives 4160, the lowest
multiple of 64 from 4112 on. -/
theorem emutls_alloc_lowest_witness :
    (64 = 2 ^ 6 ∧ T64.ptrBytes < 64 ∧ 4104 + T64.ptrBytes + 64 - 1 < T64.modulus) ∧
    emutls_alloc_ret T64 ⟨24, 64, 0, 0⟩ 4104 = 4160 ∧
    ∀ m, 4104 + T64.ptrBytes ≤ m → m % 64 = 0 → emutls_alloc_ret T64 ⟨24, 64, 0, 0⟩ 4104 ≤ m :=
  ⟨by decide, by decide,
    ((emutls_alloc_lowest T64 ⟨24, 64, 0, 0⟩ 4104).2.1 6 (by decide) (by decide)
      (by decide)).2.2⟩

/-- C18: for a power-of-two alignment, with neither the requested byte count `n` nor
`raw + n` overflowing, the address `ret` returned by `emutls_alloc` satisfies
`raw ≤ ret - sizeof (void *)` and `ret + size ≤ raw + n`: the word before the block
(where the raw pointer is stored) and the block lie inside the allocation; and
`emutls_alloc` returns `ret` whenever `malloc` answers with a fresh block. -/
theorem emutls_alloc_block_fits (T : Target) (obj : __emutls_object) (raw k : Nat)
    (ha : obj.align = 2 ^ k) (hn : request_sum T obj < T.modulus)
    (haddr : raw + request_sum T obj < T.modulus) :
    emutls_alloc_request T obj = request_sum T obj ∧
    T.ptrBytes ≤ emutls_alloc_ret T obj raw ∧
    raw ≤ emutls_alloc_ret T obj raw - T.ptrBytes ∧
    emutls_alloc_ret T obj raw + obj.size ≤ raw + emutls_alloc_request T obj ∧
    emutls_alloc_backptr T obj raw = emutls_alloc_ret T obj raw - T.ptrBytes ∧
    ∀ (s : State) (t : Nat), FreshBlock T s.heap raw (emutls_alloc_request T obj) →
      ∃ s1, emutls_alloc T s t obj raw = .ok (s1, emutls_alloc_ret T obj raw) := by
  obtain ⟨b1, b2, b3⟩ := emutls_alloc_ret_bounds T obj raw k ha hn haddr
  exact ⟨emutls_alloc_request_eq T obj hn, by omega, by omega, b2, b3,
    fun s t hf => emutls_alloc_succeeds T s t obj raw k ha hn hf⟩

/-- Witness of C18: size 24, alignment 64, raw address 4104: 95 bytes are requested
and the block is `[4160, 4184)` inside `[4104, 4199)`. -/
theorem emutls_alloc_block_fits_witness :
    (64 = 2 ^ 6 ∧ request_sum T64 ⟨24, 64, 0, 0⟩ < T64.modulus ∧
      4104 + request_sum T64 ⟨24, 64, 0, 0⟩ < T64.modulus) ∧
    emutls_alloc_request T64 ⟨24, 64, 0, 0⟩ = 95 ∧
    emutls_alloc_ret T64 ⟨24, 64, 0, 0⟩ 4104 = 4160 ∧
    4104 ≤ emutls_alloc_ret T64 ⟨24, 64, 0, 0⟩ 4104 - T64.ptrBytes ∧
    emutls_alloc_ret T64 ⟨24, 64, 0, 0⟩ 4104 + 24 ≤
      4104 + emutls_alloc_request T64 ⟨24, 64, 0, 0⟩ :=
  ⟨by decide, by decide, by decide,
    (emutls_alloc_block_fits T64 ⟨24, 64, 0, 0⟩ 4104 6 (by decide) (by decide)
      (by decide)).2.2.1,
    (emutls_alloc_block_fits T64 ⟨24, 64, 0, 0⟩ 4104 6 (by decide) (by decide)
      (by decide)).2.2.2.1⟩

/-! ## The back pointer -/

/-- Releasing the raw block just obtained gives back the heap from before. -/
theorem free_fresh (T : Target) (s1 : State) (heap : List (Nat × Nat)) (t raw n : Nat)
    (hf : FreshBlock T heap raw n) (hh : s1.heap = (raw, n) :: heap) :
    free s1 t raw = .ok { s1 with heap := heap, log := s1.log ++ [Event.release t raw] } := by
  have hfil : s1.heap.filter (fun b => b.1 ≠ raw) = heap := by
    rw [hh, List.filter_cons_of_neg (by simp)]
    exact List.filter_eq_self.mpr
      (fun b hb => decide_eq_true (fresh_ne_live T heap raw n hf b hb))
  unfold free
  rw [if_neg hf.1, if_pos ⟨(raw, n), by rw [hh]; exact List.mem_cons_self _ _, rfl⟩, hfil]

/-- C12: when `emutls_alloc` returns `ret` for the raw allocation `raw`, whatever the
size and alignment of the descriptor, the raw pointer was stored in the pointer-width
word immediately before `ret`, the bytes of that word are those stored (the template
copy or zero fill of `[ret, ret + size)` does not touch them), the word reads back as
`raw`, and the loop of `emutls_destroy` on the entry `ret` frees exactly `raw`: the
heap is the one from before the allocation and one release of `raw` is recorded. -/
theorem back_pointer_round_trip (T : Target) (s s1 : State) (t : Nat)
    (obj : __emutls_object) (raw ret : Nat)
    (h : emutls_alloc T s t obj raw = .ok (s1, ret)) :
    emutls_alloc_backptr T obj raw + T.ptrBytes = ret ∧
    (∀ x, emutls_alloc_backptr T obj raw ≤ x → x < ret →
      s1.mem x = storePtr T s.mem (emutls_alloc_backptr T obj raw) raw x) ∧
    back_ptr T s1.mem ret = raw ∧
    s1.heap = (raw, emutls_alloc_request T obj) :: s.heap ∧
    ∀ t1, destroy_blocks T t1 s1 [ret] =
      .ok { s1 with heap := s.heap, log := s1.log ++ [Event.release t1 raw] } := by
  obtain ⟨hf, ⟨r1, r2, r3⟩, hbp, -, hheap, -, -, -⟩ := emutls_alloc_facts T s s1 t obj raw ret h
  obtain ⟨-, hret, hb, hr, hs1⟩ := emutls_alloc_ok T s s1 t obj raw ret h
  obtain ⟨hpw, hbe⟩ := emutls_alloc_backptr_eq T obj raw hf.2.2.1 hb
  rw [← hret] at hpw hbe
  have hpos := ptrBytes_pos T
  refine ⟨by omega, fun x hx1 hx2 => ?_, hbp, hheap, fun t1 => ?_⟩
  · rw [hs1]
    dsimp only
    by_cases ht : obj.templ ≠ 0
    · rw [if_pos ht]
      unfold memcpy
      exact if_neg (by omega)
    · rw [if_neg ht]
      unfold memset
      exact if_neg (by omega)
  · have hne : ret ≠ 0 := by omega
    rw [destroy_blocks, if_pos hne, hbp, free_fresh T s1 s.heap t1 raw _ hf hheap]
    rfl

/-- Witness of C12: an over-aligned and a pointer-aligned descriptor on the raw
address 4104. -/
theorem back_pointer_round_trip_witness :
    (∃ s1, emutls_alloc T64 emptyState 0 ⟨24, 64, 0, 0⟩ 4104 = .ok (s1, 4160) ∧
      back_ptr T64 s1.mem 4160 = 4104) ∧
    ∃ s1, emutls_alloc T64 emptyState 0 ⟨24, 8, 0, 0⟩ 4104 = .ok (s1, 4112) ∧
      back_ptr T64 s1.mem 4112 = 4104 :=
  ⟨⟨_, rfl, (back_pointer_round_trip T64 emptyState _ 0 ⟨24, 64, 0, 0⟩ 4104 4160 rfl).2.2.1⟩,
    ⟨_, rfl, (back_pointer_round_trip T64 emptyState _ 0 ⟨24, 8, 0, 0⟩ 4104 4112 rfl).2.2.1⟩⟩

/-! ## Initial contents of a block -/

/-- The contents of the block `emutls_alloc` returns: the bytes of the template as
they are after the store of the raw pointer (as they were before the call when the
template lies apart from the new allocation), or zeros. -/
theorem emutls_alloc_contents (T : Target) (s s1 : State) (t : Nat)
    (obj : __emutls_object) (raw ret : Nat)
    (h : emutls_alloc T s t obj raw = .ok (s1, ret)) :
    (obj.templ ≠ 0 → ∀ i, i < obj.size → s1.mem (ret + i) =
      storePtr T s.mem (emutls_alloc_backptr T obj raw) raw (obj.templ + i)) ∧
    (obj.templ ≠ 0 →
      obj.templ + obj.size ≤ raw ∨ raw + emutls_alloc_request T obj ≤ obj.templ →
      ∀ i, i < obj.size → s1.mem (ret + i) = s.mem (obj.templ + i)) ∧
    (obj.templ = 0 → ∀ i, i < obj.size → s1.mem (ret + i) = 0) := by
  obtain ⟨-, -, hb, -, hs1⟩ := emutls_alloc_ok T s s1 t obj raw ret h
  have hcopy : obj.templ ≠ 0 → ∀ i, i < obj.size → s1.mem (ret + i) =
      storePtr T s.mem (emutls_alloc_backptr T obj raw) raw (obj.templ + i) := by
    intro ht i hi
    rw [hs1]
    dsimp only
    rw [if_pos ht]
    unfold memcpy
    rw [if_pos (by omega), Nat.add_sub_cancel_left]
  refine ⟨hcopy, fun ht hd i hi => ?_, fun ht i hi => ?_⟩
  · rw [hcopy ht i hi]
    unfold storePtr storeLE
    exact if_neg (by omega)
  · rw [hs1]
    dsimp only
    rw [if_neg (not_not.mpr ht)]
    unfold memset
    exact if_pos (by omega)

/-- An entry that is `NULL` or beyond the array is `NULL` in the grown array. -/
theorem getD_grown (l : List Nat) (n m i : Nat) (h : l.getD i 0 = 0) :
    (l.take n ++ List.replicate m 0).getD i 0 = 0 := by
  rw [List.getD_eq_getElem?_getD] at h ⊢
  by_cases hi : i < (l.take n).length
  · rw [List.getElem?_append_left hi]
    rw [List.length_take] at hi
    rw [List.getElem?_take_of_lt (by omega)]
    exact h
  · rw [List.getElem?_append_right (by omega)]
    by_cases hj : i - (l.take n).length < m
    · rw [List.getElem?_replicate, if_pos hj]; rfl
    · rw [List.getElem?_replicate, if_neg hj]; rfl

/-- Slot resolution leaves size, alignment and template of every descriptor. -/
theorem resolve_offset_obj (T : Target) (s : State) (d d1 : Nat) :
    ((resolve_offset T s d1).1.objs d).size = (s.objs d).size ∧
    ((resolve_offset T s d1).1.objs d).align = (s.objs d).align ∧
    ((resolve_offset T s d1).1.objs d).templ = (s.objs d).templ := by
  unfold resolve_offset
  dsimp only
  by_cases h0 : (s.objs d1).loc = 0
  · rw [if_pos h0]
    dsimp only
    by_cases hd : d = d1
    · subst hd; rw [Function.update_same]; exact ⟨rfl, rfl, rfl⟩
    · rw [Function.update_noteq hd]; exact ⟨rfl, rfl, rfl⟩
  · rw [if_neg h0]; exact ⟨rfl, rfl, rfl⟩

/-- A threaded call by a thread that holds no block for the descriptor allocates one,
for the descriptor as it is registered, in the memory as it is. -/
theorem get_address_first (T : Target) (s s1 : State) (t d arrAns rawAns p : Nat)
    (h : __emutls_get_address T true s t d arrAns rawAns = .ok (s1, p))
    (hfirst : NoEntry T s t d) :
    ∃ s2 s3 obj, emutls_alloc T s2 t obj rawAns = .ok (s3, p) ∧ s2.mem = s.mem ∧
      s1.mem = s3.mem ∧ obj.size = (s.objs d).size ∧ obj.align = (s.objs d).align ∧
      obj.templ = (s.objs d).templ := by
  obtain ⟨s2, arr, he, -, hcase⟩ := get_address_ok T s s1 t d arrAns rawAns p h
  obtain ⟨e1, -, e3, -, -, -⟩ := ensure_array_frame T _ s2 t _ arrAns arr he
  obtain ⟨fk, fm, -, -⟩ := resolve_offset_frame T s d
  have hz : arr.data.getD (((resolve_offset T s d).2 + T.modulus - 1) % T.modulus) 0 = 0 := by
    rcases ensure_array_ok T _ s2 t _ arrAns arr he with
      ⟨-, -, -, rfl, -⟩ | ⟨arr0, h0, -, -, -, -, rfl, -⟩ | ⟨h0, -, -⟩
    · dsimp only
      rw [List.getD_eq_getElem?_getD, List.getElem?_replicate]
      split_ifs <;> rfl
    · rw [fk] at h0
      exact getD_grown _ _ _ _ (hfirst arr0 h0)
    · rw [fk] at h0
      exact hfirst arr h0
  rcases hcase with ⟨hne, -, -⟩ | ⟨-, s3, ha, rfl⟩
  · exact absurd hz hne
  · obtain ⟨o1, o2, o3⟩ := resolve_offset_obj T s d d
    refine ⟨s2, s3, s2.objs d, ha, by rw [e3, fm], (write_array_frame s3 t _).2.2.1,
      ?_, ?_, ?_⟩ <;> rw [e1] <;> assumption

/-- The byte count requested depends on size and alignment only. -/
theorem emutls_alloc_request_congr (T : Target) (o1 o2 : __emutls_object)
    (hs : o1.size = o2.size) (ha : o1.align = o2.align) :
    emutls_alloc_request T o1 = emutls_alloc_request T o2 := by
  unfold emutls_alloc_request
  rw [hs, ha]

/-- C13: the `size` bytes at the address `emutls_alloc` returns are the first `size`
bytes of the template of the descriptor when it has one (the template lying apart
from the new allocation), and zeros when it has none; and a threaded call of
`__emutls_get_address` by a thread that holds no block for the descriptor returns a
block with these contents, for size and template as registered when the call is
made. -/
theorem initial_contents (T : Target) (s : State) (t : Nat) :
    (∀ (obj : __emutls_object) (raw ret : Nat) (s1 : State),
      emutls_alloc T s t obj raw = .ok (s1, ret) →
      (obj.templ ≠ 0 →
        obj.templ + obj.size ≤ raw ∨ raw + emutls_alloc_request T obj ≤ obj.templ →
        ∀ i, i < obj.size → s1.mem (ret + i) = s.mem (obj.templ + i)) ∧
      (obj.templ = 0 → ∀ i, i < obj.size → s1.mem (ret + i) = 0)) ∧
    ∀ (d arrAns rawAns p : Nat) (s1 : State),
      __emutls_get_address T true s t d arrAns rawAns = .ok (s1, p) → NoEntry T s t d →
      ((s.objs d).templ ≠ 0 →
        (s.objs d).templ + (s.objs d).size ≤ rawAns ∨
          rawAns + emutls_alloc_request T (s.objs d) ≤ (s.objs d).templ →
        ∀ i, i < (s.objs d).size → s1.mem (p + i) = s.mem ((s.objs d).templ + i)) ∧
      ((s.objs d).templ = 0 → ∀ i, i < (s.objs d).size → s1.mem (p + i) = 0) := by
  refine ⟨fun obj raw ret s1 h => (emutls_alloc_contents T s s1 t obj raw ret h).2,
    fun d arrAns rawAns p s1 h hfirst => ?_⟩
  obtain ⟨s2, s3, obj, ha, m2, m1, o1, o2, o3⟩ :=
    get_address_first T s s1 t d arrAns rawAns p h hfirst
  obtain ⟨-, c2, c3⟩ := emutls_alloc_contents T s2 s3 t obj rawAns p ha
  rw [emutls_alloc_request_congr T obj (s.objs d) o1 o2, o1, o3, m2, ← m1] at c2
  rw [o1, o3, ← m1] at c3
  exact ⟨c2, c3⟩

/-- Witness of C13: the first access of a variable of four bytes whose template holds
1, 2, 3, 4 yields a block holding 1, 2, 3, 4. -/
theorem initial_contents_witness :
    ∃ s1, __emutls_get_address T64 true templState 0 0 4096 8192 = .ok (s1, 8200) ∧
      NoEntry T64 templState 0 0 ∧
      s1.mem 8200 = 1 ∧ s1.mem 8201 = 2 ∧ s1.mem 8202 = 3 ∧ s1.mem 8203 = 4 := by
  have hn : NoEntry T64 templState 0 0 := fun arr h => by cases h
  have hs : ∃ s1, __emutls_get_address T64 true templState 0 0 4096 8192 = .ok (s1, 8200) :=
    ⟨_, rfl⟩
  obtain ⟨s1, h1⟩ := hs
  have h := ((initial_contents T64 templState 0).2 0 4096 8192 8200 s1 h1 hn).1
    (by decide) (by decide)
  exact ⟨s1, h1, hn, (h 0 (by decide)).trans (by decide), (h 1 (by decide)).trans (by decide),
    (h 2 (by decide)).trans (by decide), (h 3 (by decide)).trans (by decide)⟩

/-! ## A sequence of registrations -/

/-- The maximum after one more call. -/
theorem max_size_append (l : List (Nat × Nat × Nat)) (c : Nat × Nat × Nat) :
    max_size (l ++ [c]) = max (max_size l) c.1 := by
  simp [max_size, List.foldl_append]

/-- Every supplied size is at most the maximum. -/
theorem le_max_size (l : List (Nat × Nat × Nat)) :
    ∀ c ∈ l, c.1 ≤ max_size l := by
  induction l using List.reverseRecOn with
  | nil => intro c hc; cases hc
  | append_singleton l a ih =>
    intro c hc
    rw [max_size_append]
    rcases List.mem_append.mp hc with h | h
    · exact le_trans (ih c h) (le_max_left _ _)
    · rw [List.mem_singleton] at h
      rw [h]
      exact le_max_right _ _

/-- The last full template after one more call. -/
theorem last_full_template_append (l : List (Nat × Nat × Nat)) (c : Nat × Nat × Nat) :
    last_full_template (l ++ [c]) =
      if c.2.2 ≠ 0 ∧ max_size l ≤ c.1 then c.2.2
      else if max_size l < c.1 then 0 else last_full_template l := by
  unfold last_full_template
  rw [max_size_append, List.filter_append]
  by_cases hlt : max_size l < c.1
  · have hmax : max (max_size l) c.1 = c.1 := max_eq_right (le_of_lt hlt)
    have hnil : l.filter (fun x => decide (x.2.2 ≠ 0 ∧ x.1 = max (max_size l) c.1)) = [] := by
      rw [List.filter_eq_nil_iff]
      intro x hx
      have := le_max_size l x hx
      simp only [decide_eq_true_eq, not_and]
      intro _
      omega
    rw [hnil, List.nil_append, hmax]
    by_cases ht : c.2.2 ≠ 0
    · rw [List.filter_cons_of_pos (by simpa using ht), if_pos ⟨ht, le_of_lt hlt⟩]
      rfl
    · rw [List.filter_cons_of_neg (by simpa using ht), if_neg (fun h => ht h.1), if_pos hlt]
      rfl
  · have hmax : max (max_size l) c.1 = max_size l := max_eq_left (by omega)
    rw [hmax, if_neg hlt]
    by_cases hp : c.2.2 ≠ 0 ∧ c.1 = max_size l
    · rw [List.filter_cons_of_pos (by simpa using hp), if_pos ⟨hp.1, by omega⟩]
      simp
    · rw [List.filter_cons_of_neg (by simpa using hp), if_neg (fun h => hp ⟨h.1, by omega⟩)]
      simp

/-- C16: for a descriptor that starts with size 0 and no template, after any finite
sequence of calls of `__emutls_register_common` the size is the maximum of the
supplied sizes and the template is the one of the last call that passed a template
that is not `NULL` with a size equal to that maximum, `NULL` if there is no such
call; so a template that is there at the end was supplied with the final size. -/
theorem register_all_template (align0 loc0 : Nat) (calls : List (Nat × Nat × Nat)) :
    (register_all ⟨0, align0, loc0, 0⟩ calls).size = max_size calls ∧
    (register_all ⟨0, align0, loc0, 0⟩ calls).templ = last_full_template calls ∧
    ((register_all ⟨0, align0, loc0, 0⟩ calls).templ ≠ 0 →
      ∃ c ∈ calls, c.2.2 = (register_all ⟨0, align0, loc0, 0⟩ calls).templ ∧
        c.1 = max_size calls) := by
  have key : (register_all ⟨0, align0, loc0, 0⟩ calls).size = max_size calls ∧
      (register_all ⟨0, align0, loc0, 0⟩ calls).templ = last_full_template calls := by
    induction calls using List.reverseRecOn with
    | nil => exact ⟨rfl, rfl⟩
    | append_singleton l c ih =>
      have hstep : register_all ⟨0, align0, loc0, 0⟩ (l ++ [c]) =
          __emutls_register_common (register_all ⟨0, align0, loc0, 0⟩ l) c.1 c.2.1 c.2.2 := by
        unfold register_all
        rw [List.foldl_append]
        rfl
      rw [hstep, register_common_eq, max_size_append, last_full_template_append]
      dsimp only
      rw [ih.1, ih.2]
      exact ⟨rfl, rfl⟩
  refine ⟨key.1, key.2, fun hne => ?_⟩
  rw [key.2] at hne ⊢
  unfold last_full_template at hne ⊢
  cases hl : (calls.filter (fun c => decide (c.2.2 ≠ 0 ∧ c.1 = max_size calls))).getLast? with
  | none => rw [hl] at hne; exact absurd rfl hne
  | some c =>
    have hm := List.mem_of_mem_getLast? hl
    rw [List.mem_filter] at hm
    exact ⟨c, hm.1, rfl, (of_decide_eq_true hm.2).2⟩

/-- Witness of C16: of the templates 7 (size 4), 9 (size 8) and 5 (size 2), with a
call of size 8 without template in between, the final template is 9 and the final
size 8. -/
theorem register_all_template_witness :
    (register_all ⟨0, 0, 0, 0⟩ [(4, 4, 7), (8, 8, 0), (8, 4, 9), (2, 2, 5)]).size = 8 ∧
    (register_all ⟨0, 0, 0, 0⟩ [(4, 4, 7), (8, 8, 0), (8, 4, 9), (2, 2, 5)]).templ = 9 ∧
    ∃ c ∈ [(4, 4, 7), (8, 8, 0), (8, 4, 9), (2, 2, 5)],
      c.2.2 = (register_all ⟨0, 0, 0, 0⟩ [(4, 4, 7), (8, 8, 0), (8, 4, 9), (2, 2, 5)]).templ ∧
      c.1 = max_size [(4, 4, 7), (8, 8, 0), (8, 4, 9), (2, 2, 5)] :=
  ⟨by decide, by decide,
    (register_all_template 0 0 [(4, 4, 7), (8, 8, 0), (8, 4, 9), (2, 2, 5)]).2.2 (by decide)⟩

/-! ## Slot resolution and the shared field -/

/-- A successful threaded call uses the slot that slot resolution gave: the call
works on the array `ensure_array` returns and its result is the entry at the index
of the slot, the one found there or the block allocated for it.  When the key
exists, the thread holds the array afterwards, with the result at that index; when
it does not, every key is as before. -/
theorem get_address_uses (T : Target) (s s1 : State) (t d arrAns rawAns p : Nat)
    (h : __emutls_get_address T true s t d arrAns rawAns = .ok (s1, p)) :
    (∃ s2 arr, ensure_array T (resolve_offset T s d).1 t (resolve_offset T s d).2 arrAns
        = .ok (s2, arr) ∧
      ((resolve_offset T s d).2 + T.modulus - 1) % T.modulus < arr.data.length ∧
      (arr.data.getD (((resolve_offset T s d).2 + T.modulus - 1) % T.modulus) 0 ≠ 0 →
        p = arr.data.getD (((resolve_offset T s d).2 + T.modulus - 1) % T.modulus) 0) ∧
      (arr.data.getD (((resolve_offset T s d).2 + T.modulus - 1) % T.modulus) 0 = 0 →
        ∃ s3, emutls_alloc T s2 t (s2.objs d) rawAns = .ok (s3, p))) ∧
    (key_exists (resolve_offset T s d).1 t = true →
      ∃ arr, s1.key t = some arr ∧
        ((resolve_offset T s d).2 + T.modulus - 1) % T.modulus < arr.data.length ∧
        arr.data.getD (((resolve_offset T s d).2 + T.modulus - 1) % T.modulus) 0 = p) ∧
    (key_exists (resolve_offset T s d).1 t = false → s1.key = s.key) := by
  obtain ⟨s2, arr, he, hidx, hcase⟩ := get_address_ok T s s1 t d arrAns rawAns p h
  obtain ⟨-, -, -, -, e5, -⟩ := ensure_array_frame T _ s2 t _ arrAns arr he
  obtain ⟨-, f2⟩ := ensure_array_flag T _ s2 t _ arrAns arr he
  obtain ⟨fk, -, -, -⟩ := resolve_offset_frame T s d
  refine ⟨⟨s2, arr, he, hidx, fun hne => ?_, fun hz => ?_⟩, fun hkx => ?_, fun hkx => ?_⟩
  · rcases hcase with ⟨-, hp, -⟩ | ⟨hz, -⟩
    · exact hp
    · exact absurd hz hne
  · rcases hcase with ⟨hne, -⟩ | ⟨-, s3, ha, -⟩
    · exact absurd hz hne
    · exact ⟨s3, ha⟩
  · have e5 := e5 hkx
    rcases hcase with ⟨-, hp, rfl⟩ | ⟨-, s3, ha, rfl⟩
    · exact ⟨arr, e5, hidx, hp.symm⟩
    · rw [alloc_write_array T s2 s3 t _ rawAns p arr _ ha e5]
      refine ⟨_, Function.update_same _ _ _, ?_, ?_⟩
      · dsimp only
        rw [List.length_set]
        exact hidx
      · dsimp only
        rw [List.getD_eq_getElem?_getD, List.getElem?_set_self hidx]
        rfl
  · obtain ⟨k1, k2⟩ := f2 hkx
    rcases hcase with ⟨-, -, rfl⟩ | ⟨-, s3, ha, rfl⟩
    · rw [k1, fk]
    · rw [alloc_write_lost T s2 s3 t _ rawAns p _ ha k2]
      obtain ⟨-, -, -, -, rfl⟩ := emutls_alloc_ok T s2 s3 t _ rawAns p ha
      dsimp only
      rw [k1, fk]

/-- C11: slot resolution in a threaded call on descriptor `d`.  A slot that is not
zero is left as it is, with the counter `emutls_size`; for a slot that is zero the
counter goes up by exactly one and the slot becomes the new value of the counter,
which is not zero when the counter does not wrap; the slot of no other descriptor
changes; and a call that returns leaves slots and counter as slot resolution set
them and takes its result from the entry of that slot in the array it works on,
which is the array the thread holds afterwards when the key exists, as it does
after the assignment of a slot. -/
theorem slot_resolution_step (T : Target) (s : State) (d : Nat) :
    ((s.objs d).loc ≠ 0 → resolve_offset T s d = (s, (s.objs d).loc)) ∧
    ((s.objs d).loc = 0 → s.emutls_size + 1 < T.modulus →
      (resolve_offset T s d).1.emutls_size = s.emutls_size + 1 ∧
      ((resolve_offset T s d).1.objs d).loc = s.emutls_size + 1 ∧
      (resolve_offset T s d).2 = s.emutls_size + 1 ∧ (resolve_offset T s d).2 ≠ 0) ∧
    (∀ d1, d1 ≠ d → (resolve_offset T s d).1.objs d1 = s.objs d1) ∧
    (∀ (s1 : State) (t arrAns rawAns p : Nat),
      __emutls_get_address T true s t d arrAns rawAns = .ok (s1, p) →
      s1.emutls_size = (resolve_offset T s d).1.emutls_size ∧
      s1.objs = (resolve_offset T s d).1.objs ∧
      (∃ s2 arr, ensure_array T (resolve_offset T s d).1 t (resolve_offset T s d).2 arrAns
          = .ok (s2, arr) ∧
        ((resolve_offset T s d).2 + T.modulus - 1) % T.modulus < arr.data.length ∧
        (arr.data.getD (((resolve_offset T s d).2 + T.modulus - 1) % T.modulus) 0 ≠ 0 →
          p = arr.data.getD (((resolve_offset T s d).2 + T.modulus - 1) % T.modulus) 0) ∧
        (arr.data.getD (((resolve_offset T s d).2 + T.modulus - 1) % T.modulus) 0 = 0 →
          ∃ s3, emutls_alloc T s2 t (s2.objs d) rawAns = .ok (s3, p))) ∧
      (key_exists (resolve_offset T s d).1 t = true →
        ∃ arr, s1.key t = some arr ∧
          ((resolve_offset T s d).2 + T.modulus - 1) % T.modulus < arr.data.length ∧
          arr.data.getD (((resolve_offset T s d).2 + T.modulus - 1) % T.modulus) 0 = p)) ∧
    ((s.objs d).loc = 0 → ∀ t, key_exists (resolve_offset T s d).1 t = true) := by
  refine ⟨fun h => ?_, fun h hw => ?_, fun d1 hd => ?_, fun s1 t arrAns rawAns p h => ?_,
    fun h t => ?_⟩
  · unfold resolve_offset
    dsimp only
    rw [if_neg h]
  · unfold resolve_offset
    dsimp only
    rw [if_pos h]
    dsimp only
    rw [Function.update_same, Nat.mod_eq_of_lt hw]
    exact ⟨rfl, rfl, rfl, Nat.succ_ne_zero _⟩
  · unfold resolve_offset
    dsimp only
    by_cases h : (s.objs d).loc = 0
    · rw [if_pos h]
      dsimp only
      rw [Function.update_noteq hd]
    · rw [if_neg h]
  · obtain ⟨g1, g2, -⟩ := get_address_frame T s s1 t d arrAns rawAns p h
    obtain ⟨u1, u2, -⟩ := get_address_uses T s s1 t d arrAns rawAns p h
    exact ⟨g2, g1, u1, u2⟩
  · apply key_exists_of_created
    unfold resolve_offset
    dsimp only
    rw [if_pos h]

/-- Witness of C11: in the empty state descriptor 0 receives slot 1 and the counter
becomes 1. -/
theorem slot_resolution_step_witness :
    ((emptyState.objs 0).loc = 0 ∧ emptyState.emutls_size + 1 < T64.modulus) ∧
    (resolve_offset T64 emptyState 0).1.emutls_size = emptyState.emutls_size + 1 ∧
    ((resolve_offset T64 emptyState 0).1.objs 0).loc = emptyState.emutls_size + 1 ∧
    (resolve_offset T64 emptyState 0).2 = emptyState.emutls_size + 1 ∧
    (resolve_offset T64 emptyState 0).2 ≠ 0 :=
  ⟨by decide, (slot_resolution_step T64 emptyState 0).2.1 (by decide) (by decide)⟩

/-- C20: the field shared by `loc.ptr` and `loc.offset`.  A call in single-threaded
mode that returns `q` leaves `q`, which is not `NULL`, in the field; and whenever the
field is not zero, a call in threaded mode assigns no slot, leaves `emutls_size` and
every descriptor as they are, and works on an array for the slot that is the value
of the field: its result is the entry of that array whose index is the value of the
field less one, the one found there or the block allocated for it.  When the key
exists the thread holds that array afterwards; when no call has created the key,
the array is not stored and every key is as before. -/
theorem mode_mixing (T : Target) (s : State) (d : Nat) :
    (∀ (s0 : State) (t0 a0 r0 q : Nat),
      __emutls_get_address T false s0 t0 d a0 r0 = .ok (s, q) →
      (s.objs d).loc = q ∧ q ≠ 0 ∧ s.emutls_key_created = s0.emutls_key_created) ∧
    ((s.objs d).loc ≠ 0 →
      resolve_offset T s d = (s, (s.objs d).loc) ∧
      ((s.objs d).loc < T.modulus →
        ((s.objs d).loc + T.modulus - 1) % T.modulus = (s.objs d).loc - 1) ∧
      ∀ (s1 : State) (t arrAns rawAns p : Nat),
        __emutls_get_address T true s t d arrAns rawAns = .ok (s1, p) →
        s1.emutls_size = s.emutls_size ∧ s1.objs = s.objs ∧
        (∃ s2 arr, ensure_array T s t (s.objs d).loc arrAns = .ok (s2, arr) ∧
          ((s.objs d).loc + T.modulus - 1) % T.modulus < arr.data.length ∧
          (arr.data.getD (((s.objs d).loc + T.modulus - 1) % T.modulus) 0 ≠ 0 →
            p = arr.data.getD (((s.objs d).loc + T.modulus - 1) % T.modulus) 0) ∧
          (arr.data.getD (((s.objs d).loc + T.modulus - 1) % T.modulus) 0 = 0 →
            ∃ s3, emutls_alloc T s2 t (s2.objs d) rawAns = .ok (s3, p))) ∧
        (key_exists s t = true →
          ∃ arr, s1.key t = some arr ∧
            ((s.objs d).loc + T.modulus - 1) % T.modulus < arr.data.length ∧
            arr.data.getD (((s.objs d).loc + T.modulus - 1) % T.modulus) 0 = p) ∧
        (key_exists s t = false → s1.key = s.key)) := by
  refine ⟨fun s0 t0 a0 r0 q h => ?_, fun hne => ?_⟩
  · rcases get_address_single_ok T s0 s t0 d a0 r0 q h with ⟨-, s2, ha, rfl⟩ | ⟨h0, rfl, rfl⟩
    · obtain ⟨-, ⟨r1, -, -⟩, -⟩ := emutls_alloc_facts T s0 s2 t0 _ r0 q ha
      obtain ⟨-, -, -, -, hs2⟩ := emutls_alloc_ok T s0 s2 t0 _ r0 q ha
      have hpw := ptrBytes_pos T
      dsimp only
      rw [Function.update_same]
      exact ⟨rfl, by omega, by rw [hs2]⟩
    · exact ⟨rfl, h0, rfl⟩
  · have hr : resolve_offset T s d = (s, (s.objs d).loc) := by
      unfold resolve_offset
      dsimp only
      rw [if_neg hne]
    refine ⟨hr, fun hlt => index_of_slot T _ (by omega) hlt, fun s1 t arrAns rawAns p h => ?_⟩
    obtain ⟨g1, g2, -⟩ := get_address_frame T s s1 t d arrAns rawAns p h
    obtain ⟨u1, u2, u3⟩ := get_address_uses T s s1 t d arrAns rawAns p h
    rw [hr] at g1 g2 u1 u2 u3
    exact ⟨g2, g1, u1, u2, u3⟩

/-- Witness of C20: the single-threaded instance of descriptor 0 is created at 16 and
no key is created.  A threaded call then has slot 16 for it and the counter stays 0;
it allocates an array of capacity 48, finds index 15 empty and returns a new block,
8200; the array is not stored under the key, and the next call returns another
block. -/
theorem mode_mixing_witness :
    __emutls_get_address T64 false emptyState 0 0 0 8 = .ok (singleState, 16) ∧
    ((singleState.objs 0).loc ≠ 0 ∧ key_exists singleState 0 = false) ∧
    __emutls_get_address T64 true singleState 0 0 4096 8192 = .ok (mixedState, 8200) ∧
    mixedState.emutls_size = 0 ∧ mixedState.objs = singleState.objs ∧
    mixedState.key = singleState.key ∧
    (∃ s2 arr, ensure_array T64 singleState 0 (singleState.objs 0).loc 4096 = .ok (s2, arr) ∧
      arr.size = 48 ∧
      ((singleState.objs 0).loc + T64.modulus - 1) % T64.modulus < arr.data.length) ∧
    ∃ s3, __emutls_get_address T64 true mixedState 0 0 12288 16384 = .ok (s3, 16392) := by
  obtain ⟨e1, e2, ⟨s2, arr, e3, e4, -⟩, -, e6⟩ :=
    ((mode_mixing T64 singleState 0).2 (by decide)).2.2 mixedState 0 4096 8192 8200 rfl
  have hc : (ensure_array T64 singleState 0 (singleState.objs 0).loc 4096).toOption.map
      (fun r => r.2.size) = some 48 := by decide
  rw [e3] at hc
  exact ⟨rfl, by decide, rfl, e1, e2, e6 (by decide), ⟨s2, arr, e3, Option.some.inj hc, e4⟩,
    ⟨_, rfl⟩⟩

/-! ## The index of the access -/

/-- The capacity after growth covers the slot when the slack does not overflow, also
when doubling does not reach the slot or wraps. -/
theorem le_grown_size (T : Target) (c off : Nat) (h32 : off + 32 < T.modulus) :
    off ≤ grown_size T c off := by
  unfold grown_size
  dsimp only
  by_cases h : off > c * 2 % T.modulus
  · rw [if_pos h, Nat.mod_eq_of_lt h32]; omega
  · rw [if_neg h]; omega

/-- The byte count of a created or grown array is representable when the hypothesis
on the byte count of the amended claim holds. -/
theorem bytes_of_created (T : Target) (s : State) (t off : Nat)
    (hbytes : (∀ arr, s.key t = some arr → arr.size < off) →
      (new_capacity T s t off + hdr_size) * T.ptrBytes < T.modulus) :
    (s.key t = none → ((off + 32) % T.modulus + hdr_size) * T.ptrBytes < T.modulus) ∧
    (∀ arr0, s.key t = some arr0 → arr0.size < off →
      (grown_size T arr0.size off + hdr_size) * T.ptrBytes < T.modulus) := by
  unfold new_capacity at hbytes
  refine ⟨fun hk => ?_, fun arr0 hk hg => ?_⟩
  · rw [hk] at hbytes
    exact hbytes (fun arr h => by cases h)
  · rw [hk] at hbytes
    dsimp only at hbytes
    rw [if_pos hg] at hbytes
    exact hbytes (fun arr h => by rw [Option.some.injEq] at h; rw [← h]; exact hg)

/-- With the slack and the byte count of a created or grown array representable,
`ensure_array` aborts or returns: no store leaves the block. -/
theorem ensure_array_returns (T : Target) (s : State) (t off answer : Nat)
    (h32 : off + 32 < T.modulus)
    (hbytes : (∀ arr, s.key t = some arr → arr.size < off) →
      (new_capacity T s t off + hdr_size) * T.ptrBytes < T.modulus) :
    ensure_array T s t off answer = .error .abort ∨
    ∃ s2 arr, ensure_array T s t off answer = .ok (s2, arr) := by
  have hpw := ptrBytes_pos T
  obtain ⟨b1, b2⟩ := bytes_of_created T s t off hbytes
  unfold ensure_array
  cases hk : s.key t with
  | none =>
    have hb := b1 hk
    have hle : (off + 32) % T.modulus + hdr_size ≤
        ((off + 32) % T.modulus + hdr_size) * T.ptrBytes := Nat.le_mul_of_pos_right _ hpw
    dsimp only
    rw [Nat.mod_eq_of_lt h32] at hb hle ⊢
    rw [Nat.mod_eq_of_lt (by omega : off + 32 + hdr_size < T.modulus)]
    split_ifs with h0 h1
    · exact Or.inl rfl
    · omega
    · exact Or.inr ⟨_, _, rfl⟩
  | some arr0 =>
    dsimp only
    by_cases hg : off > arr0.size
    · have hb := b2 arr0 hk hg
      rw [if_pos hg]
      have hge := le_grown_size T arr0.size off h32
      split_ifs with h0 h1
      · exact Or.inl rfl
      · omega
      · exact Or.inr ⟨_, _, rfl⟩
    · rw [if_neg hg]
      exact Or.inr ⟨_, _, rfl⟩

/-- With the slack and the byte count of a created or grown array representable,
`ensure_array` returns whenever the allocator answers with a fresh block of that
byte count. -/
theorem ensure_array_succeeds (T : Target) (s : State) (t off answer : Nat)
    (h32 : off + 32 < T.modulus)
    (hbytes : (∀ arr, s.key t = some arr → arr.size < off) →
      (new_capacity T s t off + hdr_size) * T.ptrBytes < T.modulus) :
    (s.key t = none →
      FreshBlock T s.heap answer ((new_capacity T s t off + hdr_size) * T.ptrBytes) →
      ∃ s2 arr, ensure_array T s t off answer = .ok (s2, arr)) ∧
    (∀ arr0, s.key t = some arr0 →
      FreshBlock T (s.heap.filter (fun b => b.1 ≠ arr0.base)) answer
        ((new_capacity T s t off + hdr_size) * T.ptrBytes) →
      ∃ s2 arr, ensure_array T s t off answer = .ok (s2, arr)) := by
  have hpw := ptrBytes_pos T
  obtain ⟨b1, b2⟩ := bytes_of_created T s t off hbytes
  rcases ensure_array_returns T s t off answer h32 hbytes with hab | hok
  · refine ⟨fun hk hf => ?_, fun arr0 hk hf => ?_⟩
    · exfalso
      have hb := b1 hk
      have hle : (off + 32) % T.modulus + hdr_size ≤
          ((off + 32) % T.modulus + hdr_size) * T.ptrBytes := Nat.le_mul_of_pos_right _ hpw
      unfold new_capacity at hf
      unfold ensure_array at hab
      rw [hk] at hf hab
      dsimp only [calloc] at hf hab
      rw [Nat.mod_eq_of_lt h32] at hb hle hf hab
      rw [Nat.mod_eq_of_lt (by omega : off + 32 + hdr_size < T.modulus)] at hab
      have hm : malloc T s.heap ((off + 32 + hdr_size) * T.ptrBytes) answer =
          (answer, (answer, (off + 32 + hdr_size) * T.ptrBytes) :: s.heap) := by
        unfold malloc; rw [if_pos hf]
      rw [hm] at hab
      dsimp only at hab
      rw [if_neg hf.1, if_neg (by omega)] at hab
      cases hab
    · exfalso
      unfold new_capacity at hf
      unfold ensure_array at hab
      rw [hk] at hf hab
      dsimp only at hf hab
      by_cases hg : off > arr0.size
      · have hb := b2 arr0 hk hg
        have hle : grown_size T arr0.size off + hdr_size ≤
            (grown_size T arr0.size off + hdr_size) * T.ptrBytes :=
          Nat.le_mul_of_pos_right _ hpw
        rw [if_pos hg] at hf hab
        have hge := le_grown_size T arr0.size off h32
        have hbb : (grown_size T arr0.size off + hdr_size) % T.modulus * T.ptrBytes
            % T.modulus = (grown_size T arr0.size off + hdr_size) * T.ptrBytes := by
          rw [Nat.mod_eq_of_lt (show grown_size T arr0.size off + hdr_size < T.modulus by omega),
            Nat.mod_eq_of_lt hb]
        have hr : realloc T s.heap arr0.base
            ((grown_size T arr0.size off + hdr_size) % T.modulus * T.ptrBytes % T.modulus)
            answer = (answer, (answer, (grown_size T arr0.size off + hdr_size) * T.ptrBytes)
              :: s.heap.filter (fun b => b.1 ≠ arr0.base)) := by
          rw [hbb]
          unfold realloc
          dsimp only
          rw [if_pos hf]
        rw [hr] at hab
        dsimp only at hab
        rw [if_neg hf.1, if_neg (by omega)] at hab
        cases hab
      · rw [if_neg hg] at hab
        cases hab
  · exact ⟨fun _ _ => hok, fun _ _ _ => hok⟩

/-- Counterexample to C19 as stated: on a 64-bit target thread 0 holds a store of
capacity 33 and accesses a descriptor whose field is `2 ^ 61`.  The slot is at least
one and `2 ^ 61 + 32` is representable, the capacity the code computes is
`2 ^ 61 + 32`, but the byte count `(2 ^ 61 + 34) * 8` wraps to 272: `realloc` is asked
for 272 bytes and can answer with such a block, whose 34 words hold the header and
32 entries, and the `memset` of the new part and the entry `2 ^ 61 - 1` lie outside
of it. -/
theorem slot_index_out_of_bounds :
    Fits T64 hugeState ∧ hugeState.key 0 = some ⟨4096, 0, 33, 8200 :: List.replicate 32 0⟩ ∧
    (resolve_offset T64 hugeState 1).1.key 0 = hugeState.key 0 ∧
    (resolve_offset T64 hugeState 1).2 = 2 ^ 61 ∧
    1 ≤ 2 ^ 61 ∧ 2 ^ 61 + 32 < T64.modulus ∧
    grown_size T64 33 (2 ^ 61) = 2 ^ 61 + 32 ∧
    (grown_size T64 33 (2 ^ 61) + hdr_size) % T64.modulus * T64.ptrBytes % T64.modulus = 272 ∧
    FreshBlock T64 (hugeState.heap.filter (fun b => b.1 ≠ 4096)) 16384 272 ∧
    272 < (hdr_size + (2 ^ 61 - 1)) * T64.ptrBytes ∧
    ensure_array T64 (resolve_offset T64 hugeState 1).1 0 (2 ^ 61) 16384 = .error .undefined ∧
    __emutls_get_address T64 true hugeState 0 1 16384 32768 = .error .undefined := by
  refine ⟨⟨fun d => ?_, fun t arr hk => ?_⟩, rfl, rfl, rfl, by decide, by decide, by decide,
    by decide, by decide, by decide, rfl, rfl⟩
  · show (if d = 0 then 1 else 2 ^ 61) < T64.modulus
    split_ifs <;> decide
  · have hk1 : (if t = 0 then some (⟨4096, 0, 33, 8200 :: List.replicate 32 0⟩ : __emutls_array)
        else none) = some arr := hk
    by_cases ht : t = 0
    · rw [if_pos ht, Option.some.injEq] at hk1
      subst hk1
      exact ⟨by decide, by decide⟩
    · rw [if_neg ht] at hk1
      cases hk1

/-- C19, amended: for a slot `off ≥ 1` with `off + 32` representable and, when the
store is created or grown, with its byte count `(capacity + hdr_size) * sizeof
(void *)` representable, `capacity` the capacity the call leaves the store with:
that capacity is at least `off` whether the store is created, grown (also when
twice the old capacity is below `off`) or kept; the call does not leave the block
of the array (it aborts or returns, and returns when the allocator answers with a
fresh block); and the array it returns has that capacity and exactly that many
entries, so that the index `off - 1` of the access lies within it. -/
theorem slot_index_in_bounds (T : Target) (s : State) (t off answer : Nat)
    (hfit : Fits T s) (h1 : 1 ≤ off) (h32 : off + 32 < T.modulus)
    (hbytes : (∀ arr, s.key t = some arr → arr.size < off) →
      (new_capacity T s t off + hdr_size) * T.ptrBytes < T.modulus) :
    (off + T.modulus - 1) % T.modulus = off - 1 ∧
    off ≤ (off + 32) % T.modulus ∧
    (∀ c, off ≤ grown_size T c off) ∧
    off ≤ new_capacity T s t off ∧
    ensure_array T s t off answer ≠ .error .undefined ∧
    (s.key t = none →
      FreshBlock T s.heap answer ((new_capacity T s t off + hdr_size) * T.ptrBytes) →
      ∃ s2 arr, ensure_array T s t off answer = .ok (s2, arr)) ∧
    (∀ arr0, s.key t = some arr0 →
      FreshBlock T (s.heap.filter (fun b => b.1 ≠ arr0.base)) answer
        ((new_capacity T s t off + hdr_size) * T.ptrBytes) →
      ∃ s2 arr, ensure_array T s t off answer = .ok (s2, arr)) ∧
    ∀ (s2 : State) (arr : __emutls_array),
      ensure_array T s t off answer = .ok (s2, arr) →
      arr.size = new_capacity T s t off ∧ off ≤ arr.size ∧ arr.data.length = arr.size ∧
      (off + T.modulus - 1) % T.modulus < arr.data.length ∧
      (key_exists s t = true → s2.key t = some arr) := by
  have hi := index_of_slot T off (by omega) (by omega)
  have hcap : ∀ (s2 : State) (arr : __emutls_array),
      ensure_array T s t off answer = .ok (s2, arr) →
      arr.size = new_capacity T s t off ∧ off ≤ arr.size := by
    intro s2 arr h
    unfold new_capacity
    rcases ensure_array_ok T s s2 t off answer arr h with
      ⟨hn, -, -, rfl, -⟩ | ⟨arr0, h0, hlt, -, -, -, rfl, -⟩ | ⟨h0, hle, -⟩
    · rw [hn]
      dsimp only
      rw [Nat.mod_eq_of_lt h32]
      exact ⟨rfl, by omega⟩
    · rw [h0]
      dsimp only
      rw [if_pos hlt]
      exact ⟨rfl, le_grown_size T arr0.size off h32⟩
    · rw [h0]
      dsimp only
      rw [if_neg (by omega)]
      exact ⟨rfl, hle⟩
  have hnc : off ≤ new_capacity T s t off := by
    rcases ensure_array_returns T s t off answer h32 hbytes with hab | ⟨s2, arr, hok⟩
    · unfold new_capacity
      cases hk : s.key t with
      | none =>
        dsimp only
        rw [Nat.mod_eq_of_lt h32]; omega
      | some arr0 =>
        dsimp only
        by_cases hg : off > arr0.size
        · rw [if_pos hg]; exact le_grown_size T arr0.size off h32
        · rw [if_neg hg]; omega
    · obtain ⟨c1, c2⟩ := hcap s2 arr hok
      rw [← c1]; exact c2
  obtain ⟨sc1, sc2⟩ := ensure_array_succeeds T s t off answer h32 hbytes
  refine ⟨hi, by rw [Nat.mod_eq_of_lt h32]; omega, fun c => le_grown_size T c off h32, hnc,
    fun hu => ?_, sc1, sc2, fun s2 arr h => ?_⟩
  · rcases ensure_array_returns T s t off answer h32 hbytes with hab | ⟨s2, arr, hok⟩
    · rw [hab] at hu; cases hu
    · rw [hok] at hu; cases hu
  · obtain ⟨hlen, -⟩ := ensure_array_fits T s s2 t off answer arr hfit h
    obtain ⟨-, -, -, -, e5, -⟩ := ensure_array_frame T s s2 t off answer arr h
    obtain ⟨c1, c2⟩ := hcap s2 arr h
    exact ⟨c1, c2, hlen, by omega, e5⟩

/-- The state `growState` is well formed. -/
theorem growState_fits : Fits T64 growState := by
  refine ⟨fun d => ?_, fun t arr hk => ?_⟩
  · show (if d = 0 then 1 else 66) < T64.modulus
    split_ifs <;> decide
  · have hk1 : (if t = 0 then some (⟨4096, 0, 33, 8200 :: List.replicate 32 0⟩ : __emutls_array)
        else none) = some arr := hk
    by_cases ht : t = 0
    · rw [if_pos ht, Option.some.injEq] at hk1
      subst hk1
      exact ⟨by decide, by decide⟩
    · rw [if_neg ht] at hk1
      cases hk1

/-- Witness of C19: the store of capacity 33 of `growState`, accessed at slot 100, is
grown to capacity 132; its 134 words make 1072 bytes. -/
theorem slot_index_in_bounds_witness :
    (Fits T64 growState ∧ 1 ≤ 100 ∧ 100 + 32 < T64.modulus ∧
      (new_capacity T64 growState 0 100 + hdr_size) * T64.ptrBytes < T64.modulus ∧
      (new_capacity T64 growState 0 100 + hdr_size) * T64.ptrBytes = 1072) ∧
    new_capacity T64 growState 0 100 = 132 ∧
    ∃ s2 arr, ensure_array T64 growState 0 100 16384 = .ok (s2, arr) ∧
      arr.size = new_capacity T64 growState 0 100 ∧ 100 ≤ arr.size ∧
      arr.data.length = arr.size ∧
      (100 + T64.modulus - 1) % T64.modulus < arr.data.length ∧
      (key_exists growState 0 = true → s2.key 0 = some arr) :=
  ⟨⟨growState_fits, by decide, by decide, by decide, by decide⟩, by decide, _, _, rfl,
    (slot_index_in_bounds T64 growState 0 100 16384 growState_fits (by decide)
      (by decide) (fun _ => by decide)).2.2.2.2.2.2.2 _ _ rfl⟩

/-! ## A process without threads -/

/-- What a call with threads inactive does: counter and keys stay, the field of the
descriptor holds the pointer returned, which is not `NULL`, other descriptors stay,
and the log grows by one allocation exactly when the field was zero. -/
theorem get_address_single_facts (T : Target) (s s1 : State) (t d arrAns rawAns p : Nat)
    (h : __emutls_get_address T false s t d arrAns rawAns = .ok (s1, p)) :
    s1.emutls_size = s.emutls_size ∧ s1.key = s.key ∧ p ≠ 0 ∧ (s1.objs d).loc = p ∧
    (∀ d1, d1 ≠ d → s1.objs d1 = s.objs d1) ∧
    ((s.objs d).loc = 0 →
      (∃ s2, emutls_alloc T s t (s.objs d) rawAns = .ok (s2, p)) ∧
      s1.log = s.log ++ [Event.alloc t rawAns] ∧
      s1.heap = (rawAns, emutls_alloc_request T (s.objs d)) :: s.heap) ∧
    ((s.objs d).loc ≠ 0 → s1 = s ∧ p = (s.objs d).loc) := by
  rcases get_address_single_ok T s s1 t d arrAns rawAns p h with ⟨h0, s2, ha, rfl⟩ | ⟨h0, rfl, rfl⟩
  · obtain ⟨-, ⟨r1, -, -⟩, -, -, hheap, hlog, hkey, hobjs⟩ :=
      emutls_alloc_facts T s s2 t _ rawAns p ha
    obtain ⟨-, -, -, -, hs2⟩ := emutls_alloc_ok T s s2 t _ rawAns p ha
    have hpw := ptrBytes_pos T
    refine ⟨?_, hkey, by omega, ?_, fun d1 hd => ?_, fun _ => ⟨⟨s2, ha⟩, hlog, hheap⟩,
      fun hne => absurd h0 hne⟩
    · rw [hs2]
    · dsimp only
      rw [Function.update_same]
    · dsimp only
      rw [Function.update_noteq hd, hobjs]
  · exact ⟨rfl, rfl, h0, rfl, fun _ _ => rfl, fun h1 => absurd h1 h0, fun _ => ⟨rfl, rfl⟩⟩

/-- An operation of a process without threads leaves the counter, the keys, and
every field that is not zero. -/
theorem single_step (T : Target) (s s1 : State) (op : Op) (hop : op.single)
    (hstep : step T s op = .ok s1) :
    s1.emutls_size = s.emutls_size ∧ s1.key = s.key ∧
    ∀ d, (s.objs d).loc ≠ 0 → (s1.objs d).loc = (s.objs d).loc := by
  cases op with
  | get active t d arrAns rawAns =>
    have ha : active = false := hop
    subst ha
    simp only [step] at hstep
    cases hg : __emutls_get_address T false s t d arrAns rawAns with
    | error e => rw [hg] at hstep; cases hstep
    | ok r =>
      obtain ⟨s2, p⟩ := r
      rw [hg] at hstep
      dsimp only at hstep
      rw [Except.ok.injEq] at hstep
      subst hstep
      obtain ⟨f1, f2, -, f4, f5, -, f7⟩ := get_address_single_facts T s s2 t d arrAns rawAns p hg
      refine ⟨f1, f2, fun d1 hd1 => ?_⟩
      by_cases hd : d1 = d
      · subst hd
        rw [f4, (f7 hd1).2]
      · rw [f5 d1 hd]
  | register d size align templ =>
    simp only [step] at hstep
    rw [Except.ok.injEq] at hstep
    subst hstep
    refine ⟨rfl, rfl, fun d1 hd1 => ?_⟩
    dsimp only
    by_cases hd : d1 = d
    · subst hd
      rw [Function.update_same, register_common_eq]
    · rw [Function.update_noteq hd]
  | exit t => exact absurd hop (by unfold Op.single; exact not_false)

/-- A run of a process without threads leaves the counter, the keys, and every field
that is not zero. -/
theorem single_run (T : Target) (ops : List Op) :
    ∀ (s s1 : State), (∀ op ∈ ops, op.single) → run T s ops = .ok s1 →
      s1.emutls_size = s.emutls_size ∧ s1.key = s.key ∧
      ∀ d, (s.objs d).loc ≠ 0 → (s1.objs d).loc = (s.objs d).loc := by
  induction ops with
  | nil =>
    intro s s1 _ h
    simp only [run] at h
    rw [Except.ok.injEq] at h
    subst h
    exact ⟨rfl, rfl, fun _ _ => rfl⟩
  | cons op ops ih =>
    intro s s1 hall h
    simp only [run] at h
    cases hs : step T s op with
    | error e => rw [hs] at h; cases h
    | ok s2 =>
      rw [hs] at h
      dsimp only at h
      obtain ⟨a1, a2, a3⟩ := single_step T s s2 op (hall op (List.mem_cons_self _ _)) hs
      obtain ⟨b1, b2, b3⟩ := ih s2 s1 (fun o ho => hall o (List.mem_cons_of_mem _ ho)) h
      refine ⟨by rw [b1, a1], by rw [b2, a2], fun d hd => ?_⟩
      rw [b3 d (by rw [a3 d hd]; exact hd), a3 d hd]

/-- With threads inactive, a call on a descriptor whose field is not zero returns the
field and changes nothing. -/
theorem get_address_single_again (T : Target) (s : State) (t d arrAns rawAns : Nat)
    (h : (s.objs d).loc ≠ 0) :
    __emutls_get_address T false s t d arrAns rawAns = .ok (s, (s.objs d).loc) := by
  unfold __emutls_get_address
  simp only [Bool.false_eq_true, not_false_eq_true, if_true]
  rw [if_neg h]

/-- C14: with threads inactive, a call of `__emutls_get_address` on descriptor `d`
that returns `p` leaves the counter `emutls_size` and every per-thread store as
they are; when it is the first one (the field of `d` is zero) it allocates one block
through `emutls_alloc` and records it in the descriptor; and after any further
operations of the process without threads, counter and stores are still as they
were and every call on `d` returns `p` again and changes nothing. -/
theorem single_threaded_fallback (T : Target) (s s1 : State) (t d arrAns rawAns p : Nat)
    (h : __emutls_get_address T false s t d arrAns rawAns = .ok (s1, p)) :
    s1.emutls_size = s.emutls_size ∧ s1.key = s.key ∧ p ≠ 0 ∧ (s1.objs d).loc = p ∧
    ((s.objs d).loc = 0 →
      (∃ s2, emutls_alloc T s t (s.objs d) rawAns = .ok (s2, p)) ∧
      s1.log = s.log ++ [Event.alloc t rawAns]) ∧
    ∀ (ops : List Op) (s2 : State), (∀ op ∈ ops, op.single) → run T s1 ops = .ok s2 →
      s2.emutls_size = s.emutls_size ∧ s2.key = s.key ∧
      ∀ t1 a r, __emutls_get_address T false s2 t1 d a r = .ok (s2, p) := by
  obtain ⟨f1, f2, f3, f4, -, f6, -⟩ := get_address_single_facts T s s1 t d arrAns rawAns p h
  refine ⟨f1, f2, f3, f4, fun h0 => ⟨(f6 h0).1, (f6 h0).2.1⟩, fun ops s2 hall hrun => ?_⟩
  obtain ⟨b1, b2, b3⟩ := single_run T ops s1 s2 hall hrun
  have hloc : (s2.objs d).loc = p := by rw [b3 d (by rw [f4]; exact f3), f4]
  refine ⟨by rw [b1, f1], by rw [b2, f2], fun t1 a r => ?_⟩
  have hg := get_address_single_again T s2 t1 d a r (by rw [hloc]; exact f3)
  rw [hloc] at hg
  exact hg

/-- Witness of C14: the instance of descriptor 0 is created at 16; after the creation
of the instance of descriptor 1 and a registration, a call on descriptor 0 returns
16 again. -/
theorem single_threaded_fallback_witness :
    __emutls_get_address T64 false emptyState 0 0 0 8 = .ok (singleState, 16) ∧
    ∃ s2, run T64 singleState [.get false 0 1 0 64, .register 0 4 4 0] = .ok s2 ∧
      s2.emutls_size = 0 ∧
      ∀ t1 a r, __emutls_get_address T64 false s2 t1 0 a r = .ok (s2, 16) := by
  have hs : ∃ s2, run T64 singleState [.get false 0 1 0 64, .register 0 4 4 0] = .ok s2 :=
    ⟨_, rfl⟩
  obtain ⟨s2, h2⟩ := hs
  obtain ⟨e1, -, e3⟩ := (single_threaded_fallback T64 emptyState singleState 0 0 0 8 16
    rfl).2.2.2.2.2 _ s2 (by decide) h2
  exact ⟨rfl, s2, h2, e1, e3⟩

/-! ## Growth preserves the contents -/

/-- The entries of a grown array: those below the old capacity are the old ones,
those from the old capacity on are `NULL`. -/
theorem getD_take_append_zeros (l : List Nat) (c m : Nat) (hl : l.length = c) :
    (∀ i, i < c → (l.take c ++ List.replicate m 0).getD i 0 = l.getD i 0) ∧
    ∀ i, c ≤ i → (l.take c ++ List.replicate m 0).getD i 0 = 0 := by
  have ht : l.take c = l := by rw [← hl]; exact List.take_length l
  rw [ht]
  refine ⟨fun i hi => ?_, fun i hi => ?_⟩
  · rw [List.getD_eq_getElem?_getD, List.getD_eq_getElem?_getD,
      List.getElem?_append_left (by omega)]
  · rw [List.getD_eq_getElem?_getD, List.getElem?_append_right (by omega),
      List.getElem?_replicate]
    split_ifs <;> rfl

/-- A successful call of `__emutls_get_address` by thread `t` in threaded mode, the
key existing, leaves the thread with the array `ensure_array` returned, but for the
entry of the slot. -/
theorem get_address_array (T : Target) (s s1 : State) (t d arrAns rawAns p : Nat)
    (hkx : key_exists (resolve_offset T s d).1 t = true)
    (h : __emutls_get_address T true s t d arrAns rawAns = .ok (s1, p)) :
    ∃ s2 arr, ensure_array T (resolve_offset T s d).1 t (resolve_offset T s d).2 arrAns
        = .ok (s2, arr) ∧
      ((resolve_offset T s d).2 + T.modulus - 1) % T.modulus < arr.data.length ∧
      ∃ arr1, s1.key t = some arr1 ∧ arr1.size = arr.size ∧ arr1.base = arr.base ∧
        arr1.skip_destructor_rounds = arr.skip_destructor_rounds ∧
        arr1.data.length = arr.data.length ∧
        ∀ i, i ≠ ((resolve_offset T s d).2 + T.modulus - 1) % T.modulus →
          arr1.data.getD i 0 = arr.data.getD i 0 := by
  obtain ⟨s2, arr, he, hidx, hcase⟩ := get_address_ok T s s1 t d arrAns rawAns p h
  obtain ⟨-, -, -, -, e5, -⟩ := ensure_array_frame T _ s2 t _ arrAns arr he
  have e5 := e5 hkx
  refine ⟨s2, arr, he, hidx, ?_⟩
  rcases hcase with ⟨-, -, rfl⟩ | ⟨-, s3, ha, rfl⟩
  · exact ⟨arr, e5, rfl, rfl, rfl, rfl, fun _ _ => rfl⟩
  · rw [alloc_write_array T s2 s3 t _ rawAns p arr _ ha e5]
    refine ⟨_, Function.update_same _ _ _, rfl, rfl, rfl, ?_, fun i hi => ?_⟩
    · dsimp only
      rw [List.length_set]
    · dsimp only
      rw [List.getD_eq_getElem?_getD, List.getD_eq_getElem?_getD,
        List.getElem?_set_ne (fun hh => hi hh.symm)]

/-- Growth in a successful threaded call: the array `ensure_array` returns is
longer than the old one, agrees with it below the old capacity, is `NULL` from there
on, and keeps the rounds to skip. -/
theorem get_address_growth (T : Target) (s s1 : State) (t d arrAns rawAns p : Nat)
    (arr0 : __emutls_array) (hfit : Fits T s) (hkey : s.key t = some arr0)
    (hgrow : arr0.size < (resolve_offset T s d).2)
    (h : __emutls_get_address T true s t d arrAns rawAns = .ok (s1, p)) :
    ∃ s2 arr, ensure_array T (resolve_offset T s d).1 t (resolve_offset T s d).2 arrAns
        = .ok (s2, arr) ∧
      arr.size = grown_size T arr0.size (resolve_offset T s d).2 ∧
      arr0.size < arr.size ∧ arr.data.length = arr.size ∧
      (∀ i, i < arr0.size → arr.data.getD i 0 = arr0.data.getD i 0) ∧
      (∀ i, arr0.size ≤ i → arr.data.getD i 0 = 0) ∧
      arr.skip_destructor_rounds = arr0.skip_destructor_rounds ∧
      ∃ arr1, s1.key t = some arr1 ∧ arr1.size = arr.size ∧
        arr1.skip_destructor_rounds = arr0.skip_destructor_rounds ∧
        ∀ i, i < arr0.size → arr1.data.getD i 0 = arr0.data.getD i 0 := by
  obtain ⟨hf1, hoff, -⟩ := resolve_offset_fits T s d hfit
  obtain ⟨fk, -, -, -⟩ := resolve_offset_frame T s d
  obtain ⟨s2, arr, he, hidx, arr1, k1, k2, -, k4, -, k6⟩ :=
    get_address_array T s s1 t d arrAns rawAns p
      (key_exists_of_some _ t arr0 (by rw [fk]; exact hkey)) h
  obtain ⟨hlen, -⟩ := ensure_array_fits T _ s2 t _ arrAns arr hf1 he
  have hl0 : arr0.data.length = arr0.size := (hfit.2 t arr0 hkey).1
  have hi := index_of_slot T (resolve_offset T s d).2 (by omega) hoff
  rw [hi] at hidx k6
  rcases ensure_array_ok T _ s2 t _ arrAns arr he with
    ⟨hn, -⟩ | ⟨a0, h0, -, -, -, -, harr, -⟩ | ⟨h0, hle, -⟩
  · rw [fk, hkey] at hn; cases hn
  · rw [fk, hkey, Option.some.injEq] at h0
    subst h0
    obtain ⟨g1, g2⟩ := getD_take_append_zeros arr0.data arr0.size
      (grown_size T arr0.size (resolve_offset T s d).2 - arr0.size) hl0
    have hsz : arr.size = grown_size T arr0.size (resolve_offset T s d).2 := by rw [harr]
    have hdata : arr.data = arr0.data.take arr0.size ++ List.replicate
        (grown_size T arr0.size (resolve_offset T s d).2 - arr0.size) 0 := by rw [harr]
    have hskip : arr.skip_destructor_rounds = arr0.skip_destructor_rounds := by rw [harr]
    refine ⟨s2, arr, he, hsz, by omega, hlen, fun i hi1 => ?_, fun i hi1 => ?_, hskip,
      arr1, k1, k2, by rw [k4, hskip], fun i hi1 => ?_⟩
    · rw [hdata]; exact g1 i hi1
    · rw [hdata]; exact g2 i hi1
    · rw [k6 i (by omega), hdata]; exact g1 i hi1
  · rw [fk, hkey, Option.some.injEq] at h0
    subst h0
    omega

/-- One operation does not lower the capacity of an array that is there before and
after it, and only the exit hook of the thread takes the array away. -/
theorem capacity_step (T : Target) (s s1 : State) (op : Op) (t : Nat)
    (arr0 : __emutls_array) (hkey : s.key t = some arr0) (hstep : step T s op = .ok s1) :
    (∀ arr1, s1.key t = some arr1 → arr0.size ≤ arr1.size) ∧
    (op ≠ .exit t → ∃ arr1, s1.key t = some arr1) := by
  cases op with
  | get active t1 d arrAns rawAns =>
    simp only [step] at hstep
    cases hg : __emutls_get_address T active s t1 d arrAns rawAns with
    | error e => rw [hg] at hstep; cases hstep
    | ok r =>
      obtain ⟨s2, p⟩ := r
      rw [hg] at hstep
      dsimp only at hstep
      rw [Except.ok.injEq] at hstep
      subst hstep
      cases active with
      | false =>
        obtain ⟨-, f2, -⟩ := get_address_single_facts T s s2 t1 d arrAns rawAns p hg
        rw [f2, hkey]
        exact ⟨fun arr1 h1 => by rw [Option.some.injEq] at h1; rw [h1], fun _ => ⟨arr0, rfl⟩⟩
      | true =>
        by_cases ht : t = t1
        · subst ht
          obtain ⟨fk, -, -, -⟩ := resolve_offset_frame T s d
          obtain ⟨s3, arr, he, -, arr2, k1, k2, -⟩ :=
            get_address_array T s s2 t d arrAns rawAns p
              (key_exists_of_some _ t arr0 (by rw [fk]; exact hkey)) hg
          refine ⟨fun arr1 h1 => ?_, fun _ => ⟨arr2, k1⟩⟩
          rw [k1, Option.some.injEq] at h1
          subst h1
          rw [k2]
          rcases ensure_array_ok T _ s3 t _ arrAns arr he with
            ⟨hn, -⟩ | ⟨a0, h0, -, -, hge, -, harr, -⟩ | ⟨h0, -, -⟩
          · rw [fk, hkey] at hn; cases hn
          · rw [fk, hkey, Option.some.injEq] at h0
            subst h0
            rw [harr]
            exact hge
          · rw [fk, hkey, Option.some.injEq] at h0
            rw [h0]
        · obtain ⟨-, -, g3⟩ := get_address_frame T s s2 t1 d arrAns rawAns p hg
          rw [g3 t ht, hkey]
          exact ⟨fun arr1 h1 => by rw [Option.some.injEq] at h1; rw [h1], fun _ => ⟨arr0, rfl⟩⟩
  | register d size align templ =>
    simp only [step] at hstep
    rw [Except.ok.injEq] at hstep
    subst hstep
    dsimp only
    rw [hkey]
    exact ⟨fun arr1 h1 => by rw [Option.some.injEq] at h1; rw [h1], fun _ => ⟨arr0, rfl⟩⟩
  | exit t1 =>
    simp only [step] at hstep
    by_cases ht : t = t1
    · subst ht
      refine ⟨fun arr1 h1 => ?_, fun hne => absurd rfl hne⟩
      rcases thread_exit_round_key T s s1 t hstep with hn | ⟨a, ha, hb⟩
      · rw [hn] at h1; cases h1
      · rw [hkey, Option.some.injEq] at ha
        subst ha
        rw [hb, Option.some.injEq] at h1
        rw [← h1]
    · obtain ⟨-, -, -, f4⟩ := thread_exit_round_frame T s s1 t1 hstep
      rw [f4 t ht, hkey]
      exact ⟨fun arr1 h1 => by rw [Option.some.injEq] at h1; rw [h1], fun _ => ⟨arr0, rfl⟩⟩

/-- Over a run without the exit hook of thread `t`, the array of `t` stays and its
capacity does not go down. -/
theorem capacity_run (T : Target) (t : Nat) (ops : List Op) :
    ∀ (s s1 : State) (arr0 : __emutls_array), s.key t = some arr0 →
      (∀ op ∈ ops, op ≠ .exit t) → run T s ops = .ok s1 →
      ∃ arr1, s1.key t = some arr1 ∧ arr0.size ≤ arr1.size := by
  induction ops with
  | nil =>
    intro s s1 arr0 hkey _ h
    simp only [run] at h
    rw [Except.ok.injEq] at h
    subst h
    exact ⟨arr0, hkey, le_refl _⟩
  | cons op ops ih =>
    intro s s1 arr0 hkey hall h
    simp only [run] at h
    cases hs : step T s op with
    | error e => rw [hs] at h; cases h
    | ok s2 =>
      rw [hs] at h
      dsimp only at h
      obtain ⟨c1, c2⟩ := capacity_step T s s2 op t arr0 hkey hs
      obtain ⟨arr2, h2⟩ := c2 (hall op (List.mem_cons_self _ _))
      obtain ⟨arr1, h1, hle⟩ :=
        ih s2 s1 arr2 h2 (fun o ho => hall o (List.mem_cons_of_mem _ ho)) h
      exact ⟨arr1, h1, le_trans (c1 arr2 h2) hle⟩

/-- C15: for a thread whose store has capacity `c`.  When a successful call of
`__emutls_get_address` grows the store, the new capacity is greater than `c`, the
entries below `c` are unchanged, the entries from `c` on are `NULL` before the entry
of the slot is filled, and `skip_destructor_rounds` is unchanged; after the call
the store still has the new capacity and the old entries.  No operation lowers the
capacity of the store, and over a run without the exit hook of the thread the store
stays with a capacity that is at least `c`. -/
theorem growth_preserves (T : Target) (s : State) (t : Nat) (arr0 : __emutls_array)
    (hfit : Fits T s) (hkey : s.key t = some arr0) :
    (∀ (d arrAns rawAns p : Nat) (s1 : State),
      arr0.size < (resolve_offset T s d).2 →
      __emutls_get_address T true s t d arrAns rawAns = .ok (s1, p) →
      ∃ s2 arr, ensure_array T (resolve_offset T s d).1 t (resolve_offset T s d).2 arrAns
          = .ok (s2, arr) ∧
        arr.size = grown_size T arr0.size (resolve_offset T s d).2 ∧
        arr0.size < arr.size ∧ arr.data.length = arr.size ∧
        (∀ i, i < arr0.size → arr.data.getD i 0 = arr0.data.getD i 0) ∧
        (∀ i, arr0.size ≤ i → arr.data.getD i 0 = 0) ∧
        arr.skip_destructor_rounds = arr0.skip_destructor_rounds ∧
        ∃ arr1, s1.key t = some arr1 ∧ arr1.size = arr.size ∧
          arr1.skip_destructor_rounds = arr0.skip_destructor_rounds ∧
          ∀ i, i < arr0.size → arr1.data.getD i 0 = arr0.data.getD i 0) ∧
    (∀ (op : Op) (s1 : State) (arr1 : __emutls_array),
      step T s op = .ok s1 → s1.key t = some arr1 → arr0.size ≤ arr1.size) ∧
    ∀ (ops : List Op) (s1 : State), (∀ op ∈ ops, op ≠ .exit t) → run T s ops = .ok s1 →
      ∃ arr1, s1.key t = some arr1 ∧ arr0.size ≤ arr1.size :=
  ⟨fun d arrAns rawAns p s1 hgrow h =>
      get_address_growth T s s1 t d arrAns rawAns p arr0 hfit hkey hgrow h,
    fun op s1 arr1 hstep h1 => (capacity_step T s s1 op t arr0 hkey hstep).1 arr1 h1,
    fun ops s1 hall hrun => capacity_run T t ops s s1 arr0 hkey hall hrun⟩

/-- Witness of C15: thread 0 of `growState`, whose store has capacity 33 and one
block at index 0, accesses a descriptor of slot 66; the store grows to capacity 66,
keeps the block at index 0 and receives the new block at index 65. -/
theorem growth_preserves_witness :
    (Fits T64 growState ∧
      growState.key 0 = some ⟨4096, 0, 33, 8200 :: List.replicate 32 0⟩ ∧
      33 < (resolve_offset T64 growState 1).2) ∧
    ∃ s1, __emutls_get_address T64 true growState 0 1 16384 32768 = .ok (s1, 32776) ∧
      ∃ arr1, s1.key 0 = some arr1 ∧ 33 < arr1.size ∧ arr1.data.getD 0 0 = 8200 := by
  have hs : ∃ s1, __emutls_get_address T64 true growState 0 1 16384 32768
      = .ok (s1, 32776) := ⟨_, rfl⟩
  obtain ⟨s1, h1⟩ := hs
  obtain ⟨s2, arr, -, -, g3, -, -, -, -, arr1, k1, k2, -, k4⟩ :=
    (growth_preserves T64 growState 0 ⟨4096, 0, 33, 8200 :: List.replicate 32 0⟩
      growState_fits rfl).1 1 16384 32768 32776 s1 (by decide) h1
  exact ⟨⟨growState_fits, rfl, by decide⟩, s1, h1, arr1, k1, by rw [k2]; exact g3,
    k4 0 (by decide)⟩

end Emutls
